import Mathlib

/-!
# Gensyn allocation checker: the core of `src/App.jsx`

A shallow embedding of the two functions that carry the program's logic,
`fetchTestnetData` (address validation and synthetic telemetry) and
`calculateAllocation` (scoring, jitter, clamp and tier), followed by the
properties stated about them.

Modelling conventions.

* The source is read twice.  In the exact reading a JavaScript number is a
  `JSNum`: either `NaN` or a finite value kept as an exact rational, and every
  operation is the exact operation.  It serves the statements that are worded in
  exact arithmetic or that rounding cannot affect (validation, the hardware
  bucket, the two multiplier tables, the band of the jitter, case insensitivity,
  and the dependence of the estimate on the draw).
* In the binary64 reading (namespace `Binary64`) a number is an `F64`: `NaN`, an
  infinity, or a finite value, and every operation rounds its exact result to
  nearest, ties to even, overflowing to an infinity.  It serves the statements
  that rounding or overflow can decide: the lower bound on the estimate, the
  agreement of tier and estimate, and the ranges of the synthesized sample.
* `Math.sin` and `Math.random` are the two library calls whose values the source
  does not determine.  `Math.sin` is a parameter `sin : ℚ → ℚ` of the model (in
  the binary64 reading its value is rounded to binary64), and the value drawn by
  `Math.random()` is a parameter `rnd : ℚ`.
* A string is the list of its characters.  The address pattern accepts ASCII
  characters only, so the difference between UTF-16 code units and code points
  never shows: a string with any other character is rejected either way.
* The `await` on a timer at the head of `fetchTestnetData` has no effect on the
  value returned and is left out; a thrown `Error` is the `Except.error` carrying
  its message.
-/

namespace GensynChecker

/-! ## JavaScript numbers -/

/-- A JavaScript number: `NaN`, or a finite value kept as an exact rational. -/
inductive JSNum where
  | nan : JSNum
  | num (q : ℚ) : JSNum
  deriving DecidableEq

namespace JSNum

/-- Addition; `NaN` is absorbing. -/
def add : JSNum → JSNum → JSNum
  | num a, num b => num (a + b)
  | _, _ => nan

/-- Subtraction; `NaN` is absorbing. -/
def sub : JSNum → JSNum → JSNum
  | num a, num b => num (a - b)
  | _, _ => nan

/-- Multiplication; `NaN` is absorbing. -/
def mul : JSNum → JSNum → JSNum
  | num a, num b => num (a * b)
  | _, _ => nan

/-- Division.  A zero divisor (an infinity or `NaN` in JavaScript) is outside the
finite model and yields `nan`; the only divisor in the source is the non-zero
constant `5000 * 30000`. -/
def div : JSNum → JSNum → JSNum
  | num a, num b => if b = 0 then nan else num (a / b)
  | _, _ => nan

/-- The relation `a < b` of JavaScript: false as soon as one side is `NaN`. -/
def lt : JSNum → JSNum → Bool
  | num a, num b => decide (a < b)
  | _, _ => false

instance : Add JSNum := ⟨add⟩
instance : Sub JSNum := ⟨sub⟩
instance : Mul JSNum := ⟨mul⟩
instance : Div JSNum := ⟨div⟩
instance : LT JSNum := ⟨fun a b => lt a b = true⟩
instance (a b : JSNum) : Decidable (a < b) := inferInstanceAs (Decidable (lt a b = true))
instance (n : Nat) : OfNat JSNum n := ⟨num n⟩
instance : OfScientific JSNum := ⟨fun m s e => num (OfScientific.ofScientific m s e)⟩

end JSNum

/-- The function `Math.floor`. -/
def Math.floor : JSNum → JSNum
  | .num q => .num (⌊q⌋ : ℤ)
  | .nan => .nan

/-- The function `Math.max` on two arguments: `NaN` if either is `NaN`. -/
def Math.max : JSNum → JSNum → JSNum
  | .num a, .num b => .num (Max.max a b)
  | _, _ => .nan

/-- The function `Math.sin`, given the values `sin` it takes on finite arguments. -/
def Math.sin (sin : ℚ → ℚ) : JSNum → JSNum
  | .num q => .num (sin q)
  | .nan => .nan

/-! ## Strings -/

/-- The method `String.prototype.toLowerCase`, on the ASCII letters.  It is only
applied to a string that has passed the address pattern, which holds ASCII
characters only. -/
def toLowerCase (s : List Char) : List Char := s.map Char.toLower

/-- Resolution of a relative index of `slice` against a string of length `len`:
a negative index counts from the end, and the result is clamped to `0..len`. -/
def relIndex (len : Nat) (i : Int) : Nat :=
  if i < 0 then (len + i).toNat else min i.toNat len

/-- The call `s.slice(start, stop)`. -/
def slice (s : List Char) (start stop : Int) : List Char :=
  let a := relIndex s.length start
  let b := relIndex s.length stop
  (s.drop a).take (b - a)

/-- The call `s.slice(start)`. -/
def sliceFrom (s : List Char) (start : Int) : List Char :=
  s.drop (relIndex s.length start)

/-- The characters `parseInt` skips at the head of its input (white space and
line terminators). -/
def isStrWhiteSpace (c : Char) : Bool :=
  let n := c.toNat
  n == 0x9 || n == 0xA || n == 0xB || n == 0xC || n == 0xD || n == 0x20 || n == 0xA0 ||
  n == 0x1680 || (0x2000 ≤ n && n ≤ 0x200A) || n == 0x2028 || n == 0x2029 ||
  n == 0x202F || n == 0x205F || n == 0x3000 || n == 0xFEFF

/-- The value of a character as a digit, `0-9` then letters of either case. -/
def digitValue (c : Char) : Option Nat :=
  if '0' ≤ c ∧ c ≤ '9' then some (c.toNat - 48)
  else if 'a' ≤ c ∧ c ≤ 'z' then some (c.toNat - 87)
  else if 'A' ≤ c ∧ c ≤ 'Z' then some (c.toNat - 55)
  else none

/-- Whether a character is a digit of the given radix. -/
def isRadixDigit (radix : Nat) (c : Char) : Bool :=
  match digitValue c with
  | some d => decide (d < radix)
  | none => false

/-- The value of a character known to be a digit (`0` otherwise). -/
def digitOf (c : Char) : Nat := (digitValue c).getD 0

/-- The sign step of `parseInt`: a leading `-` or `+` is consumed, and `-` makes
the result negative. -/
def stripSign (s : List Char) : Bool × List Char :=
  match s with
  | '-' :: t => (true, t)
  | '+' :: t => (false, t)
  | _ => (false, s)

/-- The prefix step of `parseInt`: for radix 16 a leading `0x` or `0X` is
consumed. -/
def stripHexMarker (radix : Nat) (s : List Char) : List Char :=
  if radix = 16 then
    match s with
    | '0' :: 'x' :: t => t
    | '0' :: 'X' :: t => t
    | _ => s
  else s

/-- The function `parseInt(s, radix)` for a radix in `2..36`: skip white space,
read a sign, for radix 16 skip `0x` or `0X`, then read the longest run of digits
of the radix; no digit at all gives `NaN`. -/
def parseInt (s : List Char) (radix : Nat) : JSNum :=
  let s1 := s.dropWhile isStrWhiteSpace
  let signed := stripSign s1
  let s3 := stripHexMarker radix signed.2
  let ds := s3.takeWhile (isRadixDigit radix)
  if ds.isEmpty then JSNum.nan
  else
    let v : Nat := ds.foldl (fun acc c => acc * radix + digitOf c) 0
    if signed.1 then JSNum.num (-(v : ℚ)) else JSNum.num (v : ℚ)

/-! ## The address pattern `/^0x[a-fA-F0-9]{40}$/` -/

/-- The pieces a pattern of this program is made of. -/
inductive RegexNode where
  | bol : RegexNode
  | eol : RegexNode
  | lit (c : Char) : RegexNode
  | cls (ranges : List (Char × Char)) : RegexNode

/-- Whether a character lies in one of the ranges of a character class. -/
def inClass (ranges : List (Char × Char)) (c : Char) : Bool :=
  ranges.any (fun r => decide (r.1 ≤ c) && decide (c ≤ r.2))

/-- Match a pattern at offset `pos` of the input, `rest` being the input from
that offset on.  Without the `m` flag, `^` holds at offset 0 only and `$` at the
end of the input only. -/
def matchHere : List RegexNode → Nat → List Char → Bool
  | [], _, _ => true
  | .bol :: p, pos, rest => pos == 0 && matchHere p pos rest
  | .eol :: p, pos, rest => rest.isEmpty && matchHere p pos rest
  | .lit c :: p, pos, d :: t => d == c && matchHere p (pos + 1) t
  | .lit _ :: _, _, [] => false
  | .cls rs :: p, pos, d :: t => inClass rs d && matchHere p (pos + 1) t
  | .cls _ :: _, _, [] => false

/-- Whether `s.match(pattern)` finds a match: try every offset of the input. -/
def regexMatch (pat : List RegexNode) (s : List Char) : Bool :=
  (List.range (s.length + 1)).any (fun i => matchHere pat i (s.drop i))

/-- The pattern `/^0x[a-fA-F0-9]{40}$/`, the quantifier `{40}` unfolded. -/
def addressPattern : List RegexNode :=
  [.bol, .lit '0', .lit 'x'] ++
    List.replicate 40 (.cls [('a', 'f'), ('A', 'F'), ('0', '9')]) ++ [.eol]

/-! ## `fetchTestnetData` -/

/-- The record returned by `fetchTestnetData`. -/
structure TelemetrySample where
  transactions : JSNum
  firstTxDaysAgo : JSNum
  uptime : JSNum
  testnetScore : JSNum
  hardwareTier : JSNum
  hardwareName : String
  deriving DecidableEq

/-- The seed of an address: `parseInt(hash.slice(2, 10), 16)` with
`hash = address.toLowerCase()`. -/
def seedOf (address : String) : JSNum :=
  parseInt (slice (toLowerCase address.data) 2 10) 16

/-- The closure `random(min, max)` of `fetchTestnetData`, with the seed it
captures made explicit. -/
def random (sin : ℚ → ℚ) (seed min max : JSNum) : JSNum :=
  let x := Math.sin sin (seed + min) * 10000
  Math.floor ((x - Math.floor x) * (max - min + 1)) + min

/-- The hardware pattern of an address: `parseInt(hash.slice(-2), 16)`. -/
def hwPatternOf (address : String) : JSNum :=
  parseInt (sliceFrom (toLowerCase address.data) (-2)) 16

/-- The `if` chain of `fetchTestnetData` that assigns `hardwareTier` and
`hardwareName` from `hwPattern`. -/
def hardwareOf (hwPattern : JSNum) : JSNum × String :=
  if hwPattern > 200 then (5, "High-end GPU (RTX 4090/A100)")
  else if hwPattern > 150 then (4, "High-mid GPU (RTX 4070/3090)")
  else if hwPattern > 100 then (3, "Mid-range GPU (RTX 3070/4060)")
  else if hwPattern > 50 then (2, "Low-end GPU (GTX/RTX 3050)")
  else (1, "CPU Only / Basic VPS")

/-- The function `fetchTestnetData`. -/
def fetchTestnetData (sin : ℚ → ℚ) (address : String) : Except String TelemetrySample :=
  if !(regexMatch addressPattern address.data) then
    .error "Invalid Ethereum address format"
  else
    let seed := seedOf address
    let txCount := random sin seed 10 250
    let firstTxDays := random sin seed 30 270
    let uptimePercent := random sin seed 40 98
    let taskScore := random sin seed 100 10000
    let hwPattern := hwPatternOf address
    let hw := hardwareOf hwPattern
    .ok { transactions := txCount
          firstTxDaysAgo := firstTxDays
          uptime := uptimePercent
          testnetScore := taskScore
          hardwareTier := hw.1
          hardwareName := hw.2 }

/-! ## `calculateAllocation` -/

/-- The `breakdown` field of the result of `calculateAllocation`. -/
structure Breakdown where
  base : JSNum
  hardwareBonus : JSNum
  earlyBonus : JSNum
  uptimeBonus : JSNum
  deriving DecidableEq

/-- The record returned by `calculateAllocation`. -/
structure AllocationResult where
  estimated : JSNum
  tier : JSNum
  tierName : String
  breakdown : Breakdown
  deriving DecidableEq

/-- The object literal `hardwareMultipliers`, read at a numeric key: the keys are
`1` to `5`, and any other key finds no property (`undefined`). -/
def hardwareMultipliers (key : JSNum) : Option JSNum :=
  if key = 5 then some 5.0
  else if key = 4 then some 3.0
  else if key = 3 then some 2.0
  else if key = 2 then some 1.5
  else if key = 1 then some 1.0
  else none

/-- The conversion of a looked-up property to a number: `undefined` is `NaN`. -/
def toNumber : Option JSNum → JSNum
  | some v => v
  | none => JSNum.nan

/-- The variable `earlyBonus` of `calculateAllocation`, as assigned by its `if`
chain on `data.firstTxDaysAgo`. -/
def earlyBonusOf (firstTxDaysAgo : JSNum) : JSNum :=
  if firstTxDaysAgo > 240 then 3.0
  else if firstTxDaysAgo > 180 then 2.5
  else if firstTxDaysAgo > 120 then 2.0
  else if firstTxDaysAgo > 60 then 1.5
  else 1.2

/-- The constant `uptimeMultiplier` of `calculateAllocation`, a chain of
conditional expressions on `data.uptime`. -/
def uptimeMultiplierOf (uptime : JSNum) : JSNum :=
  if uptime > 90 then 1.5
  else if uptime > 70 then 1.3
  else if uptime > 50 then 1.1
  else 1.0

/-- The variable `weightedScore` of `calculateAllocation` after its last
assignment. -/
def weightedScoreOf (data : TelemetrySample) : JSNum :=
  let weightedScore : JSNum := 0
  let scoreWeight := data.testnetScore * 0.4
  let weightedScore := weightedScore + scoreWeight
  let hwMultiplier := hardwareMultipliers data.hardwareTier
  let weightedScore := weightedScore * toNumber hwMultiplier
  let earlyBonus := earlyBonusOf data.firstTxDaysAgo
  let weightedScore := weightedScore * earlyBonus
  let uptimeMultiplier := uptimeMultiplierOf data.uptime
  weightedScore * uptimeMultiplier

/-- The constant `allocation` of `calculateAllocation`. -/
def allocationOf (weightedScore : JSNum) : JSNum :=
  let TOTAL_AIRDROP : JSNum := 160000000
  let ESTIMATED_PARTICIPANTS : JSNum := 30000
  let avgWeightedScore : JSNum := 5000
  let userShare := weightedScore / (avgWeightedScore * ESTIMATED_PARTICIPANTS)
  Math.floor (userShare * TOTAL_AIRDROP)

/-- The constant `finalAllocation` of `calculateAllocation`; `rnd` is the value
returned by the call `Math.random()`. -/
def finalAllocationOf (allocation : JSNum) (rnd : ℚ) : JSNum :=
  let variance := allocation * 0.1
  Math.floor (allocation + (JSNum.num rnd * variance * 2 - variance))

/-- The `if` chain of `calculateAllocation` that assigns `tier` and `tierName`
from `finalAllocation`. -/
def tierOf (finalAllocation : JSNum) : JSNum × String :=
  if finalAllocation > 70000 then (1, "Elite (Top 5%)")
  else if finalAllocation > 40000 then (2, "High (Top 15%)")
  else if finalAllocation > 15000 then (3, "Mid-High (Top 30%)")
  else if finalAllocation > 5000 then (4, "Mid (Top 60%)")
  else (5, "Low (Bottom 40%)")

/-- The function `calculateAllocation`; `rnd` is the value returned by its one
call of `Math.random()`. -/
def calculateAllocation (rnd : ℚ) (data : TelemetrySample) : AllocationResult :=
  let weightedScore := weightedScoreOf data
  let allocation := allocationOf weightedScore
  let finalAllocation := finalAllocationOf allocation rnd
  let t := tierOf finalAllocation
  { estimated := Math.max 1000 finalAllocation
    tier := t.1
    tierName := t.2
    breakdown :=
      { base := Math.floor (data.testnetScore * 5)
        hardwareBonus := Math.floor (weightedScore * 0.3)
        earlyBonus := Math.floor (weightedScore * 0.2)
        uptimeBonus := Math.floor (weightedScore * 0.15) } }

/-- The two calls `handleCheck` makes on the entered address: `fetchTestnetData`,
then `calculateAllocation` on the sample it returned. -/
def evaluate (sin : ℚ → ℚ) (rnd : ℚ) (address : String) : Except String AllocationResult :=
  match fetchTestnetData sin address with
  | .ok testnetData => .ok (calculateAllocation rnd testnetData)
  | .error e => .error e

/-! ## The vocabulary of the specification -/

/-- A hexadecimal character: one of `0-9`, `a-f`, `A-F`. -/
def isHexChar (c : Char) : Bool :=
  (decide ('0' ≤ c) && decide (c ≤ '9')) || (decide ('a' ≤ c) && decide (c ≤ 'f')) ||
    (decide ('A' ≤ c) && decide (c ≤ 'F'))

/-- The address format of the specification: the two characters `0x`, then
exactly 40 hexadecimal characters, and nothing else. -/
def isAddressForm (address : String) : Bool :=
  match address.data with
  | '0' :: 'x' :: hs => hs.length == 40 && hs.all isHexChar
  | _ => false

/-- The value of a hexadecimal character of either case (`0` for any other
character). -/
def hexValue (c : Char) : Nat :=
  if '0' ≤ c ∧ c ≤ '9' then c.toNat - '0'.toNat
  else if 'a' ≤ c ∧ c ≤ 'f' then c.toNat - 'a'.toNat + 10
  else if 'A' ≤ c ∧ c ≤ 'F' then c.toNat - 'A'.toNat + 10
  else 0

/-- The integer written by the last two characters of an address, read as two
hexadecimal digits. -/
def lastByte (address : String) : Nat :=
  match address.data.reverse with
  | lo :: hi :: _ => 16 * hexValue hi + hexValue lo
  | _ => 0

/-- Two characters that are equal, or are the two cases of one ASCII letter. -/
def sameCharUpToCase (c d : Char) : Bool :=
  c == d ||
    (decide ('A' ≤ c) && decide (c ≤ 'Z') && c.toNat + 32 == d.toNat) ||
    (decide ('A' ≤ d) && decide (d ≤ 'Z') && d.toNat + 32 == c.toNat)

/-- Two strings of the same length that differ only in the case of letters. -/
def sameUpToCase (a b : String) : Bool :=
  a.data.length == b.data.length &&
    (List.zip a.data b.data).all (fun p => sameCharUpToCase p.1 p.2)

/-- The address with seed 0 and last byte `0xff`. -/
def addressFF : String := "0x00000000000000000000000000000000000000ff"

/-- An all-lowercase address whose last byte is `0xff`. -/
def addressLower : String := "0x52908400098527886e0f7030069857d2e4169eff"

/-- The address `addressLower` with some of its letters in upper case. -/
def addressMixed : String := "0x52908400098527886E0F7030069857D2E4169EfF"

/-! ## The binary64 reading

The same two functions with every number a binary64 value and every operation
rounded to nearest, ties to even, with overflow to an infinity.  It is the
reading used for the statements that rounding or overflow can decide. -/

namespace Binary64

/-- A binary64 value: `NaN`, an infinity with its sign, or a finite value kept as
the rational it denotes.  Zero carries no sign; the program never divides by
zero, which is where the sign of a zero would show. -/
inductive F64 where
  | nan : F64
  | inf (negative : Bool) : F64
  | fin (q : ℚ) : F64
  deriving DecidableEq

/-- The integer nearest to a rational, a tie going to the even neighbour. -/
def roundNearestEven (x : ℚ) : ℤ :=
  if x - ⌊x⌋ < 1 / 2 then ⌊x⌋
  else if 1 / 2 < x - ⌊x⌋ then ⌊x⌋ + 1
  else if ⌊x⌋ % 2 = 0 then ⌊x⌋ else ⌊x⌋ + 1

/-- The exponent of the binade of a rational: `⌊log₂ |q|⌋`, and `-1022` for the
subnormal range. -/
def binadeExp (q : ℚ) : ℤ := max (Int.log 2 |q|) (-1022)

/-- Rounding of a rational to binary64: an infinity from half-way between the
largest finite value and `2 ^ 1024` on, and otherwise the nearest multiple of
the unit in the last place `2 ^ (binadeExp q - 52)`, ties to even. -/
def round64 (q : ℚ) : F64 :=
  if (2 : ℚ) ^ 1024 - 2 ^ 970 ≤ |q| then F64.inf (decide (q < 0))
  else F64.fin (roundNearestEven (q / 2 ^ (binadeExp q - 52)) * 2 ^ (binadeExp q - 52))

namespace F64

/-- Negation. -/
def neg : F64 → F64
  | nan => nan
  | inf b => inf (!b)
  | fin q => fin (-q)

/-- Addition: the rounded sum; infinities of opposite sign give `NaN`. -/
def add : F64 → F64 → F64
  | fin a, fin b => round64 (a + b)
  | inf a, inf b => if a = b then inf a else nan
  | inf a, fin _ => inf a
  | fin _, inf b => inf b
  | _, _ => nan

/-- Subtraction. -/
def sub (a b : F64) : F64 := add a (neg b)

/-- Multiplication: the rounded product; zero times an infinity gives `NaN`. -/
def mul : F64 → F64 → F64
  | fin a, fin b => round64 (a * b)
  | inf a, inf b => inf (xor a b)
  | inf a, fin b => if b = 0 then nan else inf (xor a (decide (b < 0)))
  | fin a, inf b => if a = 0 then nan else inf (xor (decide (a < 0)) b)
  | _, _ => nan

/-- Division: the rounded quotient. -/
def div : F64 → F64 → F64
  | fin a, fin b =>
    if b = 0 then (if a = 0 then nan else inf (decide (a < 0))) else round64 (a / b)
  | inf a, fin b => inf (xor a (decide (b < 0)))
  | fin _, inf _ => fin 0
  | _, _ => nan

/-- The relation `a < b` of JavaScript: false as soon as one side is `NaN`. -/
def lt : F64 → F64 → Bool
  | fin a, fin b => decide (a < b)
  | inf true, fin _ => true
  | fin _, inf false => true
  | inf true, inf false => true
  | _, _ => false

instance : Add F64 := ⟨add⟩
instance : Sub F64 := ⟨sub⟩
instance : Mul F64 := ⟨mul⟩
instance : Div F64 := ⟨div⟩
instance : LT F64 := ⟨fun a b => lt a b = true⟩
instance (a b : F64) : Decidable (a < b) := inferInstanceAs (Decidable (lt a b = true))
instance (n : Nat) : OfNat F64 n := ⟨round64 n⟩
instance : OfScientific F64 := ⟨fun m s e => round64 (OfScientific.ofScientific m s e)⟩

end F64

/-- The function `Math.floor`. -/
def Math.floor : F64 → F64
  | .fin q => .fin (⌊q⌋ : ℤ)
  | .inf b => .inf b
  | .nan => .nan

/-- The function `Math.max` on two arguments: `NaN` if either is `NaN`. -/
def Math.max : F64 → F64 → F64
  | .nan, _ => .nan
  | _, .nan => .nan
  | a, b => if a < b then b else a

/-- The function `Math.sin`, given the real values `sin` it approximates on finite
arguments: the result is a binary64 value, and `NaN` at an infinity. -/
def Math.sin (sin : ℚ → ℚ) : F64 → F64
  | .fin q => round64 (sin q)
  | _ => .nan

/-- The number a `parseInt` result denotes as a binary64 value. -/
def ofJSNum : JSNum → F64
  | .nan => .nan
  | .num q => round64 q

/-- The record returned by `fetchTestnetData`. -/
structure TelemetrySample where
  transactions : F64
  firstTxDaysAgo : F64
  uptime : F64
  testnetScore : F64
  hardwareTier : F64
  hardwareName : String
  deriving DecidableEq

/-- The seed of an address: `parseInt(hash.slice(2, 10), 16)` with
`hash = address.toLowerCase()`. -/
def seedOf (address : String) : F64 :=
  ofJSNum (parseInt (slice (toLowerCase address.data) 2 10) 16)

/-- The constant `x` of the closure `random`: `Math.sin(seed + min) * 10000`. -/
def scaledSine (sin : ℚ → ℚ) (seed min : F64) : F64 :=
  Math.sin sin (seed + min) * 10000

/-- The closure `random(min, max)` of `fetchTestnetData`, with the seed it
captures made explicit. -/
def random (sin : ℚ → ℚ) (seed min max : F64) : F64 :=
  let x := scaledSine sin seed min
  Math.floor ((x - Math.floor x) * (max - min + 1)) + min

/-- The hardware pattern of an address: `parseInt(hash.slice(-2), 16)`. -/
def hwPatternOf (address : String) : F64 :=
  ofJSNum (parseInt (sliceFrom (toLowerCase address.data) (-2)) 16)

/-- The `if` chain of `fetchTestnetData` that assigns `hardwareTier` and
`hardwareName` from `hwPattern`. -/
def hardwareOf (hwPattern : F64) : F64 × String :=
  if hwPattern > 200 then (5, "High-end GPU (RTX 4090/A100)")
  else if hwPattern > 150 then (4, "High-mid GPU (RTX 4070/3090)")
  else if hwPattern > 100 then (3, "Mid-range GPU (RTX 3070/4060)")
  else if hwPattern > 50 then (2, "Low-end GPU (GTX/RTX 3050)")
  else (1, "CPU Only / Basic VPS")

/-- The function `fetchTestnetData`. -/
def fetchTestnetData (sin : ℚ → ℚ) (address : String) : Except String TelemetrySample :=
  if !(regexMatch addressPattern address.data) then
    .error "Invalid Ethereum address format"
  else
    let seed := seedOf address
    let txCount := random sin seed 10 250
    let firstTxDays := random sin seed 30 270
    let uptimePercent := random sin seed 40 98
    let taskScore := random sin seed 100 10000
    let hwPattern := hwPatternOf address
    let hw := hardwareOf hwPattern
    .ok { transactions := txCount
          firstTxDaysAgo := firstTxDays
          uptime := uptimePercent
          testnetScore := taskScore
          hardwareTier := hw.1
          hardwareName := hw.2 }

/-- The `breakdown` field of the result of `calculateAllocation`. -/
structure Breakdown where
  base : F64
  hardwareBonus : F64
  earlyBonus : F64
  uptimeBonus : F64
  deriving DecidableEq

/-- The record returned by `calculateAllocation`. -/
structure AllocationResult where
  estimated : F64
  tier : F64
  tierName : String
  breakdown : Breakdown
  deriving DecidableEq

/-- The object literal `hardwareMultipliers`, read at a numeric key: the keys are
`1` to `5`, and any other key finds no property (`undefined`). -/
def hardwareMultipliers (key : F64) : Option F64 :=
  if key = 5 then some 5.0
  else if key = 4 then some 3.0
  else if key = 3 then some 2.0
  else if key = 2 then some 1.5
  else if key = 1 then some 1.0
  else none

/-- The conversion of a looked-up property to a number: `undefined` is `NaN`. -/
def toNumber : Option F64 → F64
  | some v => v
  | none => F64.nan

/-- The variable `earlyBonus` of `calculateAllocation`, as assigned by its `if`
chain on `data.firstTxDaysAgo`. -/
def earlyBonusOf (firstTxDaysAgo : F64) : F64 :=
  if firstTxDaysAgo > 240 then 3.0
  else if firstTxDaysAgo > 180 then 2.5
  else if firstTxDaysAgo > 120 then 2.0
  else if firstTxDaysAgo > 60 then 1.5
  else 1.2

/-- The constant `uptimeMultiplier` of `calculateAllocation`, a chain of
conditional expressions on `data.uptime`. -/
def uptimeMultiplierOf (uptime : F64) : F64 :=
  if uptime > 90 then 1.5
  else if uptime > 70 then 1.3
  else if uptime > 50 then 1.1
  else 1.0

/-- The variable `weightedScore` of `calculateAllocation` after its last
assignment. -/
def weightedScoreOf (data : TelemetrySample) : F64 :=
  let weightedScore : F64 := 0
  let scoreWeight := data.testnetScore * 0.4
  let weightedScore := weightedScore + scoreWeight
  let hwMultiplier := hardwareMultipliers data.hardwareTier
  let weightedScore := weightedScore * toNumber hwMultiplier
  let earlyBonus := earlyBonusOf data.firstTxDaysAgo
  let weightedScore := weightedScore * earlyBonus
  let uptimeMultiplier := uptimeMultiplierOf data.uptime
  weightedScore * uptimeMultiplier

/-- The constant `allocation` of `calculateAllocation`. -/
def allocationOf (weightedScore : F64) : F64 :=
  let TOTAL_AIRDROP : F64 := 160000000
  let ESTIMATED_PARTICIPANTS : F64 := 30000
  let avgWeightedScore : F64 := 5000
  let userShare := weightedScore / (avgWeightedScore * ESTIMATED_PARTICIPANTS)
  Math.floor (userShare * TOTAL_AIRDROP)

/-- The constant `finalAllocation` of `calculateAllocation`; `rnd` is the value
returned by the call `Math.random()`. -/
def finalAllocationOf (allocation : F64) (rnd : ℚ) : F64 :=
  let variance := allocation * 0.1
  Math.floor (allocation + (F64.fin rnd * variance * 2 - variance))

/-- The `if` chain of `calculateAllocation` that assigns `tier` and `tierName`
from `finalAllocation`. -/
def tierOf (finalAllocation : F64) : F64 × String :=
  if finalAllocation > 70000 then (1, "Elite (Top 5%)")
  else if finalAllocation > 40000 then (2, "High (Top 15%)")
  else if finalAllocation > 15000 then (3, "Mid-High (Top 30%)")
  else if finalAllocation > 5000 then (4, "Mid (Top 60%)")
  else (5, "Low (Bottom 40%)")

/-- The function `calculateAllocation`; `rnd` is the value returned by its one
call of `Math.random()`. -/
def calculateAllocation (rnd : ℚ) (data : TelemetrySample) : AllocationResult :=
  let weightedScore := weightedScoreOf data
  let allocation := allocationOf weightedScore
  let finalAllocation := finalAllocationOf allocation rnd
  let t := tierOf finalAllocation
  { estimated := Math.max 1000 finalAllocation
    tier := t.1
    tierName := t.2
    breakdown :=
      { base := Math.floor (data.testnetScore * 5)
        hardwareBonus := Math.floor (weightedScore * 0.3)
        earlyBonus := Math.floor (weightedScore * 0.2)
        uptimeBonus := Math.floor (weightedScore * 0.15) } }

/-- A finite value of magnitude at most `2 ^ k`. -/
def FiniteBelow (k : ℤ) (x : F64) : Prop := ∃ r : ℚ, x = .fin r ∧ |r| ≤ 2 ^ k

/-- Whether `x` is a finite value outside the interval from `-2 ^ -54` (included)
to `0` (excluded).  On that interval, and only there, the difference
`x - Math.floor(x)` rounds to `1`. -/
def isRegular (x : F64) : Bool :=
  match x with
  | .fin q => !(decide (-(2 : ℚ) ^ (-54 : ℤ) ≤ q) && decide (q < 0))
  | _ => false

/-- A sample whose task score is the integer `2 ^ 1023`. -/
def hugeSample : TelemetrySample :=
  { transactions := 10
    firstTxDaysAgo := 250
    uptime := 95
    testnetScore := .fin (2 ^ 1023)
    hardwareTier := 5
    hardwareName := "High-end GPU (RTX 4090/A100)" }

/-- A sample with the top hardware tier and a task score of 3501. -/
def sampleData : TelemetrySample :=
  { transactions := 10
    firstTxDaysAgo := 250
    uptime := 95
    testnetScore := 3501
    hardwareTier := 5
    hardwareName := "High-end GPU (RTX 4090/A100)" }

end Binary64

/-! ## Computation rules for `JSNum` -/

namespace JSNum

@[simp] theorem num_add_num (a b : ℚ) : num a + num b = num (a + b) := rfl
@[simp] theorem num_sub_num (a b : ℚ) : num a - num b = num (a - b) := rfl
@[simp] theorem num_mul_num (a b : ℚ) : num a * num b = num (a * b) := rfl
@[simp] theorem nan_add (a : JSNum) : nan + a = nan := rfl
@[simp] theorem nan_sub (a : JSNum) : nan - a = nan := rfl
@[simp] theorem nan_mul (a : JSNum) : nan * a = nan := rfl
@[simp] theorem add_nan (a : JSNum) : a + nan = nan := by cases a <;> rfl
@[simp] theorem sub_nan (a : JSNum) : a - nan = nan := by cases a <;> rfl
@[simp] theorem mul_nan (a : JSNum) : a * nan = nan := by cases a <;> rfl
@[simp] theorem nan_div (a : JSNum) : nan / a = nan := rfl

theorem num_div_num (a b : ℚ) (hb : b ≠ 0) : num a / num b = num (a / b) := by
  show div (num a) (num b) = _
  simp [div, hb]

@[simp] theorem ofNat_eq (n : Nat) : (OfNat.ofNat n : JSNum) = num (n : ℚ) := rfl

@[simp] theorem ofScientific_eq (m : Nat) (s : Bool) (e : Nat) :
    (OfScientific.ofScientific m s e : JSNum) = num (OfScientific.ofScientific m s e) := rfl

@[simp] theorem num_lt_num (a b : ℚ) : (num a < num b) ↔ a < b := by
  show lt (num a) (num b) = true ↔ _
  simp [lt]

@[simp] theorem not_nan_lt (a : JSNum) : ¬ (nan < a) := by
  show ¬ (lt nan a = true)
  simp [lt]

@[simp] theorem not_lt_nan (a : JSNum) : ¬ (a < nan) := by
  show ¬ (lt a nan = true)
  cases a <;> simp [lt]

@[simp] theorem num_inj_iff (a b : ℚ) : num a = num b ↔ a = b :=
  ⟨fun h => by cases h; rfl, fun h => by rw [h]⟩

end JSNum

@[simp] theorem Math.floor_num (q : ℚ) : Math.floor (.num q) = .num ((⌊q⌋ : ℤ) : ℚ) := rfl
@[simp] theorem Math.floor_nan : Math.floor .nan = .nan := rfl
@[simp] theorem Math.max_num (a b : ℚ) : Math.max (.num a) (.num b) = .num (Max.max a b) := rfl
@[simp] theorem Math.max_nan (a : JSNum) : Math.max a .nan = .nan := by cases a <;> rfl
@[simp] theorem Math.sin_num (sin : ℚ → ℚ) (q : ℚ) : Math.sin sin (.num q) = .num (sin q) := rfl

/-! ## Lemmas on the stages of `calculateAllocation` -/

theorem allocationOf_num (w : ℚ) :
    allocationOf (.num w) = .num ((⌊w / 150000000 * 160000000⌋ : ℤ) : ℚ) := by
  have h : ((5000 : ℕ) : ℚ) * ((30000 : ℕ) : ℚ) ≠ 0 := by norm_num
  simp only [allocationOf, JSNum.ofNat_eq, JSNum.num_mul_num, JSNum.num_div_num _ _ h,
    Math.floor_num]
  norm_num

theorem finalAllocationOf_num (a rnd : ℚ) :
    finalAllocationOf (.num a) rnd
      = .num ((⌊a + (rnd * (a * (1 / 10)) * 2 - a * (1 / 10))⌋ : ℤ) : ℚ) := by
  simp only [finalAllocationOf, JSNum.ofNat_eq, JSNum.ofScientific_eq, JSNum.num_mul_num,
    JSNum.num_sub_num, JSNum.num_add_num, Math.floor_num]
  norm_num

/-! ## The address pattern accepts exactly the address format -/

theorem char_le_iff (c d : Char) : c ≤ d ↔ c.toNat ≤ d.toNat := by
  rw [Char.le_def]
  exact Iff.rfl

theorem isHexChar_iff (c : Char) :
    isHexChar c = true ↔
      (48 ≤ c.toNat ∧ c.toNat ≤ 57) ∨ (97 ≤ c.toNat ∧ c.toNat ≤ 102) ∨
        (65 ≤ c.toNat ∧ c.toNat ≤ 70) := by
  have h0 : ('0' ≤ c) ↔ 48 ≤ c.toNat := char_le_iff _ _
  have h9 : (c ≤ '9') ↔ c.toNat ≤ 57 := char_le_iff _ _
  have ha : ('a' ≤ c) ↔ 97 ≤ c.toNat := char_le_iff _ _
  have hf : (c ≤ 'f') ↔ c.toNat ≤ 102 := char_le_iff _ _
  have hA : ('A' ≤ c) ↔ 65 ≤ c.toNat := char_le_iff _ _
  have hF : (c ≤ 'F') ↔ c.toNat ≤ 70 := char_le_iff _ _
  unfold isHexChar
  rw [Bool.or_eq_true, Bool.or_eq_true, Bool.and_eq_true, Bool.and_eq_true, Bool.and_eq_true,
    decide_eq_true_iff, decide_eq_true_iff, decide_eq_true_iff, decide_eq_true_iff,
    decide_eq_true_iff, decide_eq_true_iff, h0, h9, ha, hf, hA, hF, or_assoc]

theorem inClass_hex (c : Char) :
    inClass [('a', 'f'), ('A', 'F'), ('0', '9')] c = isHexChar c := by
  simp only [inClass, isHexChar, List.any_cons, List.any_nil, Bool.or_false]
  cases decide ('0' ≤ c) && decide (c ≤ '9') <;>
    cases decide ('a' ≤ c) && decide (c ≤ 'f') <;>
      cases decide ('A' ≤ c) && decide (c ≤ 'F') <;> rfl

theorem matchHere_replicate_cls (rs : List (Char × Char)) :
    ∀ (n pos : Nat) (s : List Char),
      matchHere (List.replicate n (.cls rs) ++ [.eol]) pos s
        = (s.length == n && s.all (inClass rs)) := by
  intro n
  induction n with
  | zero =>
    intro pos s
    cases s with
    | nil => simp [matchHere]
    | cons d t => simp [matchHere]
  | succ n ih =>
    intro pos s
    cases s with
    | nil => simp [List.replicate_succ, matchHere]
    | cons d t =>
      simp only [List.replicate_succ, List.cons_append, matchHere, List.length_cons,
        List.all_cons, List.append_eq]
      rw [ih]
      cases inClass rs d <;> simp

theorem regexMatch_bol (p : List RegexNode) (s : List Char) :
    regexMatch (.bol :: p) s = matchHere p 0 s := by
  unfold regexMatch
  cases h : matchHere p 0 s with
  | true =>
    rw [List.any_eq_true]
    exact ⟨0, List.mem_range.mpr (Nat.succ_pos _), by simp [matchHere, h]⟩
  | false =>
    rw [List.any_eq_false]
    intro i _
    cases i with
    | zero => simp [matchHere, h]
    | succ j => simp [matchHere]

theorem regexMatch_addressPattern (address : String) :
    regexMatch addressPattern address.data = isAddressForm address := by
  have hp : addressPattern
      = .bol :: .lit '0' :: .lit 'x' ::
          (List.replicate 40 (.cls [('a', 'f'), ('A', 'F'), ('0', '9')]) ++ [.eol]) := rfl
  rw [hp, regexMatch_bol]
  unfold isAddressForm
  have hcls : inClass [('a', 'f'), ('A', 'F'), ('0', '9')] = isHexChar := funext inClass_hex
  rcases address.data with _ | ⟨c0, _ | ⟨c1, hs⟩⟩
  · simp [matchHere]
  · by_cases h0 : c0 = '0'
    · subst h0
      simp [matchHere]
    · simp [matchHere, h0]
  · by_cases h0 : c0 = '0'
    · subst h0
      by_cases h1 : c1 = 'x'
      · subst h1
        simp only [matchHere, matchHere_replicate_cls, hcls, beq_self_eq_true, Bool.true_and]
      · simp [matchHere, h1]
    · simp [matchHere, h0]

/-- An accepted address spelled out: `0x` and forty hexadecimal characters. -/
theorem isAddressForm_data (address : String) (h : isAddressForm address = true) :
    ∃ hs : List Char, address.data = '0' :: 'x' :: hs ∧ hs.length = 40 ∧
      ∀ c ∈ hs, isHexChar c = true := by
  unfold isAddressForm at h
  split at h
  · rename_i hs heq
    simp only [Bool.and_eq_true, beq_iff_eq, List.all_eq_true] at h
    exact ⟨hs, heq, h.1, h.2⟩
  · exact absurd h (by simp)

theorem fetchTestnetData_of_form (sin : ℚ → ℚ) (address : String)
    (h : isAddressForm address = true) :
    fetchTestnetData sin address
      = .ok { transactions := random sin (seedOf address) 10 250
              firstTxDaysAgo := random sin (seedOf address) 30 270
              uptime := random sin (seedOf address) 40 98
              testnetScore := random sin (seedOf address) 100 10000
              hardwareTier := (hardwareOf (hwPatternOf address)).1
              hardwareName := (hardwareOf (hwPatternOf address)).2 } := by
  simp [fetchTestnetData, regexMatch_addressPattern, h]

theorem fetchTestnetData_of_not_form (sin : ℚ → ℚ) (address : String)
    (h : isAddressForm address = false) :
    fetchTestnetData sin address = .error "Invalid Ethereum address format" := by
  simp [fetchTestnetData, regexMatch_addressPattern, h]

/-- C1: `fetchTestnetData` fails, and then with the message
`Invalid Ethereum address format`, exactly when the address is not `0x` followed
by exactly 40 hexadecimal characters; on every address of that form it returns
a sample. -/
theorem fetchTestnetData_error_iff (sin : ℚ → ℚ) (address : String) :
    (fetchTestnetData sin address = .error "Invalid Ethereum address format"
        ↔ isAddressForm address = false) ∧
    ((∃ e, fetchTestnetData sin address = .error e) ↔ isAddressForm address = false) ∧
    (isAddressForm address = true → ∃ s, fetchTestnetData sin address = .ok s) := by
  cases h : isAddressForm address with
  | true =>
    refine ⟨?_, ?_, fun _ => ⟨_, fetchTestnetData_of_form sin address h⟩⟩
    · rw [fetchTestnetData_of_form sin address h]
      simp
    · rw [fetchTestnetData_of_form sin address h]
      simp
  | false =>
    refine ⟨?_, ?_, fun hc => absurd hc (by simp)⟩
    · rw [fetchTestnetData_of_not_form sin address h]
      simp
    · rw [fetchTestnetData_of_not_form sin address h]
      simp

/-- Instance of C1: the address `addressMixed` is answered with a sample. -/
theorem fetchTestnetData_error_iff_witness :
    ∃ s, fetchTestnetData (fun _ => 1 / 3) addressMixed = .ok s :=
  (fetchTestnetData_error_iff (fun _ => 1 / 3) addressMixed).2.2 (by decide)

/-! ## Hexadecimal characters and `parseInt` -/

theorem char_toNat_cases (c : Char) (h : isHexChar c = true) :
    (48 ≤ c.toNat ∧ c.toNat ≤ 57) ∨ (97 ≤ c.toNat ∧ c.toNat ≤ 102) ∨
      (65 ≤ c.toNat ∧ c.toNat ≤ 70) := (isHexChar_iff c).mp h

theorem char_le_lit (c : Char) :
    (('0' ≤ c) ↔ 48 ≤ c.toNat) ∧ ((c ≤ '9') ↔ c.toNat ≤ 57) ∧
    (('a' ≤ c) ↔ 97 ≤ c.toNat) ∧ ((c ≤ 'f') ↔ c.toNat ≤ 102) ∧
    ((c ≤ 'z') ↔ c.toNat ≤ 122) ∧
    (('A' ≤ c) ↔ 65 ≤ c.toNat) ∧ ((c ≤ 'F') ↔ c.toNat ≤ 70) ∧
    ((c ≤ 'Z') ↔ c.toNat ≤ 90) :=
  ⟨char_le_iff _ _, char_le_iff _ _, char_le_iff _ _, char_le_iff _ _, char_le_iff _ _,
    char_le_iff _ _, char_le_iff _ _, char_le_iff _ _⟩

theorem digitValue_of_hex (c : Char) (h : isHexChar c = true) :
    digitValue c = some (hexValue c) ∧ hexValue c < 16 := by
  obtain ⟨h0, h9, ha, hf, hz, hA, hF, hZ⟩ := char_le_lit c
  have e0 : '0'.toNat = 48 := rfl
  have ea : 'a'.toNat = 97 := rfl
  have eA : 'A'.toNat = 65 := rfl
  unfold digitValue hexValue
  rw [e0, ea, eA]
  rcases char_toNat_cases c h with hc | hc | hc
  · have p1 : '0' ≤ c ∧ c ≤ '9' := ⟨h0.mpr hc.1, h9.mpr hc.2⟩
    rw [if_pos p1, if_pos p1]
    exact ⟨rfl, by omega⟩
  · have n1 : ¬ ('0' ≤ c ∧ c ≤ '9') := fun q => by
      have := h9.mp q.2
      omega
    have p2 : 'a' ≤ c ∧ c ≤ 'z' := ⟨ha.mpr hc.1, hz.mpr (by omega)⟩
    have p3 : 'a' ≤ c ∧ c ≤ 'f' := ⟨ha.mpr hc.1, hf.mpr hc.2⟩
    rw [if_neg n1, if_pos p2, if_neg n1, if_pos p3]
    exact ⟨by congr 1; omega, by omega⟩
  · have n1 : ¬ ('0' ≤ c ∧ c ≤ '9') := fun q => by
      have := h9.mp q.2
      omega
    have n2 : ¬ ('a' ≤ c ∧ c ≤ 'z') := fun q => by
      have := ha.mp q.1
      omega
    have n3 : ¬ ('a' ≤ c ∧ c ≤ 'f') := fun q => by
      have := ha.mp q.1
      omega
    have p3 : 'A' ≤ c ∧ c ≤ 'Z' := ⟨hA.mpr hc.1, hZ.mpr (by omega)⟩
    have p4 : 'A' ≤ c ∧ c ≤ 'F' := ⟨hA.mpr hc.1, hF.mpr hc.2⟩
    rw [if_neg n1, if_neg n2, if_pos p3, if_neg n1, if_neg n3, if_pos p4]
    exact ⟨by congr 1; omega, by omega⟩

theorem isRadixDigit_of_hex (c : Char) (h : isHexChar c = true) :
    isRadixDigit 16 c = true := by
  unfold isRadixDigit
  rw [(digitValue_of_hex c h).1]
  exact decide_eq_true (digitValue_of_hex c h).2

theorem digitOf_of_hex (c : Char) (h : isHexChar c = true) : digitOf c = hexValue c := by
  unfold digitOf
  rw [(digitValue_of_hex c h).1]
  rfl

theorem not_whiteSpace_of_hex (c : Char) (h : isHexChar c = true) :
    isStrWhiteSpace c = false := by
  have hc := char_toNat_cases c h
  rw [Bool.eq_false_iff]
  intro hw
  simp only [isStrWhiteSpace, Bool.or_eq_true, beq_iff_eq, Bool.and_eq_true,
    decide_eq_true_eq] at hw
  omega

theorem ne_of_hex (c d : Char) (h : isHexChar c = true) (hd : isHexChar d = false) : c ≠ d := by
  intro e
  rw [e, hd] at h
  exact Bool.noConfusion h

/-- The hexadecimal characters, listed. -/
theorem mem_hexChars (c : Char) (h : isHexChar c = true) :
    c ∈ ['0', '1', '2', '3', '4', '5', '6', '7', '8', '9', 'a', 'b', 'c', 'd', 'e', 'f',
      'A', 'B', 'C', 'D', 'E', 'F'] := by
  have hc := char_toNat_cases c h
  have e : c = Char.ofNat c.toNat := (Char.ofNat_toNat c).symm
  generalize c.toNat = n at hc e
  subst e
  rcases hc with hc | hc | hc <;> obtain ⟨h1, h2⟩ := hc <;> interval_cases n <;> decide

theorem toLower_of_hex (c : Char) (h : isHexChar c = true) :
    isHexChar c.toLower = true ∧ hexValue c.toLower = hexValue c := by
  have key : ∀ d ∈ ['0', '1', '2', '3', '4', '5', '6', '7', '8', '9', 'a', 'b', 'c', 'd', 'e',
      'f', 'A', 'B', 'C', 'D', 'E', 'F'],
      isHexChar d.toLower = true ∧ hexValue d.toLower = hexValue d := by decide
  exact key c (mem_hexChars c h)

theorem stripSign_of_hex (c : Char) (t : List Char) (h : isHexChar c = true) :
    stripSign (c :: t) = (false, c :: t) := by
  have h1 : c ≠ '-' := ne_of_hex c '-' h (by decide)
  have h2 : c ≠ '+' := ne_of_hex c '+' h (by decide)
  unfold stripSign
  split
  · rename_i heq
    injection heq with e1 e2
    exact absurd e1 h1
  · rename_i heq
    injection heq with e1 e2
    exact absurd e1 h2
  · rfl

theorem stripHexMarker_of_hex (ds : List Char) (h : ∀ c ∈ ds, isHexChar c = true) :
    stripHexMarker 16 ds = ds := by
  unfold stripHexMarker
  rw [if_pos rfl]
  split
  · rename_i t
    exact absurd (h 'x' (by simp)) (by decide)
  · rename_i t
    exact absurd (h 'X' (by simp)) (by decide)
  · rfl

theorem takeWhile_of_hex (ds : List Char) (h : ∀ c ∈ ds, isHexChar c = true) :
    ds.takeWhile (isRadixDigit 16) = ds := by
  induction ds with
  | nil => rfl
  | cons c t ih =>
    rw [List.takeWhile_cons, isRadixDigit_of_hex c (h c (List.mem_cons_self _ _))]
    simp only [if_true]
    rw [ih (fun d hd => h d (List.mem_cons_of_mem _ hd))]

theorem foldl_digitOf_of_hex (ds : List Char) (h : ∀ c ∈ ds, isHexChar c = true) :
    ∀ acc : Nat, ds.foldl (fun a c => a * 16 + digitOf c) acc
      = ds.foldl (fun a c => a * 16 + hexValue c) acc := by
  induction ds with
  | nil => intro acc; rfl
  | cons c t ih =>
    intro acc
    rw [List.foldl_cons, List.foldl_cons, digitOf_of_hex c (h c (List.mem_cons_self _ _))]
    exact ih (fun d hd => h d (List.mem_cons_of_mem _ hd)) _

/-- On a non-empty string of hexadecimal characters, `parseInt(s, 16)` is the
number the digits write in base 16. -/
theorem parseInt_of_hex (ds : List Char) (hne : ds ≠ [])
    (h : ∀ c ∈ ds, isHexChar c = true) :
    parseInt ds 16 = .num ((ds.foldl (fun a c => a * 16 + hexValue c) 0 : ℕ) : ℚ) := by
  obtain ⟨c, t, rfl⟩ := List.exists_cons_of_ne_nil hne
  have hc : isHexChar c = true := h c (List.mem_cons_self _ _)
  have hdrop : (c :: t).dropWhile isStrWhiteSpace = c :: t := by
    rw [List.dropWhile_cons, not_whiteSpace_of_hex c hc]
    rfl
  unfold parseInt
  simp only [hdrop, stripSign_of_hex c t hc, stripHexMarker_of_hex (c :: t) h,
    takeWhile_of_hex (c :: t) h, foldl_digitOf_of_hex (c :: t) h]
  rfl

/-- The value written by `n` hexadecimal digits is below `16 ^ n`. -/
theorem foldl_hexValue_lt (ds : List Char) (h : ∀ c ∈ ds, isHexChar c = true) :
    ∀ acc : Nat, ds.foldl (fun a c => a * 16 + hexValue c) acc
      < (acc + 1) * 16 ^ ds.length := by
  induction ds with
  | nil => intro acc; simp
  | cons c t ih =>
    intro acc
    rw [List.foldl_cons, List.length_cons, pow_succ]
    have hv := (digitValue_of_hex c (h c (List.mem_cons_self _ _))).2
    have := ih (fun d hd => h d (List.mem_cons_of_mem _ hd)) (acc * 16 + hexValue c)
    calc List.foldl (fun a c => a * 16 + hexValue c) (acc * 16 + hexValue c) t
        < (acc * 16 + hexValue c + 1) * 16 ^ t.length := this
      _ ≤ ((acc + 1) * 16) * 16 ^ t.length := by
          apply Nat.mul_le_mul_right
          omega
      _ = (acc + 1) * (16 ^ t.length * 16) := by ring

/-! ## The seed, the hardware pattern and `random` on an accepted address -/

theorem toLowerCase_address (hs : List Char) :
    toLowerCase ('0' :: 'x' :: hs) = '0' :: 'x' :: hs.map Char.toLower := rfl

theorem map_toLower_hex (hs : List Char) (h : ∀ c ∈ hs, isHexChar c = true) :
    ∀ c ∈ hs.map Char.toLower, isHexChar c = true := by
  intro c hc
  obtain ⟨d, hd, rfl⟩ := List.mem_map.mp hc
  exact (toLower_of_hex d (h d hd)).1

/-- The seed of an accepted address is the number written by its characters
2 to 9, a natural number below `2 ^ 32`. -/
theorem seedOf_of_form (address : String) (h : isAddressForm address = true) :
    ∃ k : ℕ, seedOf address = .num k ∧ k < 2 ^ 32 := by
  obtain ⟨hs, hdata, hlen, hhex⟩ := isAddressForm_data address h
  have hsl : slice (toLowerCase address.data) 2 10 = (hs.map Char.toLower).take 8 := by
    rw [hdata, toLowerCase_address]
    simp [slice, relIndex, hlen]
  have hall : ∀ c ∈ (hs.map Char.toLower).take 8, isHexChar c = true :=
    fun c hc => map_toLower_hex hs hhex c (List.mem_of_mem_take hc)
  have hl8 : ((hs.map Char.toLower).take 8).length = 8 := by
    rw [List.length_take, List.length_map, hlen]
    rfl
  have hne : (hs.map Char.toLower).take 8 ≠ [] := by
    intro e
    rw [e] at hl8
    exact absurd hl8 (by decide)
  refine ⟨((hs.map Char.toLower).take 8).foldl (fun a c => a * 16 + hexValue c) 0, ?_, ?_⟩
  · unfold seedOf
    rw [hsl, parseInt_of_hex _ hne hall]
  · have := foldl_hexValue_lt _ hall 0
    rw [hl8] at this
    calc _ < (0 + 1) * 16 ^ 8 := this
      _ = 2 ^ 32 := by norm_num

/-- The hardware pattern of an accepted address is the value of its last two
characters read as hexadecimal digits, at most 255. -/
theorem hwPatternOf_of_form (address : String) (h : isAddressForm address = true) :
    hwPatternOf address = .num (lastByte address) ∧ lastByte address ≤ 255 := by
  obtain ⟨hs, hdata, hlen, hhex⟩ := isAddressForm_data address h
  have hsplit : hs = hs.take 38 ++ hs.drop 38 := (List.take_append_drop 38 hs).symm
  have hl2 : (hs.drop 38).length = 2 := by
    rw [List.length_drop, hlen]
  obtain ⟨hi, lo, hd⟩ : ∃ hi lo, hs.drop 38 = [hi, lo] := by
    match hq : hs.drop 38, hl2 with
    | [a, b], _ => exact ⟨a, b, rfl⟩
  have hhi : isHexChar hi = true :=
    hhex hi (List.mem_of_mem_drop (by rw [hd]; simp))
  have hlo : isHexChar lo = true :=
    hhex lo (List.mem_of_mem_drop (by rw [hd]; simp))
  have hsl : sliceFrom (toLowerCase address.data) (-2) = [hi.toLower, lo.toLower] := by
    rw [hdata, toLowerCase_address]
    have : relIndex ('0' :: 'x' :: hs.map Char.toLower).length (-2) = 40 := by
      simp [relIndex, hlen]
    unfold sliceFrom
    rw [this]
    show (hs.map Char.toLower).drop 38 = _
    rw [← List.map_drop, hd]
    rfl
  have hall : ∀ c ∈ [hi.toLower, lo.toLower], isHexChar c = true := by
    intro c hc
    simp only [List.mem_cons, List.mem_singleton, List.not_mem_nil, or_false] at hc
    rcases hc with rfl | rfl
    · exact (toLower_of_hex hi hhi).1
    · exact (toLower_of_hex lo hlo).1
  have hlast : lastByte address = 16 * hexValue hi + hexValue lo := by
    unfold lastByte
    rw [hdata, hsplit, hd]
    simp
  have hpat : hwPatternOf address = .num ((16 * hexValue hi + hexValue lo : ℕ) : ℚ) := by
    unfold hwPatternOf
    rw [hsl, parseInt_of_hex _ (by simp) hall]
    simp only [List.foldl_cons, List.foldl_nil, (toLower_of_hex hi hhi).2,
      (toLower_of_hex lo hlo).2]
    congr 2
    omega
  have b1 := (digitValue_of_hex hi hhi).2
  have b2 := (digitValue_of_hex lo hlo).2
  refine ⟨?_, ?_⟩
  · rw [hpat, hlast]
  · rw [hlast]
    omega

/-- The closure `random(min, max)` on integers `lo ≤ hi` returns the integer
`⌊frac(sin(seed + lo) * 10000) * (hi - lo + 1)⌋ + lo`, which lies in `lo..hi`,
whatever values `sin` takes. -/
theorem random_bounds (sin : ℚ → ℚ) (q : ℚ) (lo hi : ℤ) (h : lo ≤ hi) :
    ∃ n : ℤ, random sin (.num q) (.num lo) (.num hi) = .num n ∧
      n = ⌊Int.fract (sin (q + lo) * 10000) * ((hi : ℚ) - lo + 1)⌋ + lo ∧
      lo ≤ n ∧ n ≤ hi := by
  have hpos : (0 : ℚ) < (hi : ℚ) - lo + 1 := by
    have : (lo : ℚ) ≤ hi := by exact_mod_cast h
    linarith
  have h0 : 0 ≤ ⌊Int.fract (sin (q + lo) * 10000) * ((hi : ℚ) - lo + 1)⌋ :=
    Int.floor_nonneg.mpr (mul_nonneg (Int.fract_nonneg _) (le_of_lt hpos))
  have h1 : ⌊Int.fract (sin (q + lo) * 10000) * ((hi : ℚ) - lo + 1)⌋ < hi - lo + 1 := by
    rw [Int.floor_lt]
    push_cast
    calc Int.fract (sin (q + lo) * 10000) * ((hi : ℚ) - lo + 1)
        < 1 * ((hi : ℚ) - lo + 1) := mul_lt_mul_of_pos_right (Int.fract_lt_one _) hpos
      _ = (hi : ℚ) - lo + 1 := one_mul _
  refine ⟨⌊Int.fract (sin (q + lo) * 10000) * ((hi : ℚ) - lo + 1)⌋ + lo, ?_, rfl, ?_, ?_⟩
  · simp only [random, Math.sin_num, JSNum.num_add_num, JSNum.num_mul_num, JSNum.num_sub_num,
      JSNum.ofNat_eq, Math.floor_num, Nat.cast_ofNat, Nat.cast_one, Int.fract,
      JSNum.num_inj_iff]
    push_cast
    rfl
  · omega
  · omega

/-! ## Properties of `fetchTestnetData` -/

theorem hardwareOf_nat (b : ℕ) :
    (200 < b → hardwareOf (.num b) = (5, "High-end GPU (RTX 4090/A100)")) ∧
    (150 < b ∧ b ≤ 200 → hardwareOf (.num b) = (4, "High-mid GPU (RTX 4070/3090)")) ∧
    (100 < b ∧ b ≤ 150 → hardwareOf (.num b) = (3, "Mid-range GPU (RTX 3070/4060)")) ∧
    (50 < b ∧ b ≤ 100 → hardwareOf (.num b) = (2, "Low-end GPU (GTX/RTX 3050)")) ∧
    (b ≤ 50 → hardwareOf (.num b) = (1, "CPU Only / Basic VPS")) := by
  simp only [hardwareOf, JSNum.ofNat_eq, gt_iff_lt, JSNum.num_lt_num, Nat.cast_lt]
  refine ⟨?_, ?_, ?_, ?_, ?_⟩ <;> intro h <;> split_ifs <;> first | rfl | omega

/-- The hardware tier of `hardwareOf` on a natural number, as a natural number
in `1..5` that does not decrease when the argument grows. -/
theorem hardwareOf_tier (b : ℕ) :
    ∃ t : ℕ, (hardwareOf (.num b)).1 = .num t ∧ 1 ≤ t ∧ t ≤ 5 ∧
      (200 < b ↔ t = 5) ∧ (150 < b ↔ 4 ≤ t) ∧ (100 < b ↔ 3 ≤ t) ∧ (50 < b ↔ 2 ≤ t) := by
  simp only [hardwareOf, JSNum.ofNat_eq, gt_iff_lt, JSNum.num_lt_num, Nat.cast_lt]
  split_ifs
  · exact ⟨5, rfl, by omega, by omega, by omega, by omega, by omega, by omega⟩
  · exact ⟨4, rfl, by omega, by omega, by omega, by omega, by omega, by omega⟩
  · exact ⟨3, rfl, by omega, by omega, by omega, by omega, by omega, by omega⟩
  · exact ⟨2, rfl, by omega, by omega, by omega, by omega, by omega, by omega⟩
  · exact ⟨1, rfl, by omega, by omega, by omega, by omega, by omega, by omega⟩

theorem fetchTestnetData_ok_form (sin : ℚ → ℚ) (address : String) (s : TelemetrySample)
    (h : fetchTestnetData sin address = .ok s) : isAddressForm address = true := by
  cases hf : isAddressForm address with
  | true => rfl
  | false =>
    rw [fetchTestnetData_of_not_form sin address hf] at h
    exact Except.noConfusion h

/-- C6: on an accepted address, with `b` the value of its last two hexadecimal
characters (at most 255), the hardware tier is 5 if `b > 200` (and the name then
contains `High-end GPU`), 4 if `150 < b ≤ 200`, 3 if `100 < b ≤ 150`, 2 if
`50 < b ≤ 100` and 1 if `b ≤ 50`; so `b = 255` gives 5, `b = 0` gives 1, and of
two accepted addresses the one with the larger `b` has the tier at least as
large. -/
theorem hardwareTier_by_last_byte (sin : ℚ → ℚ) (A B : String) (sA sB : TelemetrySample)
    (hA : fetchTestnetData sin A = .ok sA) (hB : fetchTestnetData sin B = .ok sB) :
    lastByte A ≤ 255 ∧
    (200 < lastByte A → sA.hardwareTier = 5 ∧
      ∃ pre post : String, sA.hardwareName = pre ++ "High-end GPU" ++ post) ∧
    (150 < lastByte A ∧ lastByte A ≤ 200 → sA.hardwareTier = 4) ∧
    (100 < lastByte A ∧ lastByte A ≤ 150 → sA.hardwareTier = 3) ∧
    (50 < lastByte A ∧ lastByte A ≤ 100 → sA.hardwareTier = 2) ∧
    (lastByte A ≤ 50 → sA.hardwareTier = 1) ∧
    (lastByte A = 255 → sA.hardwareTier = 5) ∧
    (lastByte A = 0 → sA.hardwareTier = 1) ∧
    (lastByte A ≤ lastByte B →
      ∃ tA tB : ℕ, sA.hardwareTier = .num tA ∧ sB.hardwareTier = .num tB ∧ tA ≤ tB) := by
  have fA := fetchTestnetData_ok_form sin A sA hA
  have fB := fetchTestnetData_ok_form sin B sB hB
  rw [fetchTestnetData_of_form sin A fA] at hA
  rw [fetchTestnetData_of_form sin B fB] at hB
  injection hA with hA
  injection hB with hB
  obtain ⟨pA, bA⟩ := hwPatternOf_of_form A fA
  obtain ⟨pB, -⟩ := hwPatternOf_of_form B fB
  have tierA : sA.hardwareTier = (hardwareOf (.num (lastByte A))).1 := by
    rw [← hA, pA]
  have nameA : sA.hardwareName = (hardwareOf (.num (lastByte A))).2 := by
    rw [← hA, pA]
  have tierB : sB.hardwareTier = (hardwareOf (.num (lastByte B))).1 := by
    rw [← hB, pB]
  obtain ⟨c5, c4, c3, c2, c1⟩ := hardwareOf_nat (lastByte A)
  refine ⟨bA, ?_, ?_, ?_, ?_, ?_, ?_, ?_, ?_⟩
  · intro hb
    rw [tierA, nameA, c5 hb]
    exact ⟨rfl, "", " (RTX 4090/A100)", by decide⟩
  · intro hb
    rw [tierA, c4 hb]
  · intro hb
    rw [tierA, c3 hb]
  · intro hb
    rw [tierA, c2 hb]
  · intro hb
    rw [tierA, c1 hb]
  · intro hb
    rw [tierA, c5 (by omega)]
  · intro hb
    rw [tierA, c1 (by omega)]
  · intro hle
    obtain ⟨tA, htA, a0, a6, a5, a4, a3, a2⟩ := hardwareOf_tier (lastByte A)
    obtain ⟨tB, hB', b0, b6, b5, b4, b3, b2⟩ := hardwareOf_tier (lastByte B)
    refine ⟨tA, tB, by rw [tierA, htA], by rw [tierB, hB'], ?_⟩
    by_contra hlt
    have hlt' : tB < tA := Nat.lt_of_not_le hlt
    omega

/-- Instance of C6 on `addressLower`, whose last byte is 255: the tier is 5. -/
theorem hardwareTier_by_last_byte_witness :
    lastByte addressLower = 255 ∧
    ∃ s : TelemetrySample, fetchTestnetData (fun _ => 1 / 3) addressLower = .ok s ∧
      s.hardwareTier = 5 :=
  ⟨by decide, _, fetchTestnetData_of_form (fun _ => 1 / 3) addressLower (by decide),
    (hardwareTier_by_last_byte (fun _ => 1 / 3) addressLower addressLower _ _
      (fetchTestnetData_of_form (fun _ => 1 / 3) addressLower (by decide))
      (fetchTestnetData_of_form (fun _ => 1 / 3) addressLower (by decide))).2.2.2.2.2.2.1
      (by decide)⟩

theorem toLower_eq_of_sameChar (c d : Char) (h : sameCharUpToCase c d = true) :
    c.toLower = d.toLower := by
  have upper : ∀ x y : Char, 'A' ≤ x → x ≤ 'Z' → x.toNat + 32 = y.toNat →
      x.toLower = y.toLower := by
    intro x y h1 h2 h3
    have n1 : 65 ≤ x.toNat := (char_le_iff _ _).mp h1
    have n2 : x.toNat ≤ 90 := (char_le_iff _ _).mp h2
    have ex : x.toLower = Char.ofNat (x.toNat + 32) := by
      unfold Char.toLower
      exact if_pos ⟨n1, n2⟩
    have ey : y.toLower = y := by
      unfold Char.toLower
      exact if_neg (fun q => by omega)
    rw [ex, ey, h3, Char.ofNat_toNat]
  simp only [sameCharUpToCase, Bool.or_eq_true, Bool.and_eq_true, beq_iff_eq,
    decide_eq_true_eq] at h
  rcases h with (h | ⟨⟨h1, h2⟩, h3⟩) | ⟨⟨h1, h2⟩, h3⟩
  · rw [h]
  · exact upper c d h1 h2 h3
  · exact (upper d c h1 h2 h3).symm

theorem toLowerCase_eq_of_same :
    ∀ a b : List Char, a.length = b.length →
      (List.zip a b).all (fun p => sameCharUpToCase p.1 p.2) = true →
      toLowerCase a = toLowerCase b := by
  intro a
  induction a with
  | nil =>
    intro b hl _
    cases b with
    | nil => rfl
    | cons d t => exact absurd hl (by simp)
  | cons c s ih =>
    intro b hl hall
    cases b with
    | nil => exact absurd hl (by simp)
    | cons d t =>
      simp only [List.zip_cons_cons, List.all_cons, Bool.and_eq_true] at hall
      simp only [List.length_cons, Nat.add_right_cancel_iff] at hl
      have e1 := toLower_eq_of_sameChar c d hall.1
      have e2 := ih t hl hall.2
      unfold toLowerCase at e2 ⊢
      rw [List.map_cons, List.map_cons, e1, e2]

/-- C10: two accepted addresses that differ only in the case of letters are both
answered with a sample, and with the same sample. -/
theorem fetchTestnetData_case_insensitive (sin : ℚ → ℚ) (a b : String)
    (ha : isAddressForm a = true) (hb : isAddressForm b = true)
    (hab : sameUpToCase a b = true) :
    ∃ s : TelemetrySample,
      fetchTestnetData sin a = .ok s ∧ fetchTestnetData sin b = .ok s := by
  unfold sameUpToCase at hab
  rw [Bool.and_eq_true, beq_iff_eq] at hab
  have hl : toLowerCase a.data = toLowerCase b.data :=
    toLowerCase_eq_of_same a.data b.data hab.1 hab.2
  have hseed : seedOf a = seedOf b := by
    unfold seedOf
    rw [hl]
  have hpat : hwPatternOf a = hwPatternOf b := by
    unfold hwPatternOf
    rw [hl]
  refine ⟨_, fetchTestnetData_of_form sin a ha, ?_⟩
  rw [fetchTestnetData_of_form sin b hb, hseed, hpat]

/-- Instance of C10 on `addressMixed` and its lower-case form `addressLower`. -/
theorem fetchTestnetData_case_insensitive_witness :
    ∃ s : TelemetrySample,
      fetchTestnetData (fun _ => 1 / 3) addressMixed = .ok s ∧
      fetchTestnetData (fun _ => 1 / 3) addressLower = .ok s :=
  fetchTestnetData_case_insensitive (fun _ => 1 / 3) addressMixed addressLower
    (by decide) (by decide) (by decide)

/-! ## Properties of `calculateAllocation` -/

/-- C9: for a non-negative integer raw allocation `a` and a draw `0 ≤ rnd < 1`,
`finalAllocation` is the integer `⌊a + (2 rnd - 1) a / 10⌋`, and it lies between
`⌊9 a / 10⌋` and `⌊11 a / 10⌋`. -/
theorem finalAllocation_within_ten_percent (a : ℤ) (rnd : ℚ) (ha : 0 ≤ a)
    (hr0 : 0 ≤ rnd) (hr1 : rnd < 1) :
    ∃ f : ℤ, finalAllocationOf (.num a) rnd = .num f ∧
      f = ⌊(a : ℚ) + (2 * rnd - 1) * ((a : ℚ) / 10)⌋ ∧
      ⌊(9 * a : ℚ) / 10⌋ ≤ f ∧ f ≤ ⌊(11 * a : ℚ) / 10⌋ := by
  have haq : (0 : ℚ) ≤ (a : ℚ) := by exact_mod_cast ha
  have e : (a : ℚ) + (rnd * ((a : ℚ) * (1 / 10)) * 2 - (a : ℚ) * (1 / 10))
      = (a : ℚ) + (2 * rnd - 1) * ((a : ℚ) / 10) := by ring
  refine ⟨⌊(a : ℚ) + (2 * rnd - 1) * ((a : ℚ) / 10)⌋, ?_, rfl, ?_, ?_⟩
  · rw [finalAllocationOf_num, e]
  · apply Int.floor_le_floor
    nlinarith
  · apply Int.floor_le_floor
    nlinarith

/-- C7: for an integer `d = firstTxDaysAgo` the early-adoption multiplier is 3.0
exactly when `d > 240`, 2.5 exactly when `180 < d ≤ 240`, 2.0 exactly when
`120 < d ≤ 180`, 1.5 exactly when `60 < d ≤ 120` and 1.2 exactly when `d ≤ 60`;
250, 65 and 10 select 3.0, 1.5 and 1.2; and this multiplier is the third factor
of the weighted score. -/
theorem earlyBonus_thresholds (d : ℤ) :
    (earlyBonusOf (.num d) = 3.0 ↔ 240 < d) ∧
    (earlyBonusOf (.num d) = 2.5 ↔ 180 < d ∧ d ≤ 240) ∧
    (earlyBonusOf (.num d) = 2.0 ↔ 120 < d ∧ d ≤ 180) ∧
    (earlyBonusOf (.num d) = 1.5 ↔ 60 < d ∧ d ≤ 120) ∧
    (earlyBonusOf (.num d) = 1.2 ↔ d ≤ 60) ∧
    earlyBonusOf 250 = 3.0 ∧ earlyBonusOf 65 = 1.5 ∧ earlyBonusOf 10 = 1.2 ∧
    ∀ data : TelemetrySample, data.firstTxDaysAgo = .num d →
      weightedScoreOf data
        = (0 + data.testnetScore * 0.4) * toNumber (hardwareMultipliers data.hardwareTier)
          * earlyBonusOf (.num d) * uptimeMultiplierOf data.uptime := by
  refine ⟨?_, ?_, ?_, ?_, ?_, ?_, ?_, ?_, ?_⟩
  · simp only [earlyBonusOf, JSNum.ofNat_eq, JSNum.ofScientific_eq, gt_iff_lt, JSNum.num_lt_num,
      Nat.cast_ofNat]
    split_ifs <;> simp only [JSNum.num_inj_iff] <;> norm_num <;> norm_cast at * <;> omega
  · simp only [earlyBonusOf, JSNum.ofNat_eq, JSNum.ofScientific_eq, gt_iff_lt, JSNum.num_lt_num,
      Nat.cast_ofNat]
    split_ifs <;> simp only [JSNum.num_inj_iff] <;> norm_num <;> norm_cast at * <;> omega
  · simp only [earlyBonusOf, JSNum.ofNat_eq, JSNum.ofScientific_eq, gt_iff_lt, JSNum.num_lt_num,
      Nat.cast_ofNat]
    split_ifs <;> simp only [JSNum.num_inj_iff] <;> norm_num <;> norm_cast at * <;> omega
  · simp only [earlyBonusOf, JSNum.ofNat_eq, JSNum.ofScientific_eq, gt_iff_lt, JSNum.num_lt_num,
      Nat.cast_ofNat]
    split_ifs <;> simp only [JSNum.num_inj_iff] <;> norm_num <;> norm_cast at * <;> omega
  · simp only [earlyBonusOf, JSNum.ofNat_eq, JSNum.ofScientific_eq, gt_iff_lt, JSNum.num_lt_num,
      Nat.cast_ofNat]
    split_ifs <;> simp only [JSNum.num_inj_iff] <;> norm_num <;> norm_cast at * <;> omega
  · simp only [earlyBonusOf, JSNum.ofNat_eq, JSNum.ofScientific_eq, gt_iff_lt, JSNum.num_lt_num,
      Nat.cast_ofNat]
    norm_num
  · simp only [earlyBonusOf, JSNum.ofNat_eq, JSNum.ofScientific_eq, gt_iff_lt, JSNum.num_lt_num,
      Nat.cast_ofNat]
    norm_num
  · simp only [earlyBonusOf, JSNum.ofNat_eq, JSNum.ofScientific_eq, gt_iff_lt, JSNum.num_lt_num,
      Nat.cast_ofNat]
    norm_num
  · intro data hd
    simp only [weightedScoreOf, hd]

/-- Instance of C7 at `d = 200`: the multiplier is 2.5. -/
theorem earlyBonus_thresholds_witness : earlyBonusOf (.num (200 : ℤ)) = 2.5 :=
  (earlyBonus_thresholds 200).2.1.mpr ⟨by decide, by decide⟩

/-- C8: for an integer `u = uptime` the uptime multiplier is 1.5 exactly when
`u > 90`, 1.3 exactly when `70 < u ≤ 90`, 1.1 exactly when `50 < u ≤ 70` and 1.0
exactly when `u ≤ 50`; 95, 60 and 30 select 1.5, 1.1 and 1.0; and this
multiplier is the last factor of the weighted score. -/
theorem uptimeMultiplier_thresholds (u : ℤ) :
    (uptimeMultiplierOf (.num u) = 1.5 ↔ 90 < u) ∧
    (uptimeMultiplierOf (.num u) = 1.3 ↔ 70 < u ∧ u ≤ 90) ∧
    (uptimeMultiplierOf (.num u) = 1.1 ↔ 50 < u ∧ u ≤ 70) ∧
    (uptimeMultiplierOf (.num u) = 1.0 ↔ u ≤ 50) ∧
    uptimeMultiplierOf 95 = 1.5 ∧ uptimeMultiplierOf 60 = 1.1 ∧ uptimeMultiplierOf 30 = 1.0 ∧
    ∀ data : TelemetrySample, data.uptime = .num u →
      weightedScoreOf data
        = (0 + data.testnetScore * 0.4) * toNumber (hardwareMultipliers data.hardwareTier)
          * earlyBonusOf data.firstTxDaysAgo * uptimeMultiplierOf (.num u) := by
  refine ⟨?_, ?_, ?_, ?_, ?_, ?_, ?_, ?_⟩
  · simp only [uptimeMultiplierOf, JSNum.ofNat_eq, JSNum.ofScientific_eq, gt_iff_lt,
      JSNum.num_lt_num, Nat.cast_ofNat]
    split_ifs <;> simp only [JSNum.num_inj_iff] <;> norm_num <;> norm_cast at * <;> omega
  · simp only [uptimeMultiplierOf, JSNum.ofNat_eq, JSNum.ofScientific_eq, gt_iff_lt,
      JSNum.num_lt_num, Nat.cast_ofNat]
    split_ifs <;> simp only [JSNum.num_inj_iff] <;> norm_num <;> norm_cast at * <;> omega
  · simp only [uptimeMultiplierOf, JSNum.ofNat_eq, JSNum.ofScientific_eq, gt_iff_lt,
      JSNum.num_lt_num, Nat.cast_ofNat]
    split_ifs <;> simp only [JSNum.num_inj_iff] <;> norm_num <;> norm_cast at * <;> omega
  · simp only [uptimeMultiplierOf, JSNum.ofNat_eq, JSNum.ofScientific_eq, gt_iff_lt,
      JSNum.num_lt_num, Nat.cast_ofNat]
    split_ifs <;> simp only [JSNum.num_inj_iff] <;> norm_num <;> norm_cast at * <;> omega
  · simp only [uptimeMultiplierOf, JSNum.ofNat_eq, JSNum.ofScientific_eq, gt_iff_lt,
      JSNum.num_lt_num, Nat.cast_ofNat]
    norm_num
  · simp only [uptimeMultiplierOf, JSNum.ofNat_eq, JSNum.ofScientific_eq, gt_iff_lt,
      JSNum.num_lt_num, Nat.cast_ofNat]
    norm_num
  · simp only [uptimeMultiplierOf, JSNum.ofNat_eq, JSNum.ofScientific_eq, gt_iff_lt,
      JSNum.num_lt_num, Nat.cast_ofNat]
    norm_num
  · intro data hu
    simp only [weightedScoreOf, hu]

/-- Instance of C8 at `u = 80`: the multiplier is 1.3. -/
theorem uptimeMultiplier_thresholds_witness : uptimeMultiplierOf (.num (80 : ℤ)) = 1.3 :=
  (uptimeMultiplier_thresholds 80).2.1.mpr ⟨by decide, by decide⟩

/-- Instance of C9 at `a = 33609` with the draw 0. -/
theorem finalAllocation_within_ten_percent_witness :
    ∃ f : ℤ, finalAllocationOf (.num (33609 : ℤ)) 0 = .num f ∧
      f = ⌊((33609 : ℤ) : ℚ) + (2 * 0 - 1) * (((33609 : ℤ) : ℚ) / 10)⌋ ∧
      ⌊(9 * (33609 : ℤ) : ℚ) / 10⌋ ≤ f ∧ f ≤ ⌊(11 * (33609 : ℤ) : ℚ) / 10⌋ :=
  finalAllocation_within_ten_percent 33609 0 (by decide) (le_refl 0) (by norm_num)

/-! ## The jitter makes the result depend on the draw -/

theorem earlyBonusOf_ge (d : ℚ) : ∃ m : ℚ, earlyBonusOf (.num d) = .num m ∧ 6 / 5 ≤ m := by
  unfold earlyBonusOf
  split_ifs
  · exact ⟨3.0, rfl, by norm_num⟩
  · exact ⟨2.5, rfl, by norm_num⟩
  · exact ⟨2.0, rfl, by norm_num⟩
  · exact ⟨1.5, rfl, by norm_num⟩
  · exact ⟨1.2, rfl, by norm_num⟩

theorem uptimeMultiplierOf_ge (u : ℚ) :
    ∃ m : ℚ, uptimeMultiplierOf (.num u) = .num m ∧ 1 ≤ m := by
  unfold uptimeMultiplierOf
  split_ifs
  · exact ⟨1.5, rfl, by norm_num⟩
  · exact ⟨1.3, rfl, by norm_num⟩
  · exact ⟨1.1, rfl, by norm_num⟩
  · exact ⟨1.0, rfl, by norm_num⟩

/-- As soon as the raw allocation exceeds 1000, the draws `0` and `1 / 2` give
different estimates. -/
theorem estimated_ne_of_allocation_gt (data : TelemetrySample) (a : ℤ)
    (ha : allocationOf (weightedScoreOf data) = .num a) (hbig : 1000 < a) :
    (calculateAllocation 0 data).estimated ≠ (calculateAllocation (1 / 2) data).estimated := by
  have haq : (1000 : ℚ) < (a : ℚ) := by exact_mod_cast hbig
  have e0 : (a : ℚ) + (0 * ((a : ℚ) * (1 / 10)) * 2 - (a : ℚ) * (1 / 10))
      = (a : ℚ) - (a : ℚ) / 10 := by ring
  have e1 : (a : ℚ) + (1 / 2 * ((a : ℚ) * (1 / 10)) * 2 - (a : ℚ) * (1 / 10)) = ((a : ℤ) : ℚ) := by
    ring
  have f0 : ((⌊(a : ℚ) - (a : ℚ) / 10⌋ : ℤ) : ℚ) < (a : ℚ) :=
    lt_of_le_of_lt (Int.floor_le _) (by linarith)
  simp only [calculateAllocation, ha, finalAllocationOf_num, e0, e1, Int.floor_intCast,
    JSNum.ofNat_eq, Math.max_num, Nat.cast_ofNat, ne_eq, JSNum.num_inj_iff]
  intro h
  have h2 : max (1000 : ℚ) (a : ℚ) = a := max_eq_right (le_of_lt haq)
  rw [h2] at h
  have h3 : max (1000 : ℚ) ((⌊(a : ℚ) - (a : ℚ) / 10⌋ : ℤ) : ℚ) < a := max_lt haq f0
  rw [h] at h3
  exact lt_irrefl _ h3

/-- With the top hardware tier and a task score of at least 1090, the raw
allocation exceeds 1000. -/
theorem allocation_gt_of_score (data : TelemetrySample) (n : ℤ) (d u : ℚ)
    (hs : data.testnetScore = .num n) (hn : 1090 ≤ n) (ht : data.hardwareTier = 5)
    (hd : data.firstTxDaysAgo = .num d) (hu : data.uptime = .num u) :
    ∃ a : ℤ, allocationOf (weightedScoreOf data) = .num a ∧ 1000 < a := by
  obtain ⟨e, he, hge⟩ := earlyBonusOf_ge d
  obtain ⟨v, hv, hgv⟩ := uptimeMultiplierOf_ge u
  have hnq : (1090 : ℚ) ≤ (n : ℚ) := by exact_mod_cast hn
  have hw : weightedScoreOf data = .num ((n : ℚ) * 2 * e * v) := by
    simp only [weightedScoreOf, hs, ht, hd, hu, he, hv, hardwareMultipliers, toNumber,
      JSNum.ofNat_eq, JSNum.ofScientific_eq, JSNum.num_mul_num, JSNum.num_add_num, if_true,
      JSNum.num_inj_iff]
    have e5 : ((0 : ℚ) + (n : ℚ) * (0.4 : ℚ)) * (5.0 : ℚ) = (n : ℚ) * 2 := by
      norm_num
      ring
    simp only [Nat.cast_ofNat, Nat.cast_zero] at e5 ⊢
    rw [e5]
  have hprod : (2616 : ℚ) ≤ (n : ℚ) * 2 * e * v := by
    have a1 : (2180 : ℚ) ≤ (n : ℚ) * 2 := by linarith
    have a2 : (2616 : ℚ) ≤ (n : ℚ) * 2 * e := by nlinarith
    nlinarith
  refine ⟨⌊(n : ℚ) * 2 * e * v / 150000000 * 160000000⌋, ?_, ?_⟩
  · rw [hw, allocationOf_num]
  · have : (2790 : ℤ) ≤ ⌊(n : ℚ) * 2 * e * v / 150000000 * 160000000⌋ := by
      rw [Int.le_floor]
      push_cast
      linarith
    omega

theorem seedOf_addressFF : seedOf addressFF = .num 0 := by
  have hsl : slice (toLowerCase addressFF.data) 2 10
      = ['0', '0', '0', '0', '0', '0', '0', '0'] := by decide
  unfold seedOf
  rw [hsl, parseInt_of_hex _ (by decide) (by decide)]
  simp [hexValue]

theorem hwPatternOf_addressFF : hwPatternOf addressFF = .num 255 := by
  have h := (hwPatternOf_of_form addressFF (by decide)).1
  have hb : lastByte addressFF = 255 := by decide
  rw [h, hb]
  norm_num

/-- The Taylor polynomial of degree 7 of the sine, with its remainder. -/
theorem sin_taylor_seven (y : ℝ) (hy : |y| ≤ 1) :
    |Real.sin y - (y - y ^ 3 / 6 + y ^ 5 / 120 - y ^ 7 / 5040)|
      ≤ |y| ^ 8 * (9 / 322560) := by
  have habs : Complex.abs ((y : ℂ) * Complex.I) ≤ 1 := by
    rw [map_mul, Complex.abs_I, mul_one, Complex.abs_ofReal]
    exact hy
  have h := Complex.exp_bound habs (n := 8) (by norm_num)
  have habs2 : Complex.abs ((y : ℂ) * Complex.I) = |y| := by
    rw [map_mul, Complex.abs_I, mul_one, Complex.abs_ofReal]
  rw [habs2] at h
  have him : (Complex.exp ((y : ℂ) * Complex.I)
      - ∑ m ∈ Finset.range 8, ((y : ℂ) * Complex.I) ^ m / (m.factorial : ℂ)).im
      = Real.sin y - (y - y ^ 3 / 6 + y ^ 5 / 120 - y ^ 7 / 5040) := by
    rw [Complex.sub_im, Complex.exp_ofReal_mul_I_im]
    congr 1
    have hs : ∑ m ∈ Finset.range 8, ((y : ℂ) * Complex.I) ^ m / (m.factorial : ℂ)
        = ((1 - y ^ 2 / 2 + y ^ 4 / 24 - y ^ 6 / 720 : ℝ) : ℂ)
          + ((y - y ^ 3 / 6 + y ^ 5 / 120 - y ^ 7 / 5040 : ℝ) : ℂ) * Complex.I := by
      simp only [Finset.sum_range_succ, Finset.sum_range_zero, Nat.factorial, mul_pow]
      have i2 : Complex.I ^ 2 = -1 := Complex.I_sq
      have i3 : Complex.I ^ 3 = -Complex.I := by rw [pow_succ, i2]; ring
      have i4 : Complex.I ^ 4 = 1 := by rw [pow_succ, i3]; ring_nf; rw [i2]; ring
      have i5 : Complex.I ^ 5 = Complex.I := by rw [pow_succ, i4]; ring
      have i6 : Complex.I ^ 6 = -1 := by rw [pow_succ, i5]; ring_nf; rw [i2]
      have i7 : Complex.I ^ 7 = -Complex.I := by rw [pow_succ, i6]; ring
      rw [i2, i3, i4, i5, i6, i7]
      push_cast
      ring
    rw [hs]
    simp only [Complex.add_im, Complex.ofReal_im, Complex.mul_I_im, Complex.ofReal_re, zero_add]
  calc |Real.sin y - (y - y ^ 3 / 6 + y ^ 5 / 120 - y ^ 7 / 5040)|
      = |(Complex.exp ((y : ℂ) * Complex.I)
          - ∑ m ∈ Finset.range 8, ((y : ℂ) * Complex.I) ^ m / (m.factorial : ℂ)).im| := by
        rw [him]
    _ ≤ Complex.abs (Complex.exp ((y : ℂ) * Complex.I)
          - ∑ m ∈ Finset.range 8, ((y : ℂ) * Complex.I) ^ m / (m.factorial : ℂ)) :=
        Complex.abs_im_le_abs _
    _ ≤ |y| ^ 8 * (9 / 322560) := by
        refine le_trans h (le_of_eq ?_)
        norm_num [Nat.factorial]

/-- The sine of 100 radians, to six decimal places. -/
theorem real_sin_hundred :
    (-506366 / 1000000 : ℝ) ≤ Real.sin 100 ∧ Real.sin 100 ≤ (-506365 / 1000000 : ℝ) := by
  have hpl := Real.pi_gt_d20
  have hpu := Real.pi_lt_d20
  have hper : Real.sin 100 = Real.sin (100 - 32 * Real.pi) := by
    have := Real.sin_sub_nat_mul_two_pi 100 16
    rw [← this]
    congr 1
    push_cast
    ring
  have hya : (-5309649149 / 10000000000 : ℝ) ≤ 100 - 32 * Real.pi := by
    norm_num at hpl hpu ⊢
    linarith
  have hyb : 100 - 32 * Real.pi ≤ (-5309649148 / 10000000000 : ℝ) := by
    norm_num at hpl hpu ⊢
    linarith
  have hpi2 : (1 : ℝ) ≤ Real.pi / 2 := by
    norm_num at hpl
    linarith
  have ta := sin_taylor_seven (-5309649149 / 10000000000)
    (by rw [abs_le]; constructor <;> norm_num)
  have tb := sin_taylor_seven (-5309649148 / 10000000000)
    (by rw [abs_le]; constructor <;> norm_num)
  have m1 : Real.sin (-5309649149 / 10000000000) ≤ Real.sin (100 - 32 * Real.pi) :=
    Real.sin_le_sin_of_le_of_le_pi_div_two (by norm_num; linarith) (by linarith) hya
  have m2 : Real.sin (100 - 32 * Real.pi) ≤ Real.sin (-5309649148 / 10000000000) :=
    Real.sin_le_sin_of_le_of_le_pi_div_two (by linarith) (by norm_num; linarith) hyb
  rw [abs_le] at ta tb
  have ea : |(-5309649149 / 10000000000 : ℝ)| = 5309649149 / 10000000000 := by
    rw [abs_of_neg (by norm_num)]
    norm_num
  have eb : |(-5309649148 / 10000000000 : ℝ)| = 5309649148 / 10000000000 := by
    rw [abs_of_neg (by norm_num)]
    norm_num
  rw [ea] at ta
  rw [eb] at tb
  rw [hper]
  constructor
  · have := ta.1
    norm_num at this
    linarith
  · have := tb.2
    norm_num at this
    linarith

/-- C2, refuted on the address `addressFF`: for every implementation `sin` of
`Math.sin` whose value at 100 is within `1 / 100000` of the sine of 100 radians,
the two evaluations of `addressFF` with the draws `0` and `1 / 2` both succeed
and return different estimates. -/
theorem evaluate_not_deterministic (sin : ℚ → ℚ)
    (hsin : |((sin 100 : ℚ) : ℝ) - Real.sin 100| ≤ 1 / 100000) :
    ∃ res1 res2 : AllocationResult,
      evaluate sin 0 addressFF = .ok res1 ∧ evaluate sin (1 / 2) addressFF = .ok res2 ∧
      res1.estimated ≠ res2.estimated := by
  obtain ⟨hr1, hr2⟩ := real_sin_hundred
  rw [abs_le] at hsin
  have h1 : -50639 / 100000 ≤ sin 100 := by
    have : ((-50639 / 100000 : ℚ) : ℝ) ≤ ((sin 100 : ℚ) : ℝ) := by
      push_cast
      linarith [hsin.1]
    exact_mod_cast this
  have h2 : sin 100 ≤ -50631 / 100000 := by
    have : ((sin 100 : ℚ) : ℝ) ≤ ((-50631 / 100000 : ℚ) : ℝ) := by
      push_cast
      linarith [hsin.2]
    exact_mod_cast this
  have hform : isAddressForm addressFF = true := by decide
  have hfetch := fetchTestnetData_of_form sin addressFF hform
  rw [seedOf_addressFF, hwPatternOf_addressFF] at hfetch
  -- the task score
  obtain ⟨n, hn, hnv, -, -⟩ := random_bounds sin 0 (100 : ℕ) (10000 : ℕ) (by norm_num)
  have hfl : ⌊sin 100 * 10000⌋ = -5064 := by
    rw [Int.floor_eq_iff]
    constructor
    · push_cast
      linarith
    · push_cast
      linarith
  have hfr : (1 : ℚ) / 10 ≤ Int.fract (sin 100 * 10000) := by
    unfold Int.fract
    rw [hfl]
    push_cast
    linarith
  have hn1090 : 1090 ≤ n := by
    rw [hnv]
    have : (990 : ℤ) ≤ ⌊Int.fract (sin ((0 : ℚ) + ((100 : ℕ) : ℤ)) * 10000)
        * ((((10000 : ℕ) : ℤ) : ℚ) - ((100 : ℕ) : ℤ) + 1)⌋ := by
      rw [Int.le_floor]
      have e : ((0 : ℚ) + (((100 : ℕ) : ℤ) : ℚ)) = 100 := by norm_num
      rw [e]
      push_cast
      nlinarith
    push_cast at this ⊢
    linarith
  obtain ⟨d, hd, -⟩ := random_bounds sin 0 (30 : ℕ) (270 : ℕ) (by norm_num)
  obtain ⟨u, hu, -⟩ := random_bounds sin 0 (40 : ℕ) (98 : ℕ) (by norm_num)
  simp only [Int.cast_natCast] at hn hd hu
  have h5 : (hardwareOf (.num 255)).1 = 5 := by
    have := (hardwareOf_nat 255).1 (by norm_num)
    simp only [Nat.cast_ofNat] at this
    rw [this]
  obtain ⟨a, ha, hbig⟩ := allocation_gt_of_score
    { transactions := random sin (.num 0) 10 250
      firstTxDaysAgo := random sin (.num 0) 30 270
      uptime := random sin (.num 0) 40 98
      testnetScore := random sin (.num 0) 100 10000
      hardwareTier := (hardwareOf (.num 255)).1
      hardwareName := (hardwareOf (.num 255)).2 } n d u hn hn1090 h5 hd hu
  refine ⟨_, _, ?_, ?_, estimated_ne_of_allocation_gt _ a ha hbig⟩
  · simp only [evaluate, hfetch]
  · simp only [evaluate, hfetch]

/-- Instance of the refutation of C2 with a sine constantly equal to -0.506365,
which is within `1 / 100000` of the sine of 100 radians. -/
theorem evaluate_not_deterministic_witness :
    ∃ res1 res2 : AllocationResult,
      evaluate (fun _ => -506365 / 1000000) 0 addressFF = .ok res1 ∧
      evaluate (fun _ => -506365 / 1000000) (1 / 2) addressFF = .ok res2 ∧
      res1.estimated ≠ res2.estimated :=
  evaluate_not_deterministic (fun _ => -506365 / 1000000) (by
    have h := real_sin_hundred
    rw [abs_le]
    constructor
    · push_cast
      linarith [h.2]
    · push_cast
      linarith [h.1])

namespace Binary64

/-! ## Binary64: rounding to the nearest integer -/

theorem floor_le_roundNearestEven (x : ℚ) : ⌊x⌋ ≤ roundNearestEven x := by
  unfold roundNearestEven
  split_ifs <;> omega

theorem roundNearestEven_le_floor_add_one (x : ℚ) : roundNearestEven x ≤ ⌊x⌋ + 1 := by
  unfold roundNearestEven
  split_ifs <;> omega

theorem roundNearestEven_intCast (n : ℤ) : roundNearestEven (n : ℚ) = n := by
  unfold roundNearestEven
  rw [Int.floor_intCast]
  simp

theorem le_roundNearestEven (x : ℚ) (n : ℤ) (h : (n : ℚ) ≤ x) : n ≤ roundNearestEven x :=
  le_trans (Int.le_floor.mpr h) (floor_le_roundNearestEven x)

theorem roundNearestEven_le (x : ℚ) (n : ℤ) (h : x ≤ (n : ℚ)) : roundNearestEven x ≤ n := by
  by_cases hx : x - ⌊x⌋ < 1 / 2
  · have : roundNearestEven x = ⌊x⌋ := by
      unfold roundNearestEven
      rw [if_pos hx]
    rw [this]
    have h1 : ((⌊x⌋ : ℤ) : ℚ) ≤ n := le_trans (Int.floor_le x) h
    exact_mod_cast h1
  · have h1 : ((⌊x⌋ : ℤ) : ℚ) < n := by
      have := Int.floor_le x
      linarith
    have h2 : ⌊x⌋ < n := by exact_mod_cast h1
    have := roundNearestEven_le_floor_add_one x
    omega

/-- Below `n + 1 / 2` the nearest integer is at most `n`. -/
theorem roundNearestEven_le_of_lt_half (x : ℚ) (n : ℤ) (h : x < (n : ℚ) + 1 / 2) :
    roundNearestEven x ≤ n := by
  have hf : ⌊x⌋ ≤ n := by
    have h1 : ((⌊x⌋ : ℤ) : ℚ) < n + 1 := by
      have := Int.floor_le x
      linarith
    have h2 : ⌊x⌋ < n + 1 := by exact_mod_cast h1
    omega
  rcases lt_or_eq_of_le hf with hlt | heq
  · have := roundNearestEven_le_floor_add_one x
    omega
  · have hx : x - ⌊x⌋ < 1 / 2 := by
      rw [heq]
      linarith
    unfold roundNearestEven
    rw [if_pos hx, heq]

theorem abs_roundNearestEven_sub_le (x : ℚ) : |(roundNearestEven x : ℚ) - x| ≤ 1 / 2 := by
  have h1 := Int.floor_le x
  have h2 := Int.lt_floor_add_one x
  unfold roundNearestEven
  rw [abs_le]
  split_ifs with c1 c2 c3
  · constructor <;> linarith
  · push_cast
    constructor <;> linarith
  · constructor <;> linarith
  · push_cast
    constructor <;> linarith


/-! ## Binary64: the binade of a rational -/

theorem two_zpow_pos (k : ℤ) : (0 : ℚ) < 2 ^ k := zpow_pos (by norm_num) k

theorem lt_zpow_binadeExp (q : ℚ) : |q| < 2 ^ (binadeExp q + 1) := by
  have h1 : |q| < ((2 : ℕ) : ℚ) ^ (Int.log 2 |q| + 1) := Int.lt_zpow_succ_log_self (by norm_num) _
  rw [Nat.cast_ofNat] at h1
  refine lt_of_lt_of_le h1 (zpow_le_zpow_right₀ (by norm_num) ?_)
  unfold binadeExp
  have := le_max_left (Int.log 2 |q|) (-1022)
  omega

theorem binadeExp_ge (q : ℚ) : -1022 ≤ binadeExp q := le_max_right _ _

theorem binadeExp_le (q : ℚ) (k : ℤ) (hk : -1022 ≤ k) (hq : q ≠ 0) (h : |q| < 2 ^ (k + 1)) :
    binadeExp q ≤ k := by
  have hpos : 0 < |q| := abs_pos.mpr hq
  have h1 : |q| < ((2 : ℕ) : ℚ) ^ (k + 1) := by
    rw [Nat.cast_ofNat]
    exact h
  have h2 : Int.log 2 |q| < k + 1 := (Int.lt_zpow_iff_log_lt (by norm_num) hpos).mp h1
  unfold binadeExp
  exact max_le (by omega) hk

theorem zpow_binadeExp_le (q : ℚ) (h : (2 : ℚ) ^ (-1022 : ℤ) ≤ |q|) :
    (2 : ℚ) ^ binadeExp q ≤ |q| := by
  have hpos : 0 < |q| := lt_of_lt_of_le (two_zpow_pos _) h
  have h1 : ((2 : ℕ) : ℚ) ^ (-1022 : ℤ) ≤ |q| := by
    rw [Nat.cast_ofNat]
    exact h
  have h2 : -1022 ≤ Int.log 2 |q| := (Int.zpow_le_iff_le_log (by norm_num) hpos).mp h1
  have h3 : binadeExp q = Int.log 2 |q| := by
    unfold binadeExp
    exact max_eq_left h2
  rw [h3]
  have := Int.zpow_log_le_self (R := ℚ) (b := 2) (by norm_num) hpos
  rw [Nat.cast_ofNat] at this
  exact this

theorem le_binadeExp (q : ℚ) (k : ℤ) (h : (2 : ℚ) ^ k ≤ |q|) : k ≤ binadeExp q := by
  have hpos : 0 < |q| := lt_of_lt_of_le (two_zpow_pos _) h
  have h1 : ((2 : ℕ) : ℚ) ^ k ≤ |q| := by
    rw [Nat.cast_ofNat]
    exact h
  have h2 : k ≤ Int.log 2 |q| := (Int.zpow_le_iff_le_log (by norm_num) hpos).mp h1
  unfold binadeExp
  exact le_trans h2 (le_max_left _ _)

/-! ## Binary64: rounding a rational -/

theorem round64_of_lt (q : ℚ) (h : |q| < 2 ^ 1024 - 2 ^ 970) :
    round64 q
      = .fin (roundNearestEven (q / 2 ^ (binadeExp q - 52)) * 2 ^ (binadeExp q - 52)) := by
  unfold round64
  rw [if_neg (not_le.mpr h)]

theorem round64_of_ge (q : ℚ) (h : (2 : ℚ) ^ 1024 - 2 ^ 970 ≤ |q|) :
    round64 q = .inf (decide (q < 0)) := by
  unfold round64
  rw [if_pos h]

theorem round64_zero : round64 0 = .fin 0 := by
  rw [round64_of_lt 0 (by norm_num)]
  simp [roundNearestEven]

/-- The significand of a rounded value has magnitude at most `2 ^ 53`. -/
theorem abs_significand_le (q : ℚ) :
    |roundNearestEven (q / 2 ^ (binadeExp q - 52))| ≤ 2 ^ 53 := by
  have hU := two_zpow_pos (binadeExp q - 52)
  have hlt := lt_zpow_binadeExp q
  have e : (2 : ℚ) ^ (binadeExp q + 1) = 2 ^ 53 * 2 ^ (binadeExp q - 52) := by
    rw [show binadeExp q + 1 = 53 + (binadeExp q - 52) by ring, zpow_add₀ (by norm_num)]
    norm_num
  rw [e] at hlt
  have hx : |q / 2 ^ (binadeExp q - 52)| < 2 ^ 53 := by
    rw [abs_div, abs_of_pos hU, div_lt_iff₀ hU]
    exact hlt
  rw [abs_lt] at hx
  rw [abs_le]
  constructor
  · apply le_roundNearestEven
    push_cast
    linarith [hx.1]
  · apply roundNearestEven_le
    push_cast
    linarith [hx.2]


/-- A value of magnitude at most `2 ^ k`, with `k` in the exponent range, rounds to
a finite value of magnitude at most `2 ^ k` and of the same sign. -/
theorem round64_abs_le (q : ℚ) (k : ℤ) (hk1 : -1022 ≤ k) (hk2 : k ≤ 1023)
    (h : |q| ≤ 2 ^ k) :
    ∃ r : ℚ, round64 q = .fin r ∧ |r| ≤ 2 ^ k ∧ (0 ≤ q → 0 ≤ r) ∧ (q ≤ 0 → r ≤ 0) := by
  have hthr : |q| < 2 ^ 1024 - 2 ^ 970 := by
    have h1 : (2 : ℚ) ^ k ≤ 2 ^ (1023 : ℤ) := zpow_le_zpow_right₀ (by norm_num) hk2
    have h2 : (2 : ℚ) ^ (1023 : ℤ) < 2 ^ 1024 - 2 ^ 970 := by norm_num
    linarith
  have hU := two_zpow_pos (binadeExp q - 52)
  refine ⟨_, round64_of_lt q hthr, ?_, ?_, ?_⟩
  · by_cases hq : q = 0
    · subst hq
      simp [roundNearestEven]
      exact le_of_lt (two_zpow_pos k)
    · have hE : binadeExp q ≤ k := by
        apply binadeExp_le q k hk1 hq
        exact lt_of_le_of_lt h (zpow_lt_zpow_right₀ (by norm_num) (by omega))
      obtain ⟨t, ht⟩ : ∃ t : ℕ, (t : ℤ) = k - binadeExp q + 52 :=
        ⟨(k - binadeExp q + 52).toNat, Int.toNat_of_nonneg (by omega)⟩
      have e : (2 : ℚ) ^ k = ((2 ^ t : ℤ) : ℚ) * 2 ^ (binadeExp q - 52) := by
        rw [show k = (t : ℤ) + (binadeExp q - 52) by omega, zpow_add₀ (by norm_num),
          zpow_natCast]
        push_cast
        ring_nf
      have hx : |q / 2 ^ (binadeExp q - 52)| ≤ ((2 ^ t : ℤ) : ℚ) := by
        rw [abs_div, abs_of_pos hU, div_le_iff₀ hU, ← e]
        exact h
      rw [abs_le] at hx
      have b1 : -(2 ^ t : ℤ) ≤ roundNearestEven (q / 2 ^ (binadeExp q - 52)) := by
        apply le_roundNearestEven
        push_cast
        push_cast at hx
        exact hx.1
      have b2 : roundNearestEven (q / 2 ^ (binadeExp q - 52)) ≤ (2 ^ t : ℤ) :=
        roundNearestEven_le _ _ hx.2
      rw [abs_mul, abs_of_pos hU, e]
      apply mul_le_mul_of_nonneg_right _ (le_of_lt hU)
      rw [abs_le]
      constructor
      · exact_mod_cast b1
      · exact_mod_cast b2
  · intro h0
    apply mul_nonneg _ (le_of_lt hU)
    have : (0 : ℤ) ≤ roundNearestEven (q / 2 ^ (binadeExp q - 52)) := by
      apply le_roundNearestEven
      push_cast
      exact div_nonneg h0 (le_of_lt hU)
    exact_mod_cast this
  · intro h0
    apply mul_nonpos_of_nonpos_of_nonneg _ (le_of_lt hU)
    have : roundNearestEven (q / 2 ^ (binadeExp q - 52)) ≤ (0 : ℤ) := by
      apply roundNearestEven_le
      push_cast
      exact div_nonpos_of_nonpos_of_nonneg h0 (le_of_lt hU)
    exact_mod_cast this

/-- A value that is at least `2 ^ k`, with `k` in the exponent range, and below
the overflow threshold rounds to a finite value that is at least `2 ^ k`. -/
theorem round64_ge_zpow (q : ℚ) (k : ℤ) (hk1 : -1022 ≤ k) (h : (2 : ℚ) ^ k ≤ q)
    (hthr : q < 2 ^ 1024 - 2 ^ 970) :
    ∃ r : ℚ, round64 q = .fin r ∧ 2 ^ k ≤ r := by
  have hqpos : 0 < q := lt_of_lt_of_le (two_zpow_pos k) h
  have habs : |q| = q := abs_of_pos hqpos
  have hU := two_zpow_pos (binadeExp q - 52)
  refine ⟨_, round64_of_lt q (by rw [habs]; exact hthr), ?_⟩
  have hkE : k ≤ binadeExp q := le_binadeExp q k (by rw [habs]; exact h)
  have hlow : (2 : ℚ) ^ binadeExp q ≤ q := by
    have := zpow_binadeExp_le q (le_trans (zpow_le_zpow_right₀ (by norm_num) hk1)
      (by rw [habs]; exact h))
    rw [habs] at this
    exact this
  have e : (2 : ℚ) ^ binadeExp q = ((2 ^ 52 : ℤ) : ℚ) * 2 ^ (binadeExp q - 52) := by
    rw [show binadeExp q = 52 + (binadeExp q - 52) by ring, zpow_add₀ (by norm_num)]
    norm_num
  have hx : ((2 ^ 52 : ℤ) : ℚ) ≤ q / 2 ^ (binadeExp q - 52) := by
    rw [le_div_iff₀ hU, ← e]
    exact hlow
  have b : (2 ^ 52 : ℤ) ≤ roundNearestEven (q / 2 ^ (binadeExp q - 52)) :=
    le_roundNearestEven _ _ hx
  calc (2 : ℚ) ^ k ≤ 2 ^ binadeExp q := zpow_le_zpow_right₀ (by norm_num) hkE
    _ = ((2 ^ 52 : ℤ) : ℚ) * 2 ^ (binadeExp q - 52) := e
    _ ≤ roundNearestEven (q / 2 ^ (binadeExp q - 52)) * 2 ^ (binadeExp q - 52) := by
        apply mul_le_mul_of_nonneg_right _ (le_of_lt hU)
        exact_mod_cast b


/-- A number `n * 2 ^ j` with `|n| < 2 ^ 53`, `j` at least the exponent of the
smallest subnormal and magnitude below the overflow threshold is a binary64
value: rounding leaves it unchanged. -/
theorem round64_of_representable_lt (n j : ℤ) (hn : |n| < 2 ^ 53) (hj : -1074 ≤ j)
    (hthr : |(n : ℚ) * 2 ^ j| < 2 ^ 1024 - 2 ^ 970) :
    round64 ((n : ℚ) * 2 ^ j) = .fin ((n : ℚ) * 2 ^ j) := by
  by_cases h0 : n = 0
  · subst h0
    simp only [Int.cast_zero, zero_mul]
    exact round64_zero
  have hq : (n : ℚ) * 2 ^ j ≠ 0 :=
    mul_ne_zero (by exact_mod_cast h0) (ne_of_gt (two_zpow_pos j))
  rw [round64_of_lt _ hthr]
  have hE1 : binadeExp ((n : ℚ) * 2 ^ j) ≤ j + 52 := by
    rcases le_or_lt (-1022) (j + 52) with hc | hc
    · apply binadeExp_le _ _ hc hq
      rw [abs_mul, abs_of_pos (two_zpow_pos j),
        show j + 52 + 1 = 53 + j by ring, zpow_add₀ (by norm_num)]
      apply mul_lt_mul_of_pos_right _ (two_zpow_pos j)
      have : ((|n| : ℤ) : ℚ) < ((2 ^ 53 : ℤ) : ℚ) := by exact_mod_cast hn
      push_cast at this
      norm_num
      exact this
    · -- below the normal range the exponent is clamped
      have hlt : |(n : ℚ) * 2 ^ j| < 2 ^ ((-1022 : ℤ) + 1) := by
        rw [abs_mul, abs_of_pos (two_zpow_pos j)]
        have h1 : |(n : ℚ)| < 2 ^ (53 : ℤ) := by
          have : ((|n| : ℤ) : ℚ) < ((2 ^ 53 : ℤ) : ℚ) := by exact_mod_cast hn
          push_cast at this
          norm_num
          exact this
        calc |(n : ℚ)| * 2 ^ j < 2 ^ (53 : ℤ) * 2 ^ j :=
              mul_lt_mul_of_pos_right h1 (two_zpow_pos j)
          _ = 2 ^ (53 + j) := (zpow_add₀ (by norm_num) _ _).symm
          _ ≤ 2 ^ ((-1022 : ℤ) + 1) := zpow_le_zpow_right₀ (by norm_num) (by omega)
      have := binadeExp_le _ (-1022) (le_refl _) hq hlt
      have := binadeExp_ge ((n : ℚ) * 2 ^ j)
      omega
  have hE2 := binadeExp_ge ((n : ℚ) * 2 ^ j)
  generalize binadeExp ((n : ℚ) * 2 ^ j) = E at hE1 hE2
  obtain ⟨t, ht⟩ : ∃ t : ℕ, (t : ℤ) = j - (E - 52) :=
    ⟨(j - (E - 52)).toNat, Int.toNat_of_nonneg (by omega)⟩
  have e : (2 : ℚ) ^ j = ((2 ^ t : ℤ) : ℚ) * 2 ^ (E - 52) := by
    rw [show j = (t : ℤ) + (E - 52) by omega, zpow_add₀ (by norm_num), zpow_natCast]
    push_cast
    ring_nf
  have hU := two_zpow_pos (E - 52)
  have hx : (n : ℚ) * 2 ^ j / 2 ^ (E - 52) = ((n * 2 ^ t : ℤ) : ℚ) := by
    rw [e]
    push_cast
    field_simp
    ring
  rw [hx, roundNearestEven_intCast, e]
  congr 1
  push_cast
  ring


/-- The same with a significand of magnitude up to `2 ^ 53` included. -/
theorem round64_of_representable (n j : ℤ) (hn : |n| ≤ 2 ^ 53) (hj : -1074 ≤ j)
    (hthr : |(n : ℚ) * 2 ^ j| < 2 ^ 1024 - 2 ^ 970) :
    round64 ((n : ℚ) * 2 ^ j) = .fin ((n : ℚ) * 2 ^ j) := by
  rcases lt_or_eq_of_le hn with hlt | heq
  · exact round64_of_representable_lt n j hlt hj hthr
  · have hn2 : n = 2 * (n / 2) := by
      rcases abs_eq (by norm_num : (0 : ℤ) ≤ 2 ^ 53) |>.mp heq with h | h <;> rw [h] <;> norm_num
    have hhalf : |n / 2| < 2 ^ 53 := by
      rcases abs_eq (by norm_num : (0 : ℤ) ≤ 2 ^ 53) |>.mp heq with h | h <;> rw [h] <;> norm_num
    have e : (n : ℚ) * 2 ^ j = ((n / 2 : ℤ) : ℚ) * 2 ^ (j + 1) := by
      rw [zpow_add₀ (by norm_num), zpow_one]
      have : (n : ℚ) = 2 * ((n / 2 : ℤ) : ℚ) := by exact_mod_cast hn2
      rw [this]
      ring
    rw [e] at hthr ⊢
    exact round64_of_representable_lt (n / 2) (j + 1) hhalf (by omega) hthr

/-- An integer of magnitude at most `2 ^ 53` is a binary64 value. -/
theorem round64_intCast (n : ℤ) (hn : |n| ≤ 2 ^ 53) : round64 (n : ℚ) = .fin (n : ℚ) := by
  have h := round64_of_representable n 0 hn (by norm_num) (by
    rw [zpow_zero, mul_one]
    have h1 : |(n : ℚ)| ≤ 2 ^ 53 := by
      have : ((|n| : ℤ) : ℚ) ≤ ((2 ^ 53 : ℤ) : ℚ) := by exact_mod_cast hn
      push_cast at this
      exact this
    have h2 : (2 : ℚ) ^ 53 < 2 ^ 1024 - 2 ^ 970 := by norm_num
    linarith)
  rw [zpow_zero, mul_one] at h
  exact h

/-- A finite result of rounding is below the overflow threshold. -/
theorem abs_lt_threshold_of_round64 (q r : ℚ) (h : round64 q = .fin r) :
    |r| < 2 ^ 1024 - 2 ^ 970 := by
  have hthr : |q| < 2 ^ 1024 - 2 ^ 970 := by
    by_contra hc
    rw [round64_of_ge q (not_lt.mp hc)] at h
    exact F64.noConfusion h
  rw [round64_of_lt q hthr] at h
  injection h with h
  rw [← h]
  have hU := two_zpow_pos (binadeExp q - 52)
  rw [abs_mul, abs_of_pos hU]
  by_cases hq : q = 0
  · subst hq
    simp [roundNearestEven]
    norm_num
  have hE : binadeExp q ≤ 1023 := by
    apply binadeExp_le q 1023 (by norm_num) hq
    have : (2 : ℚ) ^ 1024 - 2 ^ 970 < 2 ^ ((1023 : ℤ) + 1) := by norm_num
    linarith
  rcases lt_or_eq_of_le hE with hlt | heq
  · have h1 := abs_significand_le q
    have h2 : |(roundNearestEven (q / 2 ^ (binadeExp q - 52)) : ℚ)| ≤ 2 ^ (53 : ℤ) := by
      have : ((|roundNearestEven (q / 2 ^ (binadeExp q - 52))| : ℤ) : ℚ)
          ≤ ((2 ^ 53 : ℤ) : ℚ) := by exact_mod_cast h1
      push_cast at this
      norm_num
      exact this
    calc |(roundNearestEven (q / 2 ^ (binadeExp q - 52)) : ℚ)| * 2 ^ (binadeExp q - 52)
        ≤ 2 ^ (53 : ℤ) * 2 ^ (binadeExp q - 52) :=
          mul_le_mul_of_nonneg_right h2 (le_of_lt hU)
      _ = 2 ^ (53 + (binadeExp q - 52)) := (zpow_add₀ (by norm_num) _ _).symm
      _ ≤ 2 ^ (1023 : ℤ) := zpow_le_zpow_right₀ (by norm_num) (by omega)
      _ < 2 ^ 1024 - 2 ^ 970 := by norm_num
  · rw [heq] at hU ⊢
    rw [abs_lt] at hthr
    have hx1 : q / 2 ^ ((1023 : ℤ) - 52) < ((2 ^ 53 - 1 : ℤ) : ℚ) + 1 / 2 := by
      rw [div_lt_iff₀ hU]
      push_cast
      norm_num
      norm_num at hthr
      linarith [hthr.2]
    have hx2 : -(q / 2 ^ ((1023 : ℤ) - 52)) < ((2 ^ 53 - 1 : ℤ) : ℚ) + 1 / 2 := by
      rw [← neg_div, div_lt_iff₀ hU]
      push_cast
      norm_num
      norm_num at hthr
      linarith [hthr.1]
    have b1 := roundNearestEven_le_of_lt_half _ _ hx1
    have b2 : -(2 ^ 53 - 1 : ℤ) ≤ roundNearestEven (q / 2 ^ ((1023 : ℤ) - 52)) := by
      by_contra hc
      push_neg at hc
      have h3 := abs_roundNearestEven_sub_le (q / 2 ^ ((1023 : ℤ) - 52))
      rw [abs_le] at h3
      have h4 : (roundNearestEven (q / 2 ^ ((1023 : ℤ) - 52)) : ℚ) ≤ -(2 ^ 53 - 1) - 1 := by
        have : roundNearestEven (q / 2 ^ ((1023 : ℤ) - 52)) ≤ -(2 ^ 53 - 1 : ℤ) - 1 := by omega
        exact_mod_cast this
      push_cast at hx2
      linarith [h3.2]
    have b3 : |(roundNearestEven (q / 2 ^ ((1023 : ℤ) - 52)) : ℚ)| ≤ 2 ^ 53 - 1 := by
      rw [abs_le]
      constructor
      · have : ((-(2 ^ 53 - 1 : ℤ) : ℤ) : ℚ)
            ≤ (roundNearestEven (q / 2 ^ ((1023 : ℤ) - 52)) : ℚ) := by exact_mod_cast b2
        push_cast at this
        linarith
      · have : (roundNearestEven (q / 2 ^ ((1023 : ℤ) - 52)) : ℚ) ≤ ((2 ^ 53 - 1 : ℤ) : ℚ) := by
          exact_mod_cast b1
        push_cast at this
        linarith
    calc |(roundNearestEven (q / 2 ^ ((1023 : ℤ) - 52)) : ℚ)| * 2 ^ ((1023 : ℤ) - 52)
        ≤ (2 ^ 53 - 1) * 2 ^ ((1023 : ℤ) - 52) :=
          mul_le_mul_of_nonneg_right b3 (le_of_lt hU)
      _ < 2 ^ 1024 - 2 ^ 970 := by norm_num


/-- A finite result of rounding has the shape `m * 2 ^ j` of a binary64 value. -/
theorem round64_shape (q r : ℚ) (h : round64 q = .fin r) :
    ∃ m j : ℤ, r = (m : ℚ) * 2 ^ j ∧ |m| ≤ 2 ^ 53 ∧ -1074 ≤ j := by
  have hthr : |q| < 2 ^ 1024 - 2 ^ 970 := by
    by_contra hc
    rw [round64_of_ge q (not_lt.mp hc)] at h
    exact F64.noConfusion h
  rw [round64_of_lt q hthr] at h
  injection h with h
  refine ⟨_, binadeExp q - 52, h.symm, abs_significand_le q, ?_⟩
  have := binadeExp_ge q
  omega

/-- Rounding a binary64 value again changes nothing. -/
theorem round64_idem (q r : ℚ) (h : round64 q = .fin r) : round64 r = .fin r := by
  obtain ⟨m, j, hr, hm, hj⟩ := round64_shape q r h
  have hthr := abs_lt_threshold_of_round64 q r h
  rw [hr] at hthr ⊢
  exact round64_of_representable m j hm hj hthr

/-- The rounding error is at most half a unit in the last place. -/
theorem abs_round64_sub_le (q r : ℚ) (h : round64 q = .fin r) :
    |r - q| ≤ 2 ^ (binadeExp q - 53) := by
  have hthr : |q| < 2 ^ 1024 - 2 ^ 970 := by
    by_contra hc
    rw [round64_of_ge q (not_lt.mp hc)] at h
    exact F64.noConfusion h
  rw [round64_of_lt q hthr] at h
  injection h with h
  have hU := two_zpow_pos (binadeExp q - 52)
  have herr := abs_roundNearestEven_sub_le (q / 2 ^ (binadeExp q - 52))
  have e : r - q
      = ((roundNearestEven (q / 2 ^ (binadeExp q - 52)) : ℚ) - q / 2 ^ (binadeExp q - 52))
        * 2 ^ (binadeExp q - 52) := by
    rw [← h]
    field_simp
  have e2 : (2 : ℚ) ^ (binadeExp q - 53) = 1 / 2 * 2 ^ (binadeExp q - 52) := by
    rw [show binadeExp q - 53 = -1 + (binadeExp q - 52) by ring, zpow_add₀ (by norm_num)]
    norm_num
  rw [e, abs_mul, abs_of_pos hU, e2]
  exact mul_le_mul_of_nonneg_right herr (le_of_lt hU)

/-- A non-negative value below the overflow threshold rounds to a finite value
that exceeds it by at most the relative error `2 ^ -53`, or by half the smallest
subnormal. -/
theorem round64_le_of_nonneg (q : ℚ) (h0 : 0 ≤ q) (hthr : q < 2 ^ 1024 - 2 ^ 970) :
    ∃ r : ℚ, round64 q = .fin r ∧ 0 ≤ r ∧ r ≤ q + q * 2 ^ (-53 : ℤ) + 2 ^ (-1075 : ℤ) := by
  have habs : |q| = q := abs_of_nonneg h0
  have hfin := round64_of_lt q (by rw [habs]; exact hthr)
  have hU := two_zpow_pos (binadeExp q - 52)
  refine ⟨_, hfin, ?_, ?_⟩
  · apply mul_nonneg _ (le_of_lt hU)
    have : (0 : ℤ) ≤ roundNearestEven (q / 2 ^ (binadeExp q - 52)) := by
      apply le_roundNearestEven
      push_cast
      exact div_nonneg h0 (le_of_lt hU)
    exact_mod_cast this
  · have hs : (0 : ℚ) < 2 ^ (-1075 : ℤ) := two_zpow_pos _
    by_cases hq : q = 0
    · subst hq
      have hz : roundNearestEven (0 / 2 ^ (binadeExp 0 - 52)) = 0 := by
        simp [roundNearestEven]
      rw [hz]
      simp only [Int.cast_zero, zero_mul, zero_add]
      exact le_of_lt hs
    have herr := (abs_le.mp (abs_round64_sub_le q _ hfin)).2
    have hq2 : 0 ≤ q * 2 ^ (-53 : ℤ) := mul_nonneg h0 (le_of_lt (two_zpow_pos _))
    have key : (2 : ℚ) ^ (binadeExp q - 53) ≤ q * 2 ^ (-53 : ℤ) + 2 ^ (-1075 : ℤ) := by
      rcases le_or_lt ((2 : ℚ) ^ (-1022 : ℤ)) q with hn | hn
      · have h1 := zpow_binadeExp_le q (by rw [habs]; exact hn)
        rw [habs] at h1
        have e : (2 : ℚ) ^ (binadeExp q - 53) = 2 ^ binadeExp q * 2 ^ (-53 : ℤ) := by
          rw [show binadeExp q - 53 = binadeExp q + (-53) by ring, zpow_add₀ (by norm_num)]
        rw [e]
        have h2 : (2 : ℚ) ^ binadeExp q * 2 ^ (-53 : ℤ) ≤ q * 2 ^ (-53 : ℤ) :=
          mul_le_mul_of_nonneg_right h1 (le_of_lt (two_zpow_pos _))
        exact le_trans h2 (le_add_of_nonneg_right (le_of_lt hs))
      · have hE : binadeExp q = -1022 := by
          have := binadeExp_le q (-1023 + 1) (by norm_num) hq (by
            rw [habs]
            exact lt_of_lt_of_le hn (zpow_le_zpow_right₀ (by norm_num) (by norm_num)))
          have := binadeExp_ge q
          omega
        rw [hE]
        have e : (2 : ℚ) ^ ((-1022 : ℤ) - 53) = 2 ^ (-1075 : ℤ) := by norm_num
        rw [e]
        exact le_add_of_nonneg_left hq2
    have e3 : q + q * 2 ^ (-53 : ℤ) + 2 ^ (-1075 : ℤ)
        = q + (q * 2 ^ (-53 : ℤ) + 2 ^ (-1075 : ℤ)) := by ring
    rw [e3]
    exact sub_le_iff_le_add'.mp (le_trans herr key)

/-! ## Binary64: computation rules -/

namespace F64

@[simp] theorem fin_add_fin (a b : ℚ) : fin a + fin b = round64 (a + b) := rfl
@[simp] theorem fin_sub_fin (a b : ℚ) : fin a - fin b = round64 (a + -b) := rfl
@[simp] theorem fin_mul_fin (a b : ℚ) : fin a * fin b = round64 (a * b) := rfl
@[simp] theorem nan_add_f64 (a : F64) : nan + a = nan := rfl
@[simp] theorem nan_mul_f64 (a : F64) : nan * a = nan := rfl
@[simp] theorem add_nan_f64 (a : F64) : a + nan = nan := by cases a <;> rfl
@[simp] theorem sub_nan_f64 (a : F64) : a - nan = nan := by cases a <;> rfl
@[simp] theorem mul_nan_f64 (a : F64) : a * nan = nan := by cases a <;> rfl

theorem fin_div_fin (a b : ℚ) (hb : b ≠ 0) : fin a / fin b = round64 (a / b) := by
  show div (fin a) (fin b) = _
  simp [div, hb]

theorem ofNat_eq_f64 (n : Nat) : (OfNat.ofNat n : F64) = round64 (n : ℚ) := rfl

theorem ofScientific_eq_f64 (m : Nat) (s : Bool) (e : Nat) :
    (OfScientific.ofScientific m s e : F64) = round64 (OfScientific.ofScientific m s e) := rfl

@[simp] theorem fin_lt_fin (a b : ℚ) : (fin a < fin b) ↔ a < b := by
  show lt (fin a) (fin b) = true ↔ _
  simp [lt]

@[simp] theorem not_nan_lt_f64 (a : F64) : ¬ (nan < a) := by
  show ¬ (lt nan a = true)
  simp [lt]

@[simp] theorem not_lt_nan_f64 (a : F64) : ¬ (a < nan) := by
  show ¬ (lt a nan = true)
  cases a with
  | nan => simp [lt]
  | inf b => cases b <;> simp [lt]
  | fin q => simp [lt]

@[simp] theorem fin_inj_iff (a b : ℚ) : fin a = fin b ↔ a = b :=
  ⟨fun h => by cases h; rfl, fun h => by rw [h]⟩

/-- A literal natural number up to `2 ^ 53` denotes itself. -/
theorem ofNat_eq_fin (n : ℕ) (h : n ≤ 2 ^ 53) : (OfNat.ofNat n : F64) = fin (n : ℚ) := by
  rw [ofNat_eq_f64]
  have := round64_intCast (n : ℤ) (by
    rw [abs_of_nonneg (Int.natCast_nonneg n)]
    exact_mod_cast h)
  simpa using this

end F64

@[simp] theorem Math.floor_fin (q : ℚ) : Math.floor (.fin q) = .fin ((⌊q⌋ : ℤ) : ℚ) := rfl
@[simp] theorem Math.floor_nan_f64 : Math.floor .nan = .nan := rfl
@[simp] theorem Math.floor_inf (b : Bool) : Math.floor (.inf b) = .inf b := rfl

theorem Math.max_fin (a b : ℚ) : Math.max (.fin a) (.fin b) = .fin (Max.max a b) := by
  unfold Math.max
  simp only [F64.fin_lt_fin]
  split_ifs with h
  · rw [max_eq_right (le_of_lt h)]
  · rw [max_eq_left (not_lt.mp h)]

@[simp] theorem Math.max_nan_f64 (a : F64) : Math.max a .nan = .nan := by
  cases a <;> rfl

/-! ## Binary64: finite values and their bounds -/

theorem FiniteBelow.mono {x : F64} {k k2 : ℤ} (h : FiniteBelow k x) (hk : k ≤ k2) :
    FiniteBelow k2 x := by
  obtain ⟨r, hr, hb⟩ := h
  exact ⟨r, hr, le_trans hb (zpow_le_zpow_right₀ (by norm_num) hk)⟩

theorem FiniteBelow.of_round64 (q : ℚ) (k : ℤ) (hk1 : -1022 ≤ k) (hk2 : k ≤ 1023)
    (h : |q| ≤ 2 ^ k) : FiniteBelow k (round64 q) := by
  obtain ⟨r, hr, hb, -, -⟩ := round64_abs_le q k hk1 hk2 h
  exact ⟨r, hr, hb⟩

theorem FiniteBelow.mul {a b : F64} {k1 k2 : ℤ} (ha : FiniteBelow k1 a) (hb : FiniteBelow k2 b)
    (k : ℤ) (hk : k1 + k2 ≤ k) (hk1 : -1022 ≤ k) (hk2 : k ≤ 1023) :
    FiniteBelow k (a * b) := by
  obtain ⟨r1, rfl, h1⟩ := ha
  obtain ⟨r2, rfl, h2⟩ := hb
  rw [F64.fin_mul_fin]
  apply FiniteBelow.of_round64 _ k hk1 hk2
  rw [abs_mul]
  calc |r1| * |r2| ≤ 2 ^ k1 * 2 ^ k2 :=
        mul_le_mul h1 h2 (abs_nonneg _) (le_of_lt (two_zpow_pos _))
    _ = 2 ^ (k1 + k2) := (zpow_add₀ (by norm_num) _ _).symm
    _ ≤ 2 ^ k := zpow_le_zpow_right₀ (by norm_num) hk

theorem two_zpow_add_le (k1 k2 k : ℤ) (h1 : k1 < k) (h2 : k2 < k) :
    (2 : ℚ) ^ k1 + 2 ^ k2 ≤ 2 ^ k := by
  have a1 : (2 : ℚ) ^ k1 ≤ 2 ^ (k - 1) := zpow_le_zpow_right₀ (by norm_num) (by omega)
  have a2 : (2 : ℚ) ^ k2 ≤ 2 ^ (k - 1) := zpow_le_zpow_right₀ (by norm_num) (by omega)
  have e : (2 : ℚ) ^ k = 2 ^ (k - 1) + 2 ^ (k - 1) := by
    rw [show k = (k - 1) + 1 by ring, zpow_add₀ (by norm_num), zpow_one]
    ring_nf
  rw [e]
  exact add_le_add a1 a2

theorem FiniteBelow.add {a b : F64} {k1 k2 : ℤ} (ha : FiniteBelow k1 a) (hb : FiniteBelow k2 b)
    (k : ℤ) (h1 : k1 < k) (h2 : k2 < k) (hk1 : -1022 ≤ k) (hk2 : k ≤ 1023) :
    FiniteBelow k (a + b) := by
  obtain ⟨r1, rfl, b1⟩ := ha
  obtain ⟨r2, rfl, b2⟩ := hb
  rw [F64.fin_add_fin]
  apply FiniteBelow.of_round64 _ k hk1 hk2
  exact le_trans (abs_add r1 r2) (le_trans (add_le_add b1 b2) (two_zpow_add_le k1 k2 k h1 h2))

theorem FiniteBelow.sub {a b : F64} {k1 k2 : ℤ} (ha : FiniteBelow k1 a) (hb : FiniteBelow k2 b)
    (k : ℤ) (h1 : k1 < k) (h2 : k2 < k) (hk1 : -1022 ≤ k) (hk2 : k ≤ 1023) :
    FiniteBelow k (a - b) := by
  obtain ⟨r1, rfl, b1⟩ := ha
  obtain ⟨r2, rfl, b2⟩ := hb
  rw [F64.fin_sub_fin]
  apply FiniteBelow.of_round64 _ k hk1 hk2
  have b3 : |-r2| ≤ 2 ^ k2 := by rw [abs_neg]; exact b2
  exact le_trans (abs_add r1 (-r2)) (le_trans (add_le_add b1 b3) (two_zpow_add_le k1 k2 k h1 h2))

theorem FiniteBelow.floor {a : F64} {k : ℤ} (ha : FiniteBelow k a) (hk : 0 ≤ k) :
    FiniteBelow k (Math.floor a) := by
  obtain ⟨r, rfl, b⟩ := ha
  refine ⟨_, rfl, ?_⟩
  obtain ⟨t, ht⟩ : ∃ t : ℕ, (t : ℤ) = k := ⟨k.toNat, Int.toNat_of_nonneg hk⟩
  have e : (2 : ℚ) ^ k = ((2 ^ t : ℤ) : ℚ) := by
    rw [← ht, zpow_natCast]
    push_cast
    rfl
  rw [e] at b ⊢
  rw [abs_le] at b ⊢
  constructor
  · have : -(2 ^ t : ℤ) ≤ ⌊r⌋ := Int.le_floor.mpr (by push_cast; push_cast at b; exact b.1)
    exact_mod_cast this
  · have : ⌊r⌋ ≤ (2 ^ t : ℤ) := by
      have h1 : ((⌊r⌋ : ℤ) : ℚ) ≤ ((2 ^ t : ℤ) : ℚ) := le_trans (Int.floor_le r) b.2
      exact_mod_cast h1
    exact_mod_cast this

theorem FiniteBelow.div_fin {a : F64} {k1 : ℤ} (ha : FiniteBelow k1 a) (d : ℚ) (j : ℤ)
    (hd : 2 ^ j ≤ d) (k : ℤ) (hk : k1 - j ≤ k) (hk1 : -1022 ≤ k) (hk2 : k ≤ 1023) :
    FiniteBelow k (a / F64.fin d) := by
  obtain ⟨r, rfl, b⟩ := ha
  have hdpos : 0 < d := lt_of_lt_of_le (two_zpow_pos j) hd
  rw [F64.fin_div_fin r d (ne_of_gt hdpos)]
  apply FiniteBelow.of_round64 _ k hk1 hk2
  rw [abs_div, abs_of_pos hdpos, div_le_iff₀ hdpos]
  calc |r| ≤ 2 ^ k1 := b
    _ = 2 ^ (k1 - j) * 2 ^ j := by
        rw [← zpow_add₀ (by norm_num)]
        congr 1
        ring
    _ ≤ 2 ^ k * d :=
        mul_le_mul (zpow_le_zpow_right₀ (by norm_num) hk) hd (le_of_lt (two_zpow_pos _))
          (le_of_lt (two_zpow_pos _))

/-! ## Binary64: the stages of `calculateAllocation` stay finite -/

theorem finiteBelow_ofNat (n : ℕ) (k : ℤ) (hk1 : -1022 ≤ k) (hk2 : k ≤ 1023)
    (h : (n : ℚ) ≤ 2 ^ k) : FiniteBelow k (OfNat.ofNat n : F64) := by
  rw [F64.ofNat_eq_f64]
  apply FiniteBelow.of_round64 _ k hk1 hk2
  rw [abs_of_nonneg (Nat.cast_nonneg n)]
  exact h

theorem finiteBelow_ofScientific (m : ℕ) (s : Bool) (e : ℕ) (k : ℤ) (hk1 : -1022 ≤ k)
    (hk2 : k ≤ 1023) (h : |(OfScientific.ofScientific m s e : ℚ)| ≤ 2 ^ k) :
    FiniteBelow k (OfScientific.ofScientific m s e : F64) := by
  rw [F64.ofScientific_eq_f64]
  exact FiniteBelow.of_round64 _ k hk1 hk2 h

theorem hardwareMultipliers_fin (t : ℤ) (h1 : 1 ≤ t) (h5 : t ≤ 5) :
    ∃ m : F64, hardwareMultipliers (.fin t) = some m ∧ FiniteBelow 3 m := by
  have l1 : (1 : F64) = .fin 1 := by simpa using F64.ofNat_eq_fin 1 (by norm_num)
  have l2 : (2 : F64) = .fin 2 := by simpa using F64.ofNat_eq_fin 2 (by norm_num)
  have l3 : (3 : F64) = .fin 3 := by simpa using F64.ofNat_eq_fin 3 (by norm_num)
  have l4 : (4 : F64) = .fin 4 := by simpa using F64.ofNat_eq_fin 4 (by norm_num)
  have l5 : (5 : F64) = .fin 5 := by simpa using F64.ofNat_eq_fin 5 (by norm_num)
  have ht : t = 1 ∨ t = 2 ∨ t = 3 ∨ t = 4 ∨ t = 5 := by omega
  unfold hardwareMultipliers
  rw [l1, l2, l3, l4, l5]
  simp only [F64.fin_inj_iff]
  rcases ht with rfl | rfl | rfl | rfl | rfl
  · refine ⟨1.0, by norm_num, ?_⟩
    exact finiteBelow_ofScientific _ _ _ 3 (by norm_num) (by norm_num)
      (by rw [abs_le]; constructor <;> norm_num)
  · refine ⟨1.5, by norm_num, ?_⟩
    exact finiteBelow_ofScientific _ _ _ 3 (by norm_num) (by norm_num)
      (by rw [abs_le]; constructor <;> norm_num)
  · refine ⟨2.0, by norm_num, ?_⟩
    exact finiteBelow_ofScientific _ _ _ 3 (by norm_num) (by norm_num)
      (by rw [abs_le]; constructor <;> norm_num)
  · refine ⟨3.0, by norm_num, ?_⟩
    exact finiteBelow_ofScientific _ _ _ 3 (by norm_num) (by norm_num)
      (by rw [abs_le]; constructor <;> norm_num)
  · refine ⟨5.0, by norm_num, ?_⟩
    exact finiteBelow_ofScientific _ _ _ 3 (by norm_num) (by norm_num)
      (by rw [abs_le]; constructor <;> norm_num)

/-- The early-adoption multiplier is one of five literals, whatever its argument. -/
theorem earlyBonusOf_finite (d : F64) : FiniteBelow 2 (earlyBonusOf d) := by
  unfold earlyBonusOf
  split_ifs <;>
    exact finiteBelow_ofScientific _ _ _ 2 (by norm_num) (by norm_num)
      (by rw [abs_le]; constructor <;> norm_num)

/-- The uptime multiplier is one of four literals, whatever its argument. -/
theorem uptimeMultiplierOf_finite (u : F64) : FiniteBelow 1 (uptimeMultiplierOf u) := by
  unfold uptimeMultiplierOf
  split_ifs <;>
    exact finiteBelow_ofScientific _ _ _ 1 (by norm_num) (by norm_num)
      (by rw [abs_le]; constructor <;> norm_num)

theorem weightedScoreOf_finite (data : TelemetrySample) (t : ℤ) (s : ℚ)
    (ht : data.hardwareTier = .fin t) (h1 : 1 ≤ t) (h5 : t ≤ 5)
    (hs : data.testnetScore = .fin s) (hsb : |s| ≤ 10 ^ 300) :
    FiniteBelow 1003 (weightedScoreOf data) := by
  obtain ⟨m, hm, fm⟩ := hardwareMultipliers_fin t h1 h5
  have fs : FiniteBelow 997 (F64.fin s) :=
    ⟨s, rfl, le_trans hsb (by norm_num)⟩
  have f04 : FiniteBelow (-1) (0.4 : F64) :=
    finiteBelow_ofScientific _ _ _ (-1) (by norm_num) (by norm_num)
      (by rw [abs_le]; constructor <;> norm_num)
  have f0 : FiniteBelow 0 (0 : F64) :=
    finiteBelow_ofNat 0 0 (by norm_num) (by norm_num) (by norm_num)
  have a1 := FiniteBelow.mul fs f04 996 (by norm_num) (by norm_num) (by norm_num)
  have a2 := FiniteBelow.add f0 a1 997 (by norm_num) (by norm_num) (by norm_num) (by norm_num)
  have a3 := FiniteBelow.mul a2 fm 1000 (by norm_num) (by norm_num) (by norm_num)
  have a4 := FiniteBelow.mul a3 (earlyBonusOf_finite data.firstTxDaysAgo) 1002 (by norm_num)
    (by norm_num) (by norm_num)
  have a5 := FiniteBelow.mul a4 (uptimeMultiplierOf_finite data.uptime) 1003 (by norm_num)
    (by norm_num) (by norm_num)
  simp only [weightedScoreOf, ht, hs, hm, toNumber]
  exact a5

theorem allocationOf_finite (w : F64) (hw : FiniteBelow 1003 w) :
    FiniteBelow 1004 (allocationOf w) := by
  have l1 : (5000 : F64) = .fin 5000 := by simpa using F64.ofNat_eq_fin 5000 (by norm_num)
  have l2 : (30000 : F64) = .fin 30000 := by simpa using F64.ofNat_eq_fin 30000 (by norm_num)
  have l3 : round64 (5000 * 30000) = .fin 150000000 := by
    have := round64_intCast 150000000 (by norm_num)
    norm_num at this ⊢
    exact this
  have ft : FiniteBelow 28 (160000000 : F64) :=
    finiteBelow_ofNat _ 28 (by norm_num) (by norm_num) (by norm_num)
  have a1 := FiniteBelow.div_fin hw 150000000 27 (by norm_num) 976 (by norm_num) (by norm_num)
    (by norm_num)
  have a2 := FiniteBelow.mul a1 ft 1004 (by norm_num) (by norm_num) (by norm_num)
  have a3 := FiniteBelow.floor a2 (by norm_num)
  simp only [allocationOf, l1, l2, F64.fin_mul_fin, l3]
  exact a3

theorem finalAllocationOf_finite (a : F64) (rnd : ℚ) (ha : FiniteBelow 1004 a)
    (hr0 : 0 ≤ rnd) (hr1 : rnd < 1) :
    FiniteBelow 1005 (finalAllocationOf a rnd) := by
  have f01 : FiniteBelow (-3) (0.1 : F64) :=
    finiteBelow_ofScientific _ _ _ (-3) (by norm_num) (by norm_num)
      (by rw [abs_le]; constructor <;> norm_num)
  have f2 : FiniteBelow 1 (2 : F64) :=
    finiteBelow_ofNat 2 1 (by norm_num) (by norm_num) (by norm_num)
  have fr : FiniteBelow 0 (F64.fin rnd) :=
    ⟨rnd, rfl, by rw [abs_of_nonneg hr0, zpow_zero]; exact le_of_lt hr1⟩
  have v := FiniteBelow.mul ha f01 1001 (by norm_num) (by norm_num) (by norm_num)
  have a1 := FiniteBelow.mul fr v 1001 (by norm_num) (by norm_num) (by norm_num)
  have a2 := FiniteBelow.mul a1 f2 1002 (by norm_num) (by norm_num) (by norm_num)
  have a3 := FiniteBelow.sub a2 v 1003 (by norm_num) (by norm_num) (by norm_num) (by norm_num)
  have a4 := FiniteBelow.add ha a3 1005 (by norm_num) (by norm_num) (by norm_num) (by norm_num)
  exact FiniteBelow.floor a4 (by norm_num)

/-- With a hardware tier in `1..5` and a task score of magnitude at most
`10 ^ 300`, `finalAllocation` is a finite number. -/
theorem finalAllocation_finite (data : TelemetrySample) (rnd : ℚ) (t : ℤ) (s : ℚ)
    (ht : data.hardwareTier = .fin t) (h1 : 1 ≤ t) (h5 : t ≤ 5)
    (hs : data.testnetScore = .fin s) (hsb : |s| ≤ 10 ^ 300)
    (hr0 : 0 ≤ rnd) (hr1 : rnd < 1) :
    ∃ f : ℚ, finalAllocationOf (allocationOf (weightedScoreOf data)) rnd = .fin f := by
  obtain ⟨f, hf, -⟩ := finalAllocationOf_finite _ rnd
    (allocationOf_finite _ (weightedScoreOf_finite data t s ht h1 h5 hs hsb)) hr0 hr1
  exact ⟨f, hf⟩

/-! ## Binary64: the estimate and the tier -/

theorem lit_1000 : (1000 : F64) = .fin 1000 := by
  simpa using F64.ofNat_eq_fin 1000 (by norm_num)

/-- The tier read off a finite `finalAllocation` is the tier the same thresholds
give to the clamped value `max 1000 finalAllocation`. -/
theorem tierOf_clamp_f64 (f : ℚ) :
    ((tierOf (.fin f)).1 = 1 ↔ 70000 < max 1000 f) ∧
    ((tierOf (.fin f)).1 = 2 ↔ 40000 < max 1000 f ∧ max 1000 f ≤ 70000) ∧
    ((tierOf (.fin f)).1 = 3 ↔ 15000 < max 1000 f ∧ max 1000 f ≤ 40000) ∧
    ((tierOf (.fin f)).1 = 4 ↔ 5000 < max 1000 f ∧ max 1000 f ≤ 15000) ∧
    ((tierOf (.fin f)).1 = 5 ↔ max 1000 f ≤ 5000) := by
  have l1 : (1 : F64) = .fin 1 := by simpa using F64.ofNat_eq_fin 1 (by norm_num)
  have l2 : (2 : F64) = .fin 2 := by simpa using F64.ofNat_eq_fin 2 (by norm_num)
  have l3 : (3 : F64) = .fin 3 := by simpa using F64.ofNat_eq_fin 3 (by norm_num)
  have l4 : (4 : F64) = .fin 4 := by simpa using F64.ofNat_eq_fin 4 (by norm_num)
  have l5 : (5 : F64) = .fin 5 := by simpa using F64.ofNat_eq_fin 5 (by norm_num)
  have t1 : (70000 : F64) = .fin 70000 := by simpa using F64.ofNat_eq_fin 70000 (by norm_num)
  have t2 : (40000 : F64) = .fin 40000 := by simpa using F64.ofNat_eq_fin 40000 (by norm_num)
  have t3 : (15000 : F64) = .fin 15000 := by simpa using F64.ofNat_eq_fin 15000 (by norm_num)
  have t4 : (5000 : F64) = .fin 5000 := by simpa using F64.ofNat_eq_fin 5000 (by norm_num)
  have hmax : ∀ c : ℚ, 1000 < c → (c < max 1000 f ↔ c < f) := by
    intro c hc
    rw [lt_max_iff]
    constructor
    · rintro (h | h)
      · linarith
      · exact h
    · exact fun h => Or.inr h
  have hmax2 : ∀ c : ℚ, 1000 < c → (max 1000 f ≤ c ↔ f ≤ c) := by
    intro c hc
    rw [max_le_iff]
    constructor
    · exact fun h => h.2
    · exact fun h => ⟨le_of_lt hc, h⟩
  rw [hmax 70000 (by norm_num), hmax 40000 (by norm_num), hmax 15000 (by norm_num),
    hmax 5000 (by norm_num), hmax2 70000 (by norm_num), hmax2 40000 (by norm_num),
    hmax2 15000 (by norm_num), hmax2 5000 (by norm_num)]
  unfold tierOf
  rw [l1, l2, l3, l4, l5, t1, t2, t3, t4]
  simp only [gt_iff_lt, F64.fin_lt_fin]
  split_ifs with h1 h2 h3 h4 <;> simp only [F64.fin_inj_iff] <;> norm_num <;>
    simp only [not_lt] at * <;> refine ⟨?_, ?_, ?_, ?_, ?_⟩ <;> (try intro _) <;>
    first | linarith | exact ⟨by linarith, by linarith⟩

theorem calculateAllocation_tier (rnd : ℚ) (data : TelemetrySample) :
    (calculateAllocation rnd data).tier
      = (tierOf (finalAllocationOf (allocationOf (weightedScoreOf data)) rnd)).1 := rfl

theorem calculateAllocation_estimated (rnd : ℚ) (data : TelemetrySample) :
    (calculateAllocation rnd data).estimated
      = Math.max 1000 (finalAllocationOf (allocationOf (weightedScoreOf data)) rnd) := rfl

/-- C3, amended: for a sample whose hardware tier is an integer in `1..5`, whose
other numeric fields are integers and whose task score has magnitude at most
`10 ^ 300`, and for a draw `0 ≤ rnd < 1`, the field `estimated` of the result of
`calculateAllocation`, computed in binary64, is a finite number at least 1000. -/
theorem estimated_ge_1000_of_bounded_score (data : TelemetrySample) (rnd : ℚ)
    (t x d u s : ℤ) (ht : data.hardwareTier = .fin t) (h1 : 1 ≤ t) (h5 : t ≤ 5)
    (_hx : data.transactions = .fin x) (_hd : data.firstTxDaysAgo = .fin d)
    (_hu : data.uptime = .fin u) (hs : data.testnetScore = .fin s)
    (hsb : |(s : ℚ)| ≤ 10 ^ 300) (hr0 : 0 ≤ rnd) (hr1 : rnd < 1) :
    ∃ e : ℚ, (calculateAllocation rnd data).estimated = .fin e ∧ 1000 ≤ e := by
  obtain ⟨f, hf⟩ := finalAllocation_finite data rnd t s ht h1 h5 hs hsb hr0 hr1
  refine ⟨max 1000 f, ?_, le_max_left _ _⟩
  rw [calculateAllocation_estimated, hf, lit_1000, Math.max_fin]

/-- C4, amended: for a sample with hardware tier in `1..5` and a task score of
magnitude at most `10 ^ 300`, and for a draw `0 ≤ rnd < 1`, the result computed
in binary64 has a finite estimate, its tier is the one the thresholds 70000,
40000, 15000 and 5000 assign to that estimate, and the tier is one of `1..5`. -/
theorem tier_matches_estimated_of_bounded_score (data : TelemetrySample) (rnd : ℚ)
    (t : ℤ) (s : ℚ) (ht : data.hardwareTier = .fin t) (h1 : 1 ≤ t) (h5 : t ≤ 5)
    (hs : data.testnetScore = .fin s) (hsb : |s| ≤ 10 ^ 300)
    (hr0 : 0 ≤ rnd) (hr1 : rnd < 1) :
    ∃ e : ℚ, (calculateAllocation rnd data).estimated = .fin e ∧
      ((calculateAllocation rnd data).tier = 1 ↔ 70000 < e) ∧
      ((calculateAllocation rnd data).tier = 2 ↔ 40000 < e ∧ e ≤ 70000) ∧
      ((calculateAllocation rnd data).tier = 3 ↔ 15000 < e ∧ e ≤ 40000) ∧
      ((calculateAllocation rnd data).tier = 4 ↔ 5000 < e ∧ e ≤ 15000) ∧
      ((calculateAllocation rnd data).tier = 5 ↔ e ≤ 5000) ∧
      ((calculateAllocation rnd data).tier = 1 ∨ (calculateAllocation rnd data).tier = 2 ∨
        (calculateAllocation rnd data).tier = 3 ∨ (calculateAllocation rnd data).tier = 4 ∨
        (calculateAllocation rnd data).tier = 5) := by
  obtain ⟨f, hf⟩ := finalAllocation_finite data rnd t s ht h1 h5 hs hsb hr0 hr1
  obtain ⟨c1, c2, c3, c4, c5⟩ := tierOf_clamp_f64 f
  refine ⟨max 1000 f, ?_, ?_, ?_, ?_, ?_, ?_, ?_⟩
  · rw [calculateAllocation_estimated, hf, lit_1000, Math.max_fin]
  · rw [calculateAllocation_tier, hf]
    exact c1
  · rw [calculateAllocation_tier, hf]
    exact c2
  · rw [calculateAllocation_tier, hf]
    exact c3
  · rw [calculateAllocation_tier, hf]
    exact c4
  · rw [calculateAllocation_tier, hf]
    exact c5
  · rw [calculateAllocation_tier, hf]
    unfold tierOf
    split_ifs
    · exact Or.inl rfl
    · exact Or.inr (Or.inl rfl)
    · exact Or.inr (Or.inr (Or.inl rfl))
    · exact Or.inr (Or.inr (Or.inr (Or.inl rfl)))
    · exact Or.inr (Or.inr (Or.inr (Or.inr rfl)))

/-! ## Binary64: overflow at a task score of `2 ^ 1023` -/

theorem round64_between (q : ℚ) (k1 k2 : ℤ) (hk1 : -1022 ≤ k1) (hk2 : k2 ≤ 1023)
    (hk : k1 ≤ k2) (h1 : 2 ^ k1 ≤ q) (h2 : q ≤ 2 ^ k2) :
    ∃ r : ℚ, round64 q = .fin r ∧ 2 ^ k1 ≤ r ∧ r ≤ 2 ^ k2 := by
  have hq0 : 0 ≤ q := le_trans (le_of_lt (two_zpow_pos k1)) h1
  have hthr : q < 2 ^ 1024 - 2 ^ 970 := by
    have a1 : (2 : ℚ) ^ k2 ≤ 2 ^ (1023 : ℤ) := zpow_le_zpow_right₀ (by norm_num) hk2
    have a2 : (2 : ℚ) ^ (1023 : ℤ) < 2 ^ 1024 - 2 ^ 970 := by norm_num
    linarith
  obtain ⟨r, hr, hb, -, -⟩ := round64_abs_le q k2 (by omega) hk2
    (by rw [abs_of_nonneg hq0]; exact h2)
  obtain ⟨r2, hr2, hb2⟩ := round64_ge_zpow q k1 hk1 h1 hthr
  rw [hr] at hr2
  injection hr2 with hr2
  subst hr2
  exact ⟨r, hr, hb2, (abs_le.mp hb).2⟩

theorem inf_mul_fin (b : Bool) (c : ℚ) (hc : 0 < c) : F64.inf b * F64.fin c = F64.inf b := by
  show F64.mul (F64.inf b) (F64.fin c) = _
  simp [F64.mul, ne_of_gt hc, not_lt.mpr (le_of_lt hc)]

theorem fin_mul_inf (b : Bool) (c : ℚ) (hc : 0 < c) : F64.fin c * F64.inf b = F64.inf b := by
  show F64.mul (F64.fin c) (F64.inf b) = _
  simp [F64.mul, ne_of_gt hc, not_lt.mpr (le_of_lt hc)]

theorem inf_div_fin (b : Bool) (c : ℚ) (hc : 0 < c) : F64.inf b / F64.fin c = F64.inf b := by
  show F64.div (F64.inf b) (F64.fin c) = _
  simp [F64.div, not_lt.mpr (le_of_lt hc)]

/-- A positive literal in scientific notation denotes a positive finite value. -/
theorem ofScientific_pos (m : ℕ) (s : Bool) (e : ℕ) (k1 k2 : ℤ) (hk1 : -1022 ≤ k1)
    (hk2 : k2 ≤ 1023) (hk : k1 ≤ k2) (h1 : 2 ^ k1 ≤ (OfScientific.ofScientific m s e : ℚ))
    (h2 : (OfScientific.ofScientific m s e : ℚ) ≤ 2 ^ k2) :
    ∃ c : ℚ, (OfScientific.ofScientific m s e : F64) = .fin c ∧ 2 ^ k1 ≤ c ∧ c ≤ 2 ^ k2 := by
  rw [F64.ofScientific_eq_f64]
  exact round64_between _ k1 k2 hk1 hk2 hk h1 h2

theorem weightedScoreOf_hugeSample : weightedScoreOf hugeSample = .inf false := by
  have l0 : (0 : F64) = .fin 0 := by simpa using F64.ofNat_eq_fin 0 (by norm_num)
  have l5 : (5 : F64) = .fin 5 := by simpa using F64.ofNat_eq_fin 5 (by norm_num)
  have l90 : (90 : F64) = .fin 90 := by simpa using F64.ofNat_eq_fin 90 (by norm_num)
  have l95 : (95 : F64) = .fin 95 := by simpa using F64.ofNat_eq_fin 95 (by norm_num)
  have l240 : (240 : F64) = .fin 240 := by simpa using F64.ofNat_eq_fin 240 (by norm_num)
  have l250 : (250 : F64) = .fin 250 := by simpa using F64.ofNat_eq_fin 250 (by norm_num)
  obtain ⟨c04, h04, a04, b04⟩ := ofScientific_pos 4 true 1 (-2) (-1) (by norm_num) (by norm_num)
    (by norm_num) (by norm_num) (by norm_num)
  obtain ⟨c5, h5, a5, -⟩ := ofScientific_pos 50 true 1 2 3 (by norm_num) (by norm_num)
    (by norm_num) (by norm_num) (by norm_num)
  obtain ⟨c3, h3, a3, -⟩ := ofScientific_pos 30 true 1 1 2 (by norm_num) (by norm_num)
    (by norm_num) (by norm_num) (by norm_num)
  obtain ⟨c15, h15, a15, -⟩ := ofScientific_pos 15 true 1 0 1 (by norm_num) (by norm_num)
    (by norm_num) (by norm_num) (by norm_num)
  -- the score weight and the first sum
  obtain ⟨sw, hsw, asw, bsw⟩ := round64_between ((2 : ℚ) ^ 1023 * c04) 1021 1022 (by norm_num)
    (by norm_num) (by norm_num)
    (by
      have e : (2 : ℚ) ^ (1021 : ℤ) = 2 ^ 1023 * 2 ^ (-2 : ℤ) := by norm_num
      rw [e]
      exact mul_le_mul_of_nonneg_left a04 (by positivity))
    (by
      have e : (2 : ℚ) ^ (1022 : ℤ) = 2 ^ 1023 * 2 ^ (-1 : ℤ) := by norm_num
      rw [e]
      exact mul_le_mul_of_nonneg_left b04 (by positivity))
  obtain ⟨w1, hw1, aw1, bw1⟩ := round64_between (0 + sw) 1021 1022 (by norm_num)
    (by norm_num) (by norm_num) (by rw [zero_add]; exact asw) (by rw [zero_add]; exact bsw)
  -- the hardware multiplier is 5.0, the early-adoption multiplier 3.0, the uptime one 1.5
  have hhw : hardwareMultipliers hugeSample.hardwareTier = some 5.0 := by
    show hardwareMultipliers 5 = some 5.0
    unfold hardwareMultipliers
    rw [if_pos rfl]
  have hearly : earlyBonusOf hugeSample.firstTxDaysAgo = 3.0 := by
    show earlyBonusOf 250 = 3.0
    unfold earlyBonusOf
    rw [l250, l240, if_pos ((F64.fin_lt_fin 240 250).mpr (by norm_num))]
  have hup : uptimeMultiplierOf hugeSample.uptime = 1.5 := by
    show uptimeMultiplierOf 95 = 1.5
    unfold uptimeMultiplierOf
    rw [l95, l90, if_pos ((F64.fin_lt_fin 90 95).mpr (by norm_num))]
  have hscore : hugeSample.testnetScore = .fin (2 ^ 1023) := rfl
  unfold weightedScoreOf
  simp only [hhw, hearly, hup, hscore, toNumber]
  rw [l0, h04, h5, h3, h15, F64.fin_mul_fin, hsw, F64.fin_add_fin, hw1, F64.fin_mul_fin]
  have c5pos : (0 : ℚ) < c5 := lt_of_lt_of_le (two_zpow_pos 2) a5
  have c3pos : (0 : ℚ) < c3 := lt_of_lt_of_le (two_zpow_pos 1) a3
  have c15pos : (0 : ℚ) < c15 := lt_of_lt_of_le (two_zpow_pos 0) a15
  have w1pos : (0 : ℚ) < w1 := lt_of_lt_of_le (two_zpow_pos 1021) aw1
  have big : (2 : ℚ) ^ (1023 : ℤ) ≤ w1 * c5 := by
    have e : (2 : ℚ) ^ (1023 : ℤ) = 2 ^ (1021 : ℤ) * 2 ^ (2 : ℤ) := by norm_num
    rw [e]
    exact mul_le_mul aw1 a5 (le_of_lt (two_zpow_pos 2)) (le_of_lt w1pos)
  have step : round64 (w1 * c5) * F64.fin c3 = .inf false := by
    rcases lt_or_le (w1 * c5) (2 ^ 1024 - 2 ^ 970) with hlt | hge
    · obtain ⟨w2, hw2, aw2⟩ := round64_ge_zpow (w1 * c5) 1023 (by norm_num) big hlt
      have w2pos : (0 : ℚ) < w2 := lt_of_lt_of_le (two_zpow_pos 1023) aw2
      rw [hw2, F64.fin_mul_fin]
      have hbig : (2 : ℚ) ^ 1024 - 2 ^ 970 ≤ |w2 * c3| := by
        rw [abs_of_pos (mul_pos w2pos c3pos)]
        have e1 : (2 : ℚ) ^ (1023 : ℤ) * 2 ^ (1 : ℤ) ≤ w2 * c3 :=
          mul_le_mul aw2 a3 (le_of_lt (two_zpow_pos 1)) (le_of_lt w2pos)
        have e2 : (2 : ℚ) ^ 1024 - 2 ^ 970 ≤ 2 ^ (1023 : ℤ) * 2 ^ (1 : ℤ) := by norm_num
        exact le_trans e2 e1
      rw [round64_of_ge _ hbig]
      simp [not_lt.mpr (le_of_lt (mul_pos w2pos c3pos))]
    · have hbig : (2 : ℚ) ^ 1024 - 2 ^ 970 ≤ |w1 * c5| := by
        rw [abs_of_pos (mul_pos w1pos c5pos)]
        exact hge
      rw [round64_of_ge _ hbig]
      simp only [not_lt.mpr (le_of_lt (mul_pos w1pos c5pos)), decide_False]
      exact inf_mul_fin false c3 c3pos
  rw [step]
  exact inf_mul_fin false c15 c15pos

theorem allocationOf_inf : allocationOf (.inf false) = .inf false := by
  have l1 : (5000 : F64) = .fin 5000 := by simpa using F64.ofNat_eq_fin 5000 (by norm_num)
  have l2 : (30000 : F64) = .fin 30000 := by simpa using F64.ofNat_eq_fin 30000 (by norm_num)
  have l3 : round64 (5000 * 30000) = .fin 150000000 := by
    have := round64_intCast 150000000 (by norm_num)
    norm_num at this ⊢
    exact this
  have l4 : (160000000 : F64) = .fin 160000000 := by
    simpa using F64.ofNat_eq_fin 160000000 (by norm_num)
  unfold allocationOf
  simp only [l1, l2, F64.fin_mul_fin, l3, l4]
  rw [inf_div_fin false _ (by norm_num), inf_mul_fin false _ (by norm_num), Math.floor_inf]

theorem finalAllocationOf_inf (rnd : ℚ) (hr : 0 ≤ rnd) :
    finalAllocationOf (.inf false) rnd = .nan := by
  have l2 : (2 : F64) = .fin 2 := by simpa using F64.ofNat_eq_fin 2 (by norm_num)
  obtain ⟨c01, h01, a01, -⟩ := ofScientific_pos 1 true 1 (-4) (-3) (by norm_num) (by norm_num)
    (by norm_num) (by norm_num) (by norm_num)
  have c01pos : (0 : ℚ) < c01 := lt_of_lt_of_le (two_zpow_pos (-4)) a01
  unfold finalAllocationOf
  simp only [h01, l2]
  rw [inf_mul_fin false c01 c01pos]
  rcases eq_or_lt_of_le hr with h0 | hpos
  · have e : F64.fin rnd * F64.inf false = .nan := by
      show F64.mul (F64.fin rnd) (F64.inf false) = _
      simp [F64.mul, ← h0]
    rw [e]
    rfl
  · rw [fin_mul_inf false rnd hpos, inf_mul_fin false 2 (by norm_num)]
    rfl

/-- At a task score of `2 ^ 1023` the weighted score overflows: whatever the draw
`rnd ≥ 0`, the estimate is `NaN` and the tier is 5. -/
theorem calculateAllocation_hugeSample (rnd : ℚ) (hr : 0 ≤ rnd) :
    (calculateAllocation rnd hugeSample).estimated = .nan ∧
      (calculateAllocation rnd hugeSample).tier = 5 := by
  rw [calculateAllocation_estimated, calculateAllocation_tier, weightedScoreOf_hugeSample,
    allocationOf_inf, finalAllocationOf_inf rnd hr]
  refine ⟨Math.max_nan_f64 _, ?_⟩
  unfold tierOf
  simp only [gt_iff_lt, F64.not_lt_nan_f64, if_false]

/-- C3 as stated fails in binary64: the sample `hugeSample` has hardware tier 5 and
integer fields, the draw is `1 / 2`, and the estimate is `NaN`, which is not a
number at least 1000. -/
theorem estimated_nan_at_hugeSample :
    hugeSample.hardwareTier = 5 ∧ hugeSample.testnetScore = .fin (2 ^ 1023) ∧
    (calculateAllocation (1 / 2) hugeSample).estimated = .nan ∧
    ¬ ∃ e : ℚ, (calculateAllocation (1 / 2) hugeSample).estimated = .fin e ∧ 1000 ≤ e := by
  have h := (calculateAllocation_hugeSample (1 / 2) (by norm_num)).1
  refine ⟨rfl, rfl, h, ?_⟩
  · rintro ⟨e, he, -⟩
    rw [h] at he
    exact F64.noConfusion he

/-- C4 as stated fails in binary64: on the sample `hugeSample` with the draw `0`
the tier is 5 although the estimate is `NaN`, which is not a number at most
5000. -/
theorem tier_mismatch_at_hugeSample :
    (calculateAllocation 0 hugeSample).tier = 5 ∧
    (calculateAllocation 0 hugeSample).estimated = .nan ∧
    ¬ ∃ e : ℚ, (calculateAllocation 0 hugeSample).estimated = .fin e ∧ e ≤ 5000 := by
  obtain ⟨h1, h2⟩ := calculateAllocation_hugeSample 0 (le_refl 0)
  refine ⟨h2, h1, ?_⟩
  rintro ⟨e, he, -⟩
  rw [h1] at he
  exact F64.noConfusion he

theorem sampleData_fields :
    sampleData.hardwareTier = .fin ((5 : ℤ) : ℚ) ∧
    sampleData.transactions = .fin ((10 : ℤ) : ℚ) ∧
    sampleData.firstTxDaysAgo = .fin ((250 : ℤ) : ℚ) ∧
    sampleData.uptime = .fin ((95 : ℤ) : ℚ) ∧
    sampleData.testnetScore = .fin ((3501 : ℤ) : ℚ) := by
  refine ⟨?_, ?_, ?_, ?_, ?_⟩
  · simpa using F64.ofNat_eq_fin 5 (by norm_num)
  · simpa using F64.ofNat_eq_fin 10 (by norm_num)
  · simpa using F64.ofNat_eq_fin 250 (by norm_num)
  · simpa using F64.ofNat_eq_fin 95 (by norm_num)
  · simpa using F64.ofNat_eq_fin 3501 (by norm_num)

/-- Instance of the amended C3 on `sampleData` with the draw 0. -/
theorem estimated_ge_1000_of_bounded_score_witness :
    ∃ e : ℚ, (calculateAllocation 0 sampleData).estimated = .fin e ∧ 1000 ≤ e :=
  estimated_ge_1000_of_bounded_score sampleData 0 5 10 250 95 3501
    sampleData_fields.1 (by decide) (by decide) sampleData_fields.2.1
    sampleData_fields.2.2.1 sampleData_fields.2.2.2.1 sampleData_fields.2.2.2.2
    (by norm_num) (le_refl 0) (by norm_num)

/-- Instance of the amended C4 on `sampleData` with the draw 0: the estimate is a
number `e`, and the tier is 3 exactly when `15000 < e ≤ 40000`. -/
theorem tier_matches_estimated_of_bounded_score_witness :
    ∃ e : ℚ, (calculateAllocation 0 sampleData).estimated = .fin e ∧
      ((calculateAllocation 0 sampleData).tier = 3 ↔ 15000 < e ∧ e ≤ 40000) :=
  (tier_matches_estimated_of_bounded_score sampleData 0 5 3501
    sampleData_fields.1 (by decide) (by decide)
    (by simpa using sampleData_fields.2.2.2.2)
    (by norm_num) (le_refl 0) (by norm_num)).imp (fun _ h => ⟨h.1, h.2.2.2.1⟩)

/-! ## Binary64: the fractional part taken by `random` -/

theorem isRegular_fin (r : ℚ) (h : isRegular (.fin r) = true) :
    0 ≤ r ∨ r < -(2 : ℚ) ^ (-54 : ℤ) := by
  simp only [isRegular, Bool.not_eq_true', Bool.and_eq_false_iff, decide_eq_false_iff_not,
    not_le, not_lt] at h
  rcases h with h | h
  · exact Or.inr h
  · exact Or.inl h

/-- The difference `x - Math.floor(x)` of a binary64 value `x` outside the
interval from `-2 ^ -54` to `0` is a binary64 value in `[0, 1 - 2 ^ -53]`. -/
theorem fraction_le (q r : ℚ) (h : round64 q = .fin r) (hreg : isRegular (.fin r) = true) :
    ∃ d : ℚ, F64.fin r - Math.floor (.fin r) = .fin d ∧ 0 ≤ d ∧ d ≤ 1 - 2 ^ (-53 : ℤ) := by
  obtain ⟨m, j, hr, hm, hj⟩ := round64_shape q r h
  have hD0 : 0 ≤ r - ⌊r⌋ := sub_nonneg.mpr (Int.floor_le r)
  have hD1 : r - ⌊r⌋ < 1 := by
    have := Int.lt_floor_add_one r
    linarith
  have e0 : F64.fin r - Math.floor (.fin r) = round64 (r - ⌊r⌋) := by
    rw [Math.floor_fin, F64.fin_sub_fin, sub_eq_add_neg]
  rw [e0]
  have hu : (0 : ℚ) < 2 ^ (-53 : ℤ) := two_zpow_pos _
  have hu1 : (2 : ℚ) ^ (-53 : ℤ) ≤ 1 / 2 := by norm_num
  rcases le_or_lt 0 j with hj0 | hj0
  · -- `r` is an integer
    obtain ⟨t, ht⟩ : ∃ t : ℕ, (t : ℤ) = j := ⟨j.toNat, Int.toNat_of_nonneg hj0⟩
    have hri : r = ((m * 2 ^ t : ℤ) : ℚ) := by
      rw [hr, ← ht, zpow_natCast]
      push_cast
      rfl
    have : r - ⌊r⌋ = 0 := by
      rw [hri, Int.floor_intCast]
      ring
    rw [this]
    exact ⟨0, round64_zero, le_refl 0, by norm_num⟩
  rcases le_or_lt (-53) j with hj53 | hj53
  · -- the difference is a multiple of `2 ^ j` below 1
    obtain ⟨t, ht⟩ : ∃ t : ℕ, (t : ℤ) = -j := ⟨(-j).toNat, Int.toNat_of_nonneg (by omega)⟩
    have ht53 : t ≤ 53 := by omega
    have hpow : (2 : ℚ) ^ j * 2 ^ t = 1 := by
      rw [← zpow_natCast, ht, ← zpow_add₀ (by norm_num)]
      simp
    have hD : r - ⌊r⌋ = ((m - ⌊r⌋ * 2 ^ t : ℤ) : ℚ) * 2 ^ j := by
      rw [hr]
      push_cast
      have : ((⌊(m : ℚ) * 2 ^ j⌋ : ℤ) : ℚ) * 2 ^ t * 2 ^ j = ((⌊(m : ℚ) * 2 ^ j⌋ : ℤ) : ℚ) := by
        rw [mul_assoc, mul_comm ((2 : ℚ) ^ t), hpow, mul_one]
      rw [sub_mul, this]
    have hjpos := two_zpow_pos j
    have hi0 : 0 ≤ m - ⌊r⌋ * 2 ^ t := by
      by_contra hc
      push_neg at hc
      have : ((m - ⌊r⌋ * 2 ^ t : ℤ) : ℚ) < 0 := by exact_mod_cast hc
      have := mul_neg_of_neg_of_pos this hjpos
      rw [← hD] at this
      linarith
    have hi1 : m - ⌊r⌋ * 2 ^ t < 2 ^ t := by
      by_contra hc
      push_neg at hc
      have h1 : ((2 ^ t : ℤ) : ℚ) ≤ ((m - ⌊r⌋ * 2 ^ t : ℤ) : ℚ) := by exact_mod_cast hc
      have h2 := mul_le_mul_of_nonneg_right h1 (le_of_lt hjpos)
      rw [← hD] at h2
      push_cast at h2
      rw [mul_comm, hpow] at h2
      linarith
    have hpow53 : (2 : ℤ) ^ t ≤ 2 ^ 53 := pow_le_pow_right₀ (by norm_num) ht53
    have habs : |m - ⌊r⌋ * 2 ^ t| < 2 ^ 53 := by
      rw [abs_of_nonneg hi0]
      omega
    have hrep := round64_of_representable_lt (m - ⌊r⌋ * 2 ^ t) j habs hj (by
      rw [← hD, abs_of_nonneg hD0]
      have : (1 : ℚ) < 2 ^ 1024 - 2 ^ 970 := by norm_num
      linarith)
    rw [← hD] at hrep
    refine ⟨_, hrep, hD0, ?_⟩
    have hi2 : ((m - ⌊r⌋ * 2 ^ t : ℤ) : ℚ) ≤ ((2 ^ t - 1 : ℤ) : ℚ) := by
      have : m - ⌊r⌋ * 2 ^ t ≤ 2 ^ t - 1 := by omega
      exact_mod_cast this
    have h3 := mul_le_mul_of_nonneg_right hi2 (le_of_lt hjpos)
    rw [← hD] at h3
    push_cast at h3
    rw [sub_mul, mul_comm ((2 : ℚ) ^ t), hpow, one_mul] at h3
    have hj2 : (2 : ℚ) ^ (-53 : ℤ) ≤ 2 ^ j := zpow_le_zpow_right₀ (by norm_num) hj53
    linarith
  · -- `|r| ≤ 1 / 2`
    have hrabs : |r| ≤ 1 / 2 := by
      rw [hr, abs_mul, abs_of_pos (two_zpow_pos j)]
      have h1 : |(m : ℚ)| ≤ 2 ^ (53 : ℤ) := by
        have : ((|m| : ℤ) : ℚ) ≤ ((2 ^ 53 : ℤ) : ℚ) := by exact_mod_cast hm
        push_cast at this
        norm_num
        exact this
      calc |(m : ℚ)| * 2 ^ j ≤ 2 ^ (53 : ℤ) * 2 ^ j :=
            mul_le_mul_of_nonneg_right h1 (le_of_lt (two_zpow_pos j))
        _ = 2 ^ (53 + j) := (zpow_add₀ (by norm_num) _ _).symm
        _ ≤ 2 ^ (-1 : ℤ) := zpow_le_zpow_right₀ (by norm_num) (by omega)
        _ = 1 / 2 := by norm_num
    rw [abs_le] at hrabs
    rcases isRegular_fin r hreg with hpos | hneg
    · have hfl : ⌊r⌋ = 0 := by
        rw [Int.floor_eq_iff]
        constructor
        · simpa using hpos
        · push_cast
          linarith [hrabs.2]
      have : r - ⌊r⌋ = r := by
        rw [hfl]
        simp
      rw [this]
      have hc : (1 : ℚ) / 2 ≤ 1 - 2 ^ (-53 : ℤ) := by norm_num
      exact ⟨r, round64_idem q r h, hpos, le_trans hrabs.2 hc⟩
    · have hu54 : (0 : ℚ) < 2 ^ (-54 : ℤ) := two_zpow_pos _
      have hfl : ⌊r⌋ = -1 := by
        rw [Int.floor_eq_iff]
        constructor
        · push_cast
          linarith [hrabs.1]
        · push_cast
          linarith
      have hDv : r - ⌊r⌋ = r + 1 := by
        rw [hfl]
        push_cast
        ring
      rw [hDv] at hD0 hD1 ⊢
      have hhalf : (1 : ℚ) / 2 ≤ r + 1 := by linarith [hrabs.1]
      have hne : r + 1 ≠ 0 := by linarith
      have hE : binadeExp (r + 1) = -1 := by
        have a1 := binadeExp_le (r + 1) (-1) (by norm_num) hne (by
          rw [abs_of_nonneg hD0]
          have : (2 : ℚ) ^ ((-1 : ℤ) + 1) = 1 := by norm_num
          rw [this]
          exact hD1)
        have a2 := le_binadeExp (r + 1) (-1) (by
          rw [abs_of_nonneg hD0]
          have : (2 : ℚ) ^ (-1 : ℤ) = 1 / 2 := by norm_num
          rw [this]
          exact hhalf)
        omega
      have hfin := round64_of_lt (r + 1) (by
        rw [abs_of_nonneg hD0]
        have : (1 : ℚ) < 2 ^ 1024 - 2 ^ 970 := by norm_num
        linarith)
      rw [hE, show ((-1 : ℤ) - 52) = -53 by norm_num] at hfin
      have hn1 : roundNearestEven ((r + 1) / 2 ^ (-53 : ℤ)) ≤ 2 ^ 53 - 1 := by
        apply roundNearestEven_le_of_lt_half
        rw [div_lt_iff₀ hu]
        have e1 : (((2 ^ 53 - 1 : ℤ) : ℚ) + 1 / 2) * 2 ^ (-53 : ℤ) = 1 - 2 ^ (-54 : ℤ) := by
          norm_num
        rw [e1]
        linarith
      have hn0 : 0 ≤ roundNearestEven ((r + 1) / 2 ^ (-53 : ℤ)) := by
        apply le_roundNearestEven
        push_cast
        exact div_nonneg hD0 (le_of_lt hu)
      refine ⟨_, hfin, mul_nonneg (by exact_mod_cast hn0) (le_of_lt hu), ?_⟩
      have h4 : (roundNearestEven ((r + 1) / 2 ^ (-53 : ℤ)) : ℚ) ≤ ((2 ^ 53 - 1 : ℤ) : ℚ) :=
        Int.cast_le.mpr hn1
      calc (roundNearestEven ((r + 1) / 2 ^ (-53 : ℤ)) : ℚ) * 2 ^ (-53 : ℤ)
          ≤ ((2 ^ 53 - 1 : ℤ) : ℚ) * 2 ^ (-53 : ℤ) :=
            mul_le_mul_of_nonneg_right h4 (le_of_lt hu)
        _ = 1 - 2 ^ (-53 : ℤ) := by norm_num

/-- A fraction in `[0, 1 - 2 ^ -53]` times an integer `M ≥ 1` rounds to a finite
value in `[0, M)`. -/
theorem round64_fraction_mul (d : ℚ) (M : ℤ) (hd0 : 0 ≤ d) (hd1 : d ≤ 1 - 2 ^ (-53 : ℤ))
    (hM1 : 1 ≤ M) (hM2 : M ≤ 2 ^ 52) :
    ∃ r : ℚ, round64 (d * M) = .fin r ∧ 0 ≤ r ∧ r < M := by
  have hMq1 : (1 : ℚ) ≤ M := by exact_mod_cast hM1
  have hMq2 : (M : ℚ) ≤ 2 ^ 52 := by
    have : ((M : ℤ) : ℚ) ≤ ((2 ^ 52 : ℤ) : ℚ) := Int.cast_le.mpr hM2
    push_cast at this
    exact this
  have hu : (0 : ℚ) < 2 ^ (-53 : ℤ) := two_zpow_pos _
  have hu1 : (2 : ℚ) ^ (-53 : ℤ) < 1 := by norm_num
  have hv : (2 : ℚ) ^ (-1075 : ℤ) < 2 ^ (-53 : ℤ) * 2 ^ (-53 : ℤ) := by
    rw [← zpow_add₀ (by norm_num)]
    exact zpow_lt_zpow_right₀ (by norm_num) (by norm_num)
  have hp0 : 0 ≤ d * M := mul_nonneg hd0 (by linarith)
  have hp1 : d * M ≤ (1 - 2 ^ (-53 : ℤ)) * M :=
    mul_le_mul_of_nonneg_right hd1 (by linarith)
  have hthr : d * M < 2 ^ 1024 - 2 ^ 970 := by
    have a1 : (1 - (2 : ℚ) ^ (-53 : ℤ)) * M ≤ M := by nlinarith
    have a2 : (2 : ℚ) ^ 52 < 2 ^ 1024 - 2 ^ 970 := by norm_num
    linarith
  obtain ⟨r, hr, hr0, hr1⟩ := round64_le_of_nonneg (d * M) hp0 hthr
  refine ⟨r, hr, hr0, ?_⟩
  generalize (2 : ℚ) ^ (-53 : ℤ) = u at *
  generalize (2 : ℚ) ^ (-1075 : ℤ) = v at *
  have b1 : d * M + d * M * u ≤ (1 - u) * M + (1 - u) * M * u := by
    have : d * M * u ≤ (1 - u) * M * u := mul_le_mul_of_nonneg_right hp1 (le_of_lt hu)
    linarith
  have b2 : (1 - u) * M + (1 - u) * M * u = M - M * (u * u) := by ring
  have b3 : u * u ≤ M * (u * u) := by
    have : 0 ≤ u * u := mul_nonneg (le_of_lt hu) (le_of_lt hu)
    nlinarith
  linarith

theorem mul_eq_fin (a b : F64) (r : ℚ) (h : a * b = .fin r) :
    ∃ p q : ℚ, a = .fin p ∧ b = .fin q ∧ round64 (p * q) = .fin r := by
  cases a with
  | nan => exact F64.noConfusion (show F64.mul F64.nan b = _ from h)
  | inf x =>
    cases b with
    | nan => exact F64.noConfusion (show F64.mul (F64.inf x) F64.nan = _ from h)
    | inf y => exact F64.noConfusion (show F64.mul (F64.inf x) (F64.inf y) = _ from h)
    | fin q =>
      have h2 : F64.mul (F64.inf x) (F64.fin q) = .fin r := h
      simp only [F64.mul] at h2
      split_ifs at h2
  | fin p =>
    cases b with
    | nan => exact F64.noConfusion (show F64.mul (F64.fin p) F64.nan = _ from h)
    | inf y =>
      have h2 : F64.mul (F64.fin p) (F64.inf y) = .fin r := h
      simp only [F64.mul] at h2
      split_ifs at h2
    | fin q => exact ⟨p, q, rfl, rfl, h⟩

/-- The closure `random(min, max)` in binary64, on integers `lo ≤ hi` of magnitude
at most `2 ^ 50`: when the scaled sine `x` is a finite value outside the interval
from `-2 ^ -54` to `0`, the result is an integer in `lo..hi`. -/
theorem random_in_range (sin : ℚ → ℚ) (seed : F64) (lo hi : ℤ) (hle : lo ≤ hi)
    (hlo : |lo| ≤ 2 ^ 50) (hhi : |hi| ≤ 2 ^ 50)
    (hreg : isRegular (scaledSine sin seed (.fin lo)) = true) :
    ∃ n : ℤ, random sin seed (.fin lo) (.fin hi) = .fin n ∧ lo ≤ n ∧ n ≤ hi := by
  have hlo2 := abs_le.mp hlo
  have hhi2 := abs_le.mp hhi
  -- the scaled sine is the rounding of a product
  obtain ⟨x, hx⟩ : ∃ x : ℚ, scaledSine sin seed (.fin lo) = .fin x := by
    cases hs : scaledSine sin seed (.fin lo) with
    | nan => rw [hs] at hreg; exact absurd hreg (by simp [isRegular])
    | inf b => rw [hs] at hreg; exact absurd hreg (by simp [isRegular])
    | fin x => exact ⟨x, rfl⟩
  rw [hx] at hreg
  obtain ⟨p, q, -, -, hpq⟩ := mul_eq_fin _ _ x (by unfold scaledSine at hx; exact hx)
  obtain ⟨d, hd, hd0, hd1⟩ := fraction_le (p * q) x hpq hreg
  -- the width `max - min + 1`
  have l1 : (1 : F64) = .fin 1 := by simpa using F64.ofNat_eq_fin 1 (by norm_num)
  have hw1 : F64.fin (hi : ℚ) - F64.fin (lo : ℚ) = .fin ((hi - lo : ℤ) : ℚ) := by
    rw [F64.fin_sub_fin]
    have := round64_intCast (hi - lo) (by rw [abs_le]; constructor <;> omega)
    push_cast at this ⊢
    rw [← sub_eq_add_neg]
    exact this
  have hw2 : F64.fin ((hi - lo : ℤ) : ℚ) + F64.fin 1 = .fin ((hi - lo + 1 : ℤ) : ℚ) := by
    rw [F64.fin_add_fin]
    have := round64_intCast (hi - lo + 1) (by rw [abs_le]; constructor <;> omega)
    push_cast at this ⊢
    exact this
  obtain ⟨r, hr, hr0, hr1⟩ := round64_fraction_mul d (hi - lo + 1) hd0 hd1 (by omega) (by omega)
  have hfl0 : 0 ≤ ⌊r⌋ := Int.floor_nonneg.mpr hr0
  have hfl1 : ⌊r⌋ < hi - lo + 1 := Int.floor_lt.mpr hr1
  have hsum : F64.fin ((⌊r⌋ : ℤ) : ℚ) + F64.fin (lo : ℚ) = .fin ((⌊r⌋ + lo : ℤ) : ℚ) := by
    rw [F64.fin_add_fin]
    have := round64_intCast (⌊r⌋ + lo) (by rw [abs_le]; constructor <;> omega)
    push_cast at this ⊢
    exact this
  refine ⟨⌊r⌋ + lo, ?_, by omega, by omega⟩
  unfold random
  simp only [hx]
  rw [hd, hw1, l1, hw2, F64.fin_mul_fin, hr, Math.floor_fin, hsum]

/-! ## Binary64: `fetchTestnetData` on an accepted address -/

theorem seedOf_fin (address : String) (h : isAddressForm address = true) :
    ∃ k : ℕ, seedOf address = .fin k ∧ k < 2 ^ 32 := by
  obtain ⟨k, hk, hk32⟩ := GensynChecker.seedOf_of_form address h
  refine ⟨k, ?_, hk32⟩
  have e : seedOf address = ofJSNum (GensynChecker.seedOf address) := rfl
  rw [e, hk]
  show round64 (k : ℚ) = _
  have := round64_intCast (k : ℤ) (by
    rw [abs_of_nonneg (Int.natCast_nonneg k)]
    have : (k : ℤ) < 2 ^ 32 := by exact_mod_cast hk32
    omega)
  simpa using this

/-- The hardware tier assigned by the `if` chain is one of the literals 1 to 5,
whatever the hardware pattern. -/
theorem hardwareOf_tier_f64 (x : F64) :
    ∃ t : ℤ, (hardwareOf x).1 = .fin t ∧ 1 ≤ t ∧ t ≤ 5 := by
  have l1 : (1 : F64) = .fin ((1 : ℤ) : ℚ) := by simpa using F64.ofNat_eq_fin 1 (by norm_num)
  have l2 : (2 : F64) = .fin ((2 : ℤ) : ℚ) := by simpa using F64.ofNat_eq_fin 2 (by norm_num)
  have l3 : (3 : F64) = .fin ((3 : ℤ) : ℚ) := by simpa using F64.ofNat_eq_fin 3 (by norm_num)
  have l4 : (4 : F64) = .fin ((4 : ℤ) : ℚ) := by simpa using F64.ofNat_eq_fin 4 (by norm_num)
  have l5 : (5 : F64) = .fin ((5 : ℤ) : ℚ) := by simpa using F64.ofNat_eq_fin 5 (by norm_num)
  unfold hardwareOf
  split_ifs
  · exact ⟨5, l5, by norm_num, by norm_num⟩
  · exact ⟨4, l4, by norm_num, by norm_num⟩
  · exact ⟨3, l3, by norm_num, by norm_num⟩
  · exact ⟨2, l2, by norm_num, by norm_num⟩
  · exact ⟨1, l1, by norm_num, by norm_num⟩

theorem fetchTestnetData_of_form_f64 (sin : ℚ → ℚ) (address : String)
    (h : isAddressForm address = true) :
    fetchTestnetData sin address
      = .ok { transactions := random sin (seedOf address) 10 250
              firstTxDaysAgo := random sin (seedOf address) 30 270
              uptime := random sin (seedOf address) 40 98
              testnetScore := random sin (seedOf address) 100 10000
              hardwareTier := (hardwareOf (hwPatternOf address)).1
              hardwareName := (hardwareOf (hwPatternOf address)).2 } := by
  simp [fetchTestnetData, regexMatch_addressPattern, h]

/-- One call `random(lo, hi)` of `fetchTestnetData`, with literal bounds. -/
theorem random_literal (sin : ℚ → ℚ) (seed : F64) (lo hi : ℕ) (hle : lo ≤ hi)
    (hhi : hi ≤ 10000)
    (hreg : isRegular (scaledSine sin seed (OfNat.ofNat lo)) = true) :
    ∃ n : ℤ, random sin seed (OfNat.ofNat lo) (OfNat.ofNat hi) = .fin n ∧
      (lo : ℤ) ≤ n ∧ n ≤ (hi : ℤ) := by
  have e1 : (OfNat.ofNat lo : F64) = .fin ((lo : ℤ) : ℚ) := by
    simpa using F64.ofNat_eq_fin lo (by omega)
  have e2 : (OfNat.ofNat hi : F64) = .fin ((hi : ℤ) : ℚ) := by
    simpa using F64.ofNat_eq_fin hi (by omega)
  rw [e1] at hreg ⊢
  rw [e2]
  exact random_in_range sin seed lo hi (by exact_mod_cast hle)
    (by rw [abs_of_nonneg (Int.natCast_nonneg lo)]; omega)
    (by rw [abs_of_nonneg (Int.natCast_nonneg hi)]; omega) hreg

/-- C5, amended: on every accepted address the seed is a natural number below
`2 ^ 32`; for all integers `lo ≤ hi` of magnitude at most `2 ^ 50`, whenever the
value `x = Math.sin(seed + lo) * 10000` computed in binary64 is finite and
outside the interval from `-2 ^ -54` to `0`, `random(lo, hi)` computed in
binary64 is an integer in `lo..hi`; so, under that condition on the `x` of each
call, the sample returned has `transactions` in `10..250`, `firstTxDaysAgo` in
`30..270`, `uptime` in `40..98` and `testnetScore` in `100..10000`; and in every
case `hardwareTier` is in `1..5` and the table `hardwareMultipliers` has an entry
for it. -/
theorem sample_wellFormed_of_regular (sin : ℚ → ℚ) (address : String)
    (h : isAddressForm address = true) :
    (∃ k : ℕ, seedOf address = .fin k ∧ k < 2 ^ 32 ∧
      ∀ lo hi : ℤ, lo ≤ hi → |lo| ≤ 2 ^ 50 → |hi| ≤ 2 ^ 50 →
        isRegular (scaledSine sin (seedOf address) (.fin lo)) = true →
        ∃ n : ℤ, random sin (seedOf address) (.fin lo) (.fin hi) = .fin n ∧
          lo ≤ n ∧ n ≤ hi) ∧
    ∃ s : TelemetrySample, fetchTestnetData sin address = .ok s ∧
      (isRegular (scaledSine sin (seedOf address) 10) = true →
        ∃ n : ℤ, s.transactions = .fin n ∧ 10 ≤ n ∧ n ≤ 250) ∧
      (isRegular (scaledSine sin (seedOf address) 30) = true →
        ∃ n : ℤ, s.firstTxDaysAgo = .fin n ∧ 30 ≤ n ∧ n ≤ 270) ∧
      (isRegular (scaledSine sin (seedOf address) 40) = true →
        ∃ n : ℤ, s.uptime = .fin n ∧ 40 ≤ n ∧ n ≤ 98) ∧
      (isRegular (scaledSine sin (seedOf address) 100) = true →
        ∃ n : ℤ, s.testnetScore = .fin n ∧ 100 ≤ n ∧ n ≤ 10000) ∧
      (∃ t : ℤ, s.hardwareTier = .fin t ∧ 1 ≤ t ∧ t ≤ 5) ∧
      ∃ m : ℚ, hardwareMultipliers s.hardwareTier = some (.fin m) := by
  obtain ⟨k, hk, hk32⟩ := seedOf_fin address h
  obtain ⟨t, ht, ht1, ht5⟩ := hardwareOf_tier_f64 (hwPatternOf address)
  refine ⟨⟨k, hk, hk32, fun lo hi hle hlo hhi hreg =>
      random_in_range sin (seedOf address) lo hi hle hlo hhi hreg⟩,
    _, fetchTestnetData_of_form_f64 sin address h, ?_, ?_, ?_, ?_, ⟨t, ht, ht1, ht5⟩, ?_⟩
  · intro hreg
    obtain ⟨n, hn, a, b⟩ := random_literal sin (seedOf address) 10 250 (by norm_num)
      (by norm_num) hreg
    exact ⟨n, hn, by exact_mod_cast a, by exact_mod_cast b⟩
  · intro hreg
    obtain ⟨n, hn, a, b⟩ := random_literal sin (seedOf address) 30 270 (by norm_num)
      (by norm_num) hreg
    exact ⟨n, hn, by exact_mod_cast a, by exact_mod_cast b⟩
  · intro hreg
    obtain ⟨n, hn, a, b⟩ := random_literal sin (seedOf address) 40 98 (by norm_num)
      (by norm_num) hreg
    exact ⟨n, hn, by exact_mod_cast a, by exact_mod_cast b⟩
  · intro hreg
    obtain ⟨n, hn, a, b⟩ := random_literal sin (seedOf address) 100 10000 (by norm_num)
      (by norm_num) hreg
    exact ⟨n, hn, by exact_mod_cast a, by exact_mod_cast b⟩
  · obtain ⟨m, hm, q, hq, -⟩ := hardwareMultipliers_fin t ht1 ht5
    refine ⟨q, ?_⟩
    show hardwareMultipliers (hardwareOf (hwPatternOf address)).1 = _
    rw [ht, hm, hq]

/-- With a sine constantly `1 / 2` the scaled sine of an accepted address is
5000. -/
theorem scaledSine_half (address : String) (h : isAddressForm address = true) (lo : ℕ)
    (hlo : lo ≤ 10000) :
    scaledSine (fun _ => 1 / 2) (seedOf address) (OfNat.ofNat lo) = .fin 5000 := by
  obtain ⟨k, hk, hk32⟩ := seedOf_fin address h
  have e1 : (OfNat.ofNat lo : F64) = .fin (lo : ℚ) := F64.ofNat_eq_fin lo (by omega)
  have e2 : (10000 : F64) = .fin 10000 := by simpa using F64.ofNat_eq_fin 10000 (by norm_num)
  have hsum : round64 ((k : ℚ) + (lo : ℚ)) = .fin (((k + lo : ℕ) : ℤ) : ℚ) := by
    have := round64_intCast ((k + lo : ℕ) : ℤ) (by
      rw [abs_of_nonneg (Int.natCast_nonneg _)]
      have : ((k + lo : ℕ) : ℤ) < 2 ^ 32 + 10001 := by omega
      omega)
    push_cast at this ⊢
    exact this
  have hhalf : round64 (1 / 2) = .fin (1 / 2) := by
    have := round64_of_representable 1 (-1) (by norm_num) (by norm_num)
      (by rw [abs_of_pos (by positivity)]; norm_num)
    norm_num at this ⊢
    exact this
  have h5000 : round64 (1 / 2 * 10000) = .fin 5000 := by
    have := round64_intCast 5000 (by norm_num)
    norm_num at this ⊢
    exact this
  unfold scaledSine
  rw [hk, e1, e2, F64.fin_add_fin, hsum]
  show round64 (1 / 2) * F64.fin 10000 = _
  rw [hhalf, F64.fin_mul_fin, h5000]

theorem isRegular_5000 : isRegular (.fin 5000) = true := by
  simp [isRegular]

/-- Instance of the amended C5 on the address `addressLower`, with a sine that is
constantly `1 / 2`: the scaled sine is 5000, and the sample is well formed. -/
theorem sample_wellFormed_of_regular_witness :
    isAddressForm addressLower = true ∧
    ∃ s : TelemetrySample, fetchTestnetData (fun _ => 1 / 2) addressLower = .ok s ∧
      (∃ n : ℤ, s.transactions = .fin n ∧ 10 ≤ n ∧ n ≤ 250) ∧
      (∃ n : ℤ, s.testnetScore = .fin n ∧ 100 ≤ n ∧ n ≤ 10000) ∧
      (∃ t : ℤ, s.hardwareTier = .fin t ∧ 1 ≤ t ∧ t ≤ 5) :=
  ⟨by decide,
    (sample_wellFormed_of_regular (fun _ => 1 / 2) addressLower (by decide)).2.imp
      (fun _ hs => ⟨hs.1,
        hs.2.1 (by rw [scaledSine_half addressLower (by decide) 10 (by norm_num)]
                   exact isRegular_5000),
        hs.2.2.2.2.1 (by rw [scaledSine_half addressLower (by decide) 100 (by norm_num)]
                         exact isRegular_5000),
        hs.2.2.2.2.2.1⟩)⟩

/-! ## Binary64: where `random` leaves its range -/

/-- With bounds `-2 ^ 1023` and `2 ^ 1023` the width `max - min + 1` overflows, and
`random` returns no finite number, whatever the seed and the sine. -/
theorem random_not_finite_at_huge_bounds (sin : ℚ → ℚ) (seed : F64) :
    ¬ ∃ q : ℚ, random sin seed (.fin (-(2 : ℚ) ^ 1023)) (.fin ((2 : ℚ) ^ 1023)) = .fin q := by
  have l1 : (1 : F64) = .fin 1 := by simpa using F64.ofNat_eq_fin 1 (by norm_num)
  have hw : F64.fin ((2 : ℚ) ^ 1023) - F64.fin (-(2 : ℚ) ^ 1023) = .inf false := by
    rw [F64.fin_sub_fin, round64_of_ge _ (by
      rw [neg_neg, abs_of_pos (by positivity)]
      norm_num)]
    have : ¬ ((2 : ℚ) ^ 1023 + - -(2 : ℚ) ^ 1023 < 0) := by
      rw [neg_neg]
      have : (0 : ℚ) < 2 ^ 1023 := by positivity
      linarith
    simp only [this, decide_False]
  have hw2 : F64.inf false + F64.fin 1 = .inf false := rfl
  unfold random
  simp only [hw, l1, hw2]
  generalize scaledSine sin seed (F64.fin (-(2 : ℚ) ^ 1023))
    - Math.floor (scaledSine sin seed (F64.fin (-(2 : ℚ) ^ 1023))) = y
  rintro ⟨q, hq⟩
  cases y with
  | nan => exact F64.noConfusion hq
  | inf b =>
    have e : F64.inf b * F64.inf false = .inf (xor b false) := rfl
    rw [e] at hq
    exact F64.noConfusion hq
  | fin a =>
    by_cases ha : a = 0
    · have e : F64.fin a * F64.inf false = .nan := by
        show F64.mul (F64.fin a) (F64.inf false) = _
        simp [F64.mul, ha]
      rw [e] at hq
      exact F64.noConfusion hq
    · have e : F64.fin a * F64.inf false = .inf (xor (decide (a < 0)) false) := by
        show F64.mul (F64.fin a) (F64.inf false) = _
        simp [F64.mul, ha]
      rw [e] at hq
      exact F64.noConfusion hq

/-- C5 as stated fails in binary64: `-2 ^ 1023 ≤ 2 ^ 1023` are integers, the
address `addressFF` is accepted, and `random(-2 ^ 1023, 2 ^ 1023)` is not an
integer in that range (it is an infinity or `NaN`), here with a sine constantly
`1 / 2`. -/
theorem random_out_of_range_at_huge_bounds :
    isAddressForm addressFF = true ∧ (-(2 : ℤ) ^ 1023 ≤ 2 ^ 1023) ∧
    ¬ ∃ n : ℤ, random (fun _ => 1 / 2) (seedOf addressFF)
        (.fin (-(2 : ℚ) ^ 1023)) (.fin ((2 : ℚ) ^ 1023)) = .fin n ∧
      -(2 : ℤ) ^ 1023 ≤ n ∧ n ≤ 2 ^ 1023 := by
  refine ⟨by decide, ?_, ?_⟩
  · have : (0 : ℤ) ≤ 2 ^ 1023 := by positivity
    omega
  · rintro ⟨n, hn, -⟩
    exact random_not_finite_at_huge_bounds _ _ ⟨n, hn⟩

theorem roundNearestEven_eq (x : ℚ) (n : ℤ) (h1 : (n : ℚ) - 1 / 2 < x)
    (h2 : x < (n : ℚ) + 1 / 2) : roundNearestEven x = n := by
  apply le_antisymm (roundNearestEven_le_of_lt_half x n h2)
  rcases le_or_lt n ⌊x⌋ with hle | hlt
  · exact le_trans hle (floor_le_roundNearestEven x)
  · have hfl : ⌊x⌋ = n - 1 := by
      have : n - 1 ≤ ⌊x⌋ := Int.le_floor.mpr (by push_cast; linarith)
      omega
    have hfr : 1 / 2 < x - ⌊x⌋ := by
      rw [hfl]
      push_cast
      linarith
    unfold roundNearestEven
    rw [if_neg (not_lt.mpr (le_of_lt hfr)), if_pos hfr, hfl]
    omega

/-- Just below 1, nearer than `2 ^ -54`, rounding gives 1. -/
theorem round64_near_one (q : ℚ) (h1 : 1 - 2 ^ (-54 : ℤ) < q) (h2 : q < 1) :
    round64 q = .fin 1 := by
  have hq0 : 0 < q := by
    have : (2 : ℚ) ^ (-54 : ℤ) < 1 := by norm_num
    linarith
  have hE : binadeExp q = -1 := by
    have a1 := binadeExp_le q (-1) (by norm_num) (ne_of_gt hq0) (by
      rw [abs_of_pos hq0]
      have : (2 : ℚ) ^ ((-1 : ℤ) + 1) = 1 := by norm_num
      rw [this]
      exact h2)
    have a2 := le_binadeExp q (-1) (by
      rw [abs_of_pos hq0]
      have : (2 : ℚ) ^ (-1 : ℤ) ≤ 1 - 2 ^ (-54 : ℤ) := by norm_num
      linarith)
    omega
  rw [round64_of_lt q (by
    rw [abs_of_pos hq0]
    have : (1 : ℚ) < 2 ^ 1024 - 2 ^ 970 := by norm_num
    linarith), hE, show ((-1 : ℤ) - 52) = -53 by norm_num]
  have hu : (0 : ℚ) < 2 ^ (-53 : ℤ) := two_zpow_pos _
  have hn : roundNearestEven (q / 2 ^ (-53 : ℤ)) = 2 ^ 53 := by
    apply roundNearestEven_eq
    · rw [lt_div_iff₀ hu]
      have e : (((2 ^ 53 : ℤ) : ℚ) - 1 / 2) * 2 ^ (-53 : ℤ) = 1 - 2 ^ (-54 : ℤ) := by norm_num
      rw [e]
      exact h1
    · rw [div_lt_iff₀ hu]
      have e : (((2 ^ 53 : ℤ) : ℚ) + 1 / 2) * 2 ^ (-53 : ℤ) = 1 + 2 ^ (-54 : ℤ) := by norm_num
      rw [e]
      have : (0 : ℚ) < 2 ^ (-54 : ℤ) := two_zpow_pos _
      linarith
  rw [hn]
  congr 1
  norm_num

/-- The condition on the scaled sine in the amended C5 cannot be dropped: if the
sine returned `-2 ^ -84`, the scaled sine would lie between `-2 ^ -54` and `0`, the
difference `x - Math.floor(x)` would round to 1, and `random(10, 250)` would be
251. -/
theorem random_reaches_251 :
    isRegular (scaledSine (fun _ => -(2 : ℚ) ^ (-84 : ℤ)) (.fin 0) 10) = false ∧
    random (fun _ => -(2 : ℚ) ^ (-84 : ℤ)) (.fin 0) 10 250 = .fin 251 := by
  have l1 : (1 : F64) = .fin 1 := by simpa using F64.ofNat_eq_fin 1 (by norm_num)
  have l10 : (10 : F64) = .fin 10 := by simpa using F64.ofNat_eq_fin 10 (by norm_num)
  have l250 : (250 : F64) = .fin 250 := by simpa using F64.ofNat_eq_fin 250 (by norm_num)
  have l10000 : (10000 : F64) = .fin 10000 := by
    simpa using F64.ofNat_eq_fin 10000 (by norm_num)
  have r10 : round64 (0 + 10) = .fin 10 := by
    have := round64_intCast 10 (by norm_num)
    norm_num at this ⊢
    exact this
  have rs : round64 (-(2 : ℚ) ^ (-84 : ℤ)) = .fin (-(2 : ℚ) ^ (-84 : ℤ)) := by
    have := round64_of_representable (-1) (-84) (by norm_num) (by norm_num)
      (by rw [abs_of_neg (by norm_num)]; norm_num)
    have e : ((-1 : ℤ) : ℚ) * 2 ^ (-84 : ℤ) = -(2 : ℚ) ^ (-84 : ℤ) := by norm_num
    rw [e] at this
    exact this
  have rx : round64 (-(2 : ℚ) ^ (-84 : ℤ) * 10000) = .fin (-(10000 : ℚ) * 2 ^ (-84 : ℤ)) := by
    have := round64_of_representable (-10000) (-84) (by norm_num) (by norm_num)
      (by rw [abs_of_neg (by norm_num)]; norm_num)
    have e : ((-10000 : ℤ) : ℚ) * 2 ^ (-84 : ℤ) = -(2 : ℚ) ^ (-84 : ℤ) * 10000 := by norm_num
    have e2 : ((-10000 : ℤ) : ℚ) * 2 ^ (-84 : ℤ) = -(10000 : ℚ) * 2 ^ (-84 : ℤ) := by norm_num
    rw [e] at this
    rw [this, ← e, e2]
  have hx : scaledSine (fun _ => -(2 : ℚ) ^ (-84 : ℤ)) (.fin 0) 10
      = .fin (-(10000 : ℚ) * 2 ^ (-84 : ℤ)) := by
    unfold scaledSine
    rw [l10, l10000, F64.fin_add_fin, r10]
    show round64 (-(2 : ℚ) ^ (-84 : ℤ)) * F64.fin 10000 = _
    rw [rs, F64.fin_mul_fin, rx]
  have hfl : ⌊-(10000 : ℚ) * 2 ^ (-84 : ℤ)⌋ = -1 := by
    rw [Int.floor_eq_iff]
    constructor <;> norm_num
  have hfrac : F64.fin (-(10000 : ℚ) * 2 ^ (-84 : ℤ))
      - Math.floor (.fin (-(10000 : ℚ) * 2 ^ (-84 : ℤ))) = .fin 1 := by
    rw [Math.floor_fin, hfl, F64.fin_sub_fin]
    apply round64_near_one <;> norm_num
  have hw : F64.fin 250 - F64.fin 10 + F64.fin 1 = .fin 241 := by
    have a := round64_intCast 240 (by norm_num)
    have b := round64_intCast 241 (by norm_num)
    rw [F64.fin_sub_fin]
    norm_num at a b ⊢
    rw [a, F64.fin_add_fin]
    norm_num
    exact b
  have hp : F64.fin 1 * F64.fin 241 = .fin 241 := by
    have b := round64_intCast 241 (by norm_num)
    rw [F64.fin_mul_fin]
    norm_num at b ⊢
    exact b
  have hsum : F64.fin 241 + F64.fin 10 = .fin 251 := by
    have b := round64_intCast 251 (by norm_num)
    rw [F64.fin_add_fin]
    norm_num at b ⊢
    exact b
  constructor
  · rw [hx]
    simp only [isRegular, Bool.not_eq_false', Bool.and_eq_true, decide_eq_true_eq]
    constructor <;> norm_num
  · unfold random
    simp only [hx]
    rw [hfrac, l250, l10, l1, hw, hp, Math.floor_fin]
    have : ((⌊(241 : ℚ)⌋ : ℤ) : ℚ) = 241 := by norm_num
    rw [this, hsum]

/-! ## Binary64: a sine that is not tiny gives a regular scaled sine -/

/-- A value that is at most `-2 ^ k`, with `k` in the exponent range, and above the
negative overflow threshold rounds to a finite value that is at most `-2 ^ k`. -/
theorem round64_le_neg_zpow (q : ℚ) (k : ℤ) (hk1 : -1022 ≤ k) (h : q ≤ -(2 : ℚ) ^ k)
    (hthr : -(2 ^ 1024 - 2 ^ 970) < q) :
    ∃ r : ℚ, round64 q = .fin r ∧ r ≤ -(2 : ℚ) ^ k := by
  have hqneg : q < 0 := lt_of_le_of_lt h (neg_lt_zero.mpr (two_zpow_pos k))
  have habs : |q| = -q := abs_of_neg hqneg
  have hU := two_zpow_pos (binadeExp q - 52)
  refine ⟨_, round64_of_lt q (by rw [habs]; linarith), ?_⟩
  have hkE : k ≤ binadeExp q := le_binadeExp q k (by rw [habs]; linarith)
  have hlow : (2 : ℚ) ^ binadeExp q ≤ -q := by
    have := zpow_binadeExp_le q (le_trans (zpow_le_zpow_right₀ (by norm_num) hk1)
      (by rw [habs]; linarith))
    rw [habs] at this
    exact this
  have e : (2 : ℚ) ^ binadeExp q = ((2 ^ 52 : ℤ) : ℚ) * 2 ^ (binadeExp q - 52) := by
    rw [show binadeExp q = 52 + (binadeExp q - 52) by ring, zpow_add₀ (by norm_num)]
    norm_num
  have hx : q / 2 ^ (binadeExp q - 52) ≤ ((-(2 ^ 52) : ℤ) : ℚ) := by
    rw [div_le_iff₀ hU]
    push_cast
    push_cast at e
    linarith
  have b : roundNearestEven (q / 2 ^ (binadeExp q - 52)) ≤ -(2 ^ 52) :=
    roundNearestEven_le _ _ hx
  have b2 : (roundNearestEven (q / 2 ^ (binadeExp q - 52)) : ℚ) ≤ -((2 ^ 52 : ℤ) : ℚ) := by
    have := Int.cast_le (R := ℚ) |>.mpr b
    push_cast at this ⊢
    exact this
  calc (roundNearestEven (q / 2 ^ (binadeExp q - 52)) : ℚ) * 2 ^ (binadeExp q - 52)
      ≤ -((2 ^ 52 : ℤ) : ℚ) * 2 ^ (binadeExp q - 52) :=
        mul_le_mul_of_nonneg_right b2 (le_of_lt hU)
    _ = -(2 : ℚ) ^ binadeExp q := by rw [e]; ring
    _ ≤ -(2 : ℚ) ^ k := neg_le_neg (zpow_le_zpow_right₀ (by norm_num) hkE)

/-- When the sine has magnitude between `2 ^ -60` and 1, the scaled sine
`Math.sin(a) * 10000` is finite and outside the interval from `-2 ^ -54` to `0`. -/
theorem isRegular_of_sine (sin : ℚ → ℚ) (a : ℚ) (h1 : (2 : ℚ) ^ (-60 : ℤ) ≤ |sin a|)
    (h2 : |sin a| ≤ 1) :
    isRegular (Math.sin sin (.fin a) * 10000) = true := by
  have l10000 : (10000 : F64) = .fin 10000 := by
    simpa using F64.ofNat_eq_fin 10000 (by norm_num)
  show isRegular (round64 (sin a) * 10000) = true
  rw [l10000]
  obtain ⟨s, hs, hsb, hs0, hs1⟩ := round64_abs_le (sin a) 0 (by norm_num) (by norm_num)
    (by rw [zpow_zero]; exact h2)
  rw [zpow_zero] at hsb
  have hsb2 := abs_le.mp hsb
  rw [hs, F64.fin_mul_fin]
  rcases le_or_lt 0 (sin a) with hpos | hneg
  · obtain ⟨x, hx, -, hx0, -⟩ := round64_abs_le (s * 10000) 14 (by norm_num) (by norm_num)
      (by
        rw [abs_mul]
        have : |(10000 : ℚ)| = 10000 := abs_of_pos (by norm_num)
        rw [this]
        have : (2 : ℚ) ^ (14 : ℤ) = 16384 := by norm_num
        rw [this]
        nlinarith [abs_nonneg s])
    rw [hx]
    have hx1 := hx0 (mul_nonneg (hs0 hpos) (by norm_num))
    simp only [isRegular, Bool.not_eq_true', Bool.and_eq_false_iff, decide_eq_false_iff_not,
      not_le, not_lt]
    exact Or.inr hx1
  · have hq : sin a ≤ -(2 : ℚ) ^ (-60 : ℤ) := by
      rw [abs_of_neg hneg] at h1
      linarith
    obtain ⟨s2, hs2, hs2b⟩ := round64_le_neg_zpow (sin a) (-60) (by norm_num) hq (by
      rw [abs_of_neg hneg] at h2
      have : (1 : ℚ) < 2 ^ 1024 - 2 ^ 970 := by norm_num
      linarith)
    rw [hs] at hs2
    injection hs2 with hs2
    subst hs2
    have hprod : s * 10000 ≤ -(2 : ℚ) ^ (-47 : ℤ) := by
      have e : -(2 : ℚ) ^ (-47 : ℤ) = -(2 : ℚ) ^ (-60 : ℤ) * 8192 := by norm_num
      rw [e]
      have hu : (0 : ℚ) < 2 ^ (-60 : ℤ) := two_zpow_pos _
      nlinarith
    obtain ⟨x, hx, hxb⟩ := round64_le_neg_zpow (s * 10000) (-47) (by norm_num) hprod (by
      have : (1 : ℚ) * 10000 < 2 ^ 1024 - 2 ^ 970 := by norm_num
      nlinarith [hsb2.1])
    rw [hx]
    have hlt : x < -(2 : ℚ) ^ (-54 : ℤ) := by
      have : -(2 : ℚ) ^ (-47 : ℤ) < -(2 : ℚ) ^ (-54 : ℤ) := by norm_num
      linarith
    simp only [isRegular, Bool.not_eq_true', Bool.and_eq_false_iff, decide_eq_false_iff_not,
      not_le, not_lt]
    exact Or.inl hlt

end Binary64

end GensynChecker
